import Mathlib

/-!
Verification development for the `KernFeatureWriter` kerning-feature generator
(`Lib/ufo2ft/kernFeatureWriter.py`).

The Python code is shallowly embedded: every Python dict is modelled as an
insertion-ordered association list (`Dict`), `d[k] = v` updates in place or
appends, `del d[k]` removes the unique entry, and iteration follows list
order.  The external `feaTools` feature-source parser is represented by its
observable output: the list of `(name, contents)` class definitions it reports
through the `classDefinition` callback.  Fallible indexing (`contents[0]`)
is modelled with `Except`.
-/

set_option maxRecDepth 10000

/-- Insertion-ordered association list standing for a Python dict. -/
abbrev Dict (α β : Type) := List (α × β)

/-- Python `d.get(k)` / `k in d` lookup: first entry with the given key. -/
def dget {α β : Type} [BEq α] (d : Dict α β) (k : α) : Option β :=
  match d with
  | [] => none
  | p :: rest => if p.1 == k then some p.2 else dget rest k

/-- Python `d[k] = v`: overwrite in place if the key exists, else append. -/
def dset {α β : Type} [BEq α] (d : Dict α β) (k : α) (v : β) : Dict α β :=
  match d with
  | [] => [(k, v)]
  | p :: rest => if p.1 == k then (k, v) :: rest else p :: dset rest k v

/-- Python `del d[k]` / `kerning.remove(k)`: drop entries with the given key. -/
def ddel {α β : Type} [BEq α] (d : Dict α β) (k : α) : Dict α β :=
  d.filter (fun p => p.1 != k)

/-- Python `d1.copy(); d1.update(d2)`: entries of `d2` override those of `d1`. -/
def dictUpdate {α β : Type} [BEq α] (d1 d2 : Dict α β) : Dict α β :=
  d2.foldl (fun d p => dset d p.1 p.2) d1

/-- Stable insertion of an element into a sorted list (used by `isort`). -/
def insertLe {α : Type} (le : α → α → Bool) (x : α) : List α → List α
  | [] => [x]
  | y :: ys => if le x y then x :: y :: ys else y :: insertLe le x ys

/-- Stable sort by a boolean comparison, modelling Python `sorted`. -/
def isort {α : Type} (le : α → α → Bool) : List α → List α
  | [] => []
  | x :: xs => insertLe le x (isort le xs)

/-- Lexicographic comparison of character lists by code point, as Python
compares strings. -/
def charListLt : List Char → List Char → Bool
  | _, [] => false
  | [], _ :: _ => true
  | a :: as, b :: bs => decide (a.toNat < b.toNat) || (a == b && charListLt as bs)

/-- Python `a < b` on strings. -/
def strLt (a b : String) : Bool :=
  charListLt a.toList b.toList

/-- Boolean string order mirroring Python string comparison. -/
def strLe (a b : String) : Bool :=
  strLt a b || a == b

/-- Python tuple comparison on `((left, right), value)` kerning items. -/
def itemLe (a b : (String × String) × Int) : Bool :=
  strLt a.1.1 b.1.1 ||
    (a.1.1 == b.1.1 && (strLt a.1.2 b.1.2 ||
      (a.1.2 == b.1.2 && decide (a.2 ≤ b.2))))

/-- Comparison of `(className, members)` items for `sorted(ufoClasses.items())`. -/
def classItemLe (a b : String × List String) : Bool :=
  strLt a.1 b.1 || a.1 == b.1

/-- Kernel-computable `String.startsWith`. -/
def strStarts (s p : String) : Bool :=
  p.toList.isPrefixOf s.toList

/-- `re.match(pat + "(.+)", name)`: the literal pattern is a prefix and at
least one non-newline character follows. -/
def reMatchPat (pat : String) (name : String) : Bool :=
  pat.toList.isPrefixOf name.toList &&
    (match name.toList.drop pat.toList.length with
     | [] => false
     | c :: _ => c != '\n')

def leftUfoGroupPat : String := "public.kern1."
def rightUfoGroupPat : String := "public.kern2."
def leftFeaClassPat : String := "@MMK_L_"
def rightFeaClassPat : String := "@MMK_R_"

/-- The mutable state of a `KernFeatureWriter` instance. -/
structure KernState where
  kerning : Dict (String × String) Int
  groups : Dict String (List String)
  leftFeaClasses : Dict String (List String) := []
  rightFeaClasses : Dict String (List String) := []
  leftUfoClasses : Dict String (List String) := []
  rightUfoClasses : Dict String (List String) := []
  glyphPairKerning : Dict (String × String) Int := []
  leftClassKerning : Dict (String × String) Int := []
  rightClassKerning : Dict (String × String) Int := []
  classPairKerning : Dict (String × String) Int := []
  deriving Repr, DecidableEq, Inhabited

/-- `_getGlyphKern(kerning, glyphName, index)`: entries whose side `index`
equals `glyphName`, in table order. -/
def getGlyphKern (kerning : Dict (String × String) Int) (glyphName : String)
    (index : Nat) : List ((String × String) × Int) :=
  kerning.filter (fun kv => (if index == 0 then kv.1.1 else kv.1.2) == glyphName)

/-- `classDefinition(name, contents)`: route a parsed class definition into the
left or right feature-class dict by name pattern. -/
def classDefinition (st : KernState) (name : String) (contents : List String) :
    KernState :=
  if reMatchPat leftFeaClassPat name then
    { st with leftFeaClasses := dset st.leftFeaClasses name contents }
  else if reMatchPat rightFeaClassPat name then
    { st with rightFeaClasses := dset st.rightFeaClasses name contents }
  else st

/-- `_collectFeaClasses()`: feed every class definition reported by the
feature-source parser through `classDefinition`. -/
def collectFeaClasses (st : KernState) (featDecls : List (String × List String)) :
    KernState :=
  featDecls.foldl (fun s d => classDefinition s d.1 d.2) st

/-- Python `contents[0]`, raising `IndexError` on an empty list. -/
def headE (l : List String) : Except String String :=
  match l with
  | [] => Except.error "list index out of range"
  | x :: _ => Except.ok x

/-- Inner loop of `_collectFeaClassKerning`: for a fixed left class and its key
glyph, try every right feature class's key glyph as a pair. -/
def feaClassPairLoop (st : KernState) (leftName leftKey : String) :
    List (String × List String) → Except String KernState
  | [] => Except.ok st
  | (rightName, rightContents) :: rest =>
    match headE rightContents with
    | Except.error e => Except.error e
    | Except.ok rightKey =>
      let pair := (leftKey, rightKey)
      match dget st.kerning pair with
      | none => feaClassPairLoop st leftName leftKey rest
      | some v =>
        feaClassPairLoop
          { st with
            classPairKerning := dset st.classPairKerning (leftName, rightName) v,
            kerning := ddel st.kerning pair }
          leftName leftKey rest

/-- Consume kerning hits on a left key glyph into `leftClassKerning`. -/
def consumeLeftHits (st : KernState) (leftName : String)
    (hits : List ((String × String) × Int)) : KernState :=
  hits.foldl (fun s kv =>
    { s with
      leftClassKerning := dset s.leftClassKerning (leftName, kv.1.2) kv.2,
      kerning := ddel s.kerning kv.1 }) st

/-- Outer loop of `_collectFeaClassKerning` over left feature classes. -/
def feaLeftLoop (st : KernState) :
    List (String × List String) → Except String KernState
  | [] => Except.ok st
  | (leftName, leftContents) :: rest =>
    match headE leftContents with
    | Except.error e => Except.error e
    | Except.ok leftKey =>
      match feaClassPairLoop st leftName leftKey st.rightFeaClasses with
      | Except.error e => Except.error e
      | Except.ok st1 =>
        feaLeftLoop (consumeLeftHits st1 leftName (getGlyphKern st1.kerning leftKey 0)) rest

/-- Consume kerning hits on a right key glyph into `rightClassKerning`. -/
def consumeRightHits (st : KernState) (rightName : String)
    (hits : List ((String × String) × Int)) : KernState :=
  hits.foldl (fun s kv =>
    { s with
      rightClassKerning := dset s.rightClassKerning (kv.1.1, rightName) kv.2,
      kerning := ddel s.kerning kv.1 }) st

/-- Final loop of `_collectFeaClassKerning` over right feature classes. -/
def feaRightLoop (st : KernState) :
    List (String × List String) → Except String KernState
  | [] => Except.ok st
  | (rightName, rightContents) :: rest =>
    match headE rightContents with
    | Except.error e => Except.error e
    | Except.ok rightKey =>
      feaRightLoop (consumeRightHits st rightName (getGlyphKern st.kerning rightKey 1)) rest

/-- `_collectFeaClassKerning()` as in the source: left-class loop (with the
nested class-pair loop and the left-class-glyph collection), then the
right-class loop. -/
def collectFeaClassKerning (st : KernState) : Except String KernState :=
  match feaLeftLoop st st.leftFeaClasses with
  | Except.error e => Except.error e
  | Except.ok st1 => feaRightLoop st1 st1.rightFeaClasses

/-- `_collectUfoClasses()`: sort UFO groups into left/right kerning classes. -/
def collectUfoClasses (st : KernState) : KernState :=
  st.groups.foldl (fun s g =>
    let s1 :=
      if reMatchPat leftUfoGroupPat g.1 then
        { s with leftUfoClasses := dset s.leftUfoClasses g.1 g.2 }
      else s
    if reMatchPat rightUfoGroupPat g.1 then
      { s1 with rightUfoClasses := dset s1.rightUfoClasses g.1 g.2 }
    else s1) st

/-- Characters legal in an OTF glyph-class identifier (`A-Za-z0-9._`). -/
def legalChar (c : Char) : Bool :=
  ('A' ≤ c && c ≤ 'Z') || ('a' ≤ c && c ≤ 'z') || ('0' ≤ c && c ≤ '9') ||
    c == '.' || c == '_'

/-- `re.sub(r"[^A-Za-z0-9._]", "", name)`. -/
def stripIllegal (name : String) : String :=
  String.mk (name.toList.filter legalChar)

/-- All class names currently known to the writer, in the order the source
concatenates them. -/
def existingClassNames (st : KernState) : List String :=
  (st.leftFeaClasses ++ st.rightFeaClasses ++
    st.leftUfoClasses ++ st.rightUfoClasses).map Prod.fst

/-- The suffixing while-loop of `_makeFeaClassName`, with explicit fuel (the
source loop terminates because only finitely many names exist). -/
def findFreeName (existing : List String) (origName : String) :
    Nat → Nat → String
  | 0, i => origName ++ "_" ++ toString i
  | fuel + 1, i =>
    let cand := origName ++ "_" ++ toString i
    if cand ∈ existing then findFreeName existing origName fuel (i + 1) else cand

/-- `_makeFeaClassName(name)`: strip illegal characters, put "@" in front, and
append the first free numeric suffix on a collision. -/
def makeFeaClassName (st : KernState) (name : String) : String :=
  let base := "@" ++ stripIllegal name
  let existing := existingClassNames st
  if base ∈ existing then findFreeName existing base (existing.length + 1) 1
  else base

/-- Re-key every kerning entry whose left side is `oldName` under `newName`. -/
def rekeyLeft (st : KernState) (oldName newName : String) : KernState :=
  (getGlyphKern st.kerning oldName 0).foldl
    (fun s kv => { s with kerning := ddel (dset s.kerning (newName, kv.1.2) kv.2) kv.1 })
    st

/-- Re-key every kerning entry whose right side is `oldName` under `newName`. -/
def rekeyRight (st : KernState) (oldName newName : String) : KernState :=
  (getGlyphKern st.kerning oldName 1).foldl
    (fun s kv => { s with kerning := ddel (dset s.kerning (kv.1.1, newName) kv.2) kv.1 })
    st

/-- First loop of `_correctUfoClassNames` over a snapshot of the left UFO
classes. -/
def correctLeftLoop (st : KernState) : List (String × List String) → KernState
  | [] => st
  | (name, members) :: rest =>
    let newName := makeFeaClassName st name
    if name = newName then correctLeftLoop st rest
    else
      let st1 := { st with leftUfoClasses := ddel (dset st.leftUfoClasses newName members) name }
      correctLeftLoop (rekeyLeft st1 name newName) rest

/-- Second loop of `_correctUfoClassNames` over a snapshot of the right UFO
classes. -/
def correctRightLoop (st : KernState) : List (String × List String) → KernState
  | [] => st
  | (name, members) :: rest =>
    let newName := makeFeaClassName st name
    if name = newName then correctRightLoop st rest
    else
      let st1 := { st with rightUfoClasses := ddel (dset st.rightUfoClasses newName members) name }
      correctRightLoop (rekeyRight st1 name newName) rest

/-- `_correctUfoClassNames()`. -/
def correctUfoClassNames (st : KernState) : KernState :=
  let st1 := correctLeftLoop st st.leftUfoClasses
  correctRightLoop st1 st1.rightUfoClasses

/-- `_collectUfoKerning()`: partition the remaining kerning entries, in sorted
order, into the four buckets by group membership of each side. -/
def collectUfoKerning (st : KernState) : KernState :=
  (isort itemLe st.kerning).foldl (fun s kv =>
    let leftIsClass := (dget s.leftUfoClasses kv.1.1).isSome
    let rightIsClass := (dget s.rightUfoClasses kv.1.2).isSome
    if leftIsClass then
      if rightIsClass then
        { s with classPairKerning := dset s.classPairKerning kv.1 kv.2 }
      else
        { s with leftClassKerning := dset s.leftClassKerning kv.1 kv.2 }
    else if rightIsClass then
      { s with rightClassKerning := dset s.rightClassKerning kv.1 kv.2 }
    else
      { s with glyphPairKerning := dset s.glyphPairKerning kv.1 kv.2 }) st

/-- `_liststr(glyphs)`: bracketed space-separated glyph list. -/
def liststr (glyphs : List String) : String :=
  "[" ++ String.intercalate " " glyphs ++ "]"

/-- `leftClasses[lClass]` lookup used during conflict resolution (total here;
the source would raise `KeyError` on a missing class). -/
def classLookup (classes : Dict String (List String)) (name : String) :
    List String :=
  (dget classes name).getD []

/-- The member filter of the class-glyph resolution passes: keep members whose
concrete pair is unseen, marking each kept pair seen. -/
def filterSeen (mk : String → String × String) (val : Int) :
    List String → Dict (String × String) Int →
    List String × Dict (String × String) Int
  | [], seen => ([], seen)
  | g :: gs, seen =>
    if (dget seen (mk g)).isSome then filterSeen mk val gs seen
    else
      let fs := filterSeen mk val gs (dset seen (mk g) val)
      (g :: fs.1, fs.2)

/-- Conflict-resolution pass over the left-class-glyph bucket: iterate a
snapshot of the bucket, narrowing each rule to unseen members. -/
def resolveLeftLoop (leftClasses : Dict String (List String)) :
    List ((String × String) × Int) → Dict (String × String) Int →
    Dict (String × String) Int →
    Dict (String × String) Int × Dict (String × String) Int
  | [], bucket, seen => (bucket, seen)
  | (pair, val) :: rest, bucket, seen =>
    let lGlyphs := classLookup leftClasses pair.1
    let fs := filterSeen (fun g => (g, pair.2)) val lGlyphs seen
    let bucket1 :=
      if fs.1 ≠ lGlyphs then ddel (dset bucket (liststr fs.1, pair.2) val) pair
      else bucket
    resolveLeftLoop leftClasses rest bucket1 fs.2

/-- Conflict-resolution pass over the glyph-right-class bucket. -/
def resolveRightLoop (rightClasses : Dict String (List String)) :
    List ((String × String) × Int) → Dict (String × String) Int →
    Dict (String × String) Int →
    Dict (String × String) Int × Dict (String × String) Int
  | [], bucket, seen => (bucket, seen)
  | (pair, val) :: rest, bucket, seen =>
    let rGlyphs := classLookup rightClasses pair.2
    let fs := filterSeen (fun g => (pair.1, g)) val rGlyphs seen
    let bucket1 :=
      if fs.1 ≠ rGlyphs then ddel (dset bucket (pair.1, liststr fs.1) val) pair
      else bucket
    resolveRightLoop rightClasses rest bucket1 fs.2

/-- Python `set.add` on an insertion-ordered duplicate-free list. -/
def addUniq (l : List String) (x : String) : List String :=
  if x ∈ l then l else l ++ [x]

/-- The nested cross-product filter of the class-class resolution pass. -/
def crossFilter (val : Int) (lGlyphs rGlyphs : List String)
    (seen : Dict (String × String) Int) :
    List String × List String × Dict (String × String) Int :=
  lGlyphs.foldl (fun acc lG =>
    rGlyphs.foldl (fun acc2 rG =>
      if (dget acc2.2.2 (lG, rG)).isSome then acc2
      else (addUniq acc2.1 lG, addUniq acc2.2.1 rG, dset acc2.2.2 (lG, rG) val))
      acc)
    ([], [], seen)

/-- Python set equality between a collected set and `set(fullList)`. -/
def sameSet (a b : List String) : Bool :=
  a.all (fun x => b.contains x) && b.all (fun x => a.contains x)

/-- Conflict-resolution pass over the class-class bucket. -/
def resolveClassPairLoop (leftClasses rightClasses : Dict String (List String)) :
    List ((String × String) × Int) → Dict (String × String) Int →
    Dict (String × String) Int →
    Dict (String × String) Int × Dict (String × String) Int
  | [], bucket, seen => (bucket, seen)
  | (pair, val) :: rest, bucket, seen =>
    let lGlyphs := classLookup leftClasses pair.1
    let rGlyphs := classLookup rightClasses pair.2
    let cf := crossFilter val lGlyphs rGlyphs seen
    let nlClass := if sameSet cf.1 lGlyphs then pair.1 else liststr (isort strLe cf.1)
    let nrClass := if sameSet cf.2.1 rGlyphs then pair.2 else liststr (isort strLe cf.2.1)
    let bucket1 :=
      if nlClass ≠ pair.1 ∨ nrClass ≠ pair.2 then
        ddel (dset bucket (nlClass, nrClass) val) pair
      else bucket
    resolveClassPairLoop leftClasses rightClasses rest bucket1 cf.2.2

/-- `_removeConflictingKerningRules()`: seed `seen` with the glyph-pair rules
and run the three bucket passes in order. -/
def removeConflictingKerningRules (st : KernState) : KernState :=
  let leftClasses := dictUpdate st.leftFeaClasses st.leftUfoClasses
  let rightClasses := dictUpdate st.rightFeaClasses st.rightUfoClasses
  let rl := resolveLeftLoop leftClasses st.leftClassKerning st.leftClassKerning
    st.glyphPairKerning
  let rr := resolveRightLoop rightClasses st.rightClassKerning st.rightClassKerning
    rl.2
  let rc := resolveClassPairLoop leftClasses rightClasses st.classPairKerning
    st.classPairKerning rr.2
  { st with leftClassKerning := rl.1, rightClassKerning := rr.1,
            classPairKerning := rc.1 }

/-- `_addGlyphClasses(lines)`: one declaration line per UFO class, merged and
sorted by class name. -/
def addGlyphClasses (st : KernState) : List String :=
  (isort classItemLe (dictUpdate st.leftUfoClasses st.rightUfoClasses)).map
    (fun p => p.1 ++ " = [" ++ String.intercalate " " p.2 ++ "];")

/-- `_addKerning(lines, kerning, enum)`: one rule line per sorted bucket entry. -/
def addKerning (kerning : Dict (String × String) Int) (enum : Bool) :
    List String :=
  (isort itemLe kerning).map (fun kv =>
    "    " ++ (if enum then "enum " else "") ++ "pos " ++ kv.1.1 ++ " " ++
      kv.1.2 ++ " " ++ toString kv.2 ++ ";")

/-- The pipeline of `write()` up to and including conflict resolution. -/
def writeState (kerning : Dict (String × String) Int)
    (groups : Dict String (List String))
    (featDecls : List (String × List String)) : Except String KernState :=
  let st0 : KernState := { kerning := kerning, groups := groups }
  let st1 := collectFeaClasses st0 featDecls
  match collectFeaClassKerning st1 with
  | Except.error e => Except.error e
  | Except.ok st2 =>
    Except.ok (removeConflictingKerningRules
      (collectUfoKerning (correctUfoClassNames (collectUfoClasses st2))))

/-- The emission half of `write()`: empty string when all buckets are empty,
otherwise class declarations, a blank line, and the kern feature block. -/
def emit (st : KernState) (linesep : String) : String :=
  if st.glyphPairKerning = [] ∧ st.leftClassKerning = [] ∧
      st.rightClassKerning = [] ∧ st.classPairKerning = [] then ""
  else
    String.intercalate linesep
      (addGlyphClasses st ++ [""] ++ ["feature kern \x7b"] ++
        addKerning st.glyphPairKerning false ++
        (if st.leftClassKerning ≠ [] then
          "    subtable;" :: addKerning st.leftClassKerning true else []) ++
        (if st.rightClassKerning ≠ [] then
          "    subtable;" :: addKerning st.rightClassKerning true else []) ++
        (if st.classPairKerning ≠ [] then
          "    subtable;" :: addKerning st.classPairKerning false else []) ++
        ["\x7d kern;"])

/-- `write(linesep)`: full pipeline and emission. -/
def write (kerning : Dict (String × String) Int)
    (groups : Dict String (List String))
    (featDecls : List (String × List String)) (linesep : String) :
    Except String String :=
  match writeState kerning groups featDecls with
  | Except.error e => Except.error e
  | Except.ok st => Except.ok (emit st linesep)

/-! ## Interpreting bucket keys as sets of concrete glyph pairs -/

/-- Split a character list on single spaces (the inverse of `" ".join`). -/
def splitSpacesAux : List Char → List Char → List String
  | [], acc => [String.mk acc.reverse]
  | c :: cs, acc =>
    if c == ' ' then String.mk acc.reverse :: splitSpacesAux cs []
    else splitSpacesAux cs (c :: acc)

/-- Recover the member list of a `_liststr`-formatted key such as `[A B]`. -/
def parseListKey (key : String) : List String :=
  match (key.toList.drop 1).dropLast with
  | [] => []
  | cs => splitSpacesAux cs []

/-- Expand one side of a rule key to the concrete glyphs it covers: a
bracketed list denotes its members, a known class name denotes the class
members, and anything else is a single glyph naming itself. -/
def expandSide (classes : Dict String (List String)) (key : String) :
    List String :=
  if strStarts key "[" then parseListKey key
  else
    match dget classes key with
    | some ms => ms
    | none => [key]

/-- Number of rules of a bucket covering the concrete glyph pair `(a, b)`. -/
def coverCount (leftClasses rightClasses : Dict String (List String))
    (bucket : Dict (String × String) Int) (a b : String) : Nat :=
  (bucket.filter (fun kv =>
    (expandSide leftClasses kv.1.1).contains a &&
      (expandSide rightClasses kv.1.2).contains b)).length

/-- The merged left classes seen by the conflict resolver. -/
def mergedLeft (st : KernState) : Dict String (List String) :=
  dictUpdate st.leftFeaClasses st.leftUfoClasses

/-- The merged right classes seen by the conflict resolver. -/
def mergedRight (st : KernState) : Dict String (List String) :=
  dictUpdate st.rightFeaClasses st.rightUfoClasses

/-- Number of rules, over all four buckets, covering the concrete pair
`(a, b)`. -/
def totalCover (st : KernState) (a b : String) : Nat :=
  coverCount (mergedLeft st) (mergedRight st) st.glyphPairKerning a b +
    coverCount (mergedLeft st) (mergedRight st) st.leftClassKerning a b +
    coverCount (mergedLeft st) (mergedRight st) st.rightClassKerning a b +
    coverCount (mergedLeft st) (mergedRight st) st.classPairKerning a b

/-! ## Concrete scenarios -/

/-- C1 scenario: glyph pairs (A,X) and (B,Y) plus a class-class rule over
left {A,B} and right {X,Y}. -/
def c1Kerning : Dict (String × String) Int :=
  [(("A", "X"), -5), (("B", "Y"), -6),
   (("public.kern1.L", "public.kern2.R"), -15)]

def c1Groups : Dict String (List String) :=
  [("public.kern1.L", ["A", "B"]), ("public.kern2.R", ["X", "Y"])]

/-- C2 scenario from the spec: left class {A,B}, right class {X,Y},
class-class value -15, explicit glyph pair (A,X) = -5. -/
def c2Kerning : Dict (String × String) Int :=
  [(("public.kern1.L", "public.kern2.R"), -15), (("A", "X"), -5)]

def c2Groups : Dict String (List String) :=
  [("public.kern1.L", ["A", "B"]), ("public.kern2.R", ["X", "Y"])]

/-- C3 scenario: the sole member of a left class conflicts with a glyph
pair, leaving no surviving members. -/
def c3Kerning : Dict (String × String) Int :=
  [(("A", "B"), -10), (("public.kern1.C", "B"), -20)]

def c3Groups : Dict String (List String) :=
  [("public.kern1.C", ["A"])]

/-- C8 scenario: a kerning group that no kerning entry uses, next to an
unrelated glyph pair. -/
def c8Kerning : Dict (String × String) Int :=
  [(("B", "C"), -5)]

def c8Groups : Dict String (List String) :=
  [("public.kern1.unused", ["A"])]

/-- C6 scenario state: a left class whose member A conflicts with a glyph
pair, so the class rule narrows to [D] while keeping its value. -/
def c6State : KernState :=
  { kerning := [], groups := [],
    leftUfoClasses := [("public.kern1.CL", ["A", "D"])],
    glyphPairKerning := [(("A", "B"), -10)],
    leftClassKerning := [(("public.kern1.CL", "B"), -20)] }

/-- Dict-level form of the kerning re-key fold of `_correctUfoClassNames`
(left side). -/
def rekeyLeftK (nn : String) (hits : List ((String × String) × Int))
    (d : Dict (String × String) Int) : Dict (String × String) Int :=
  hits.foldl (fun dd kv => ddel (dset dd (nn, kv.1.2) kv.2) kv.1) d

def rekeyRightK (nn : String) (hits : List ((String × String) × Int))
    (d : Dict (String × String) Int) : Dict (String × String) Int :=
  hits.foldl (fun dd kv => ddel (dset dd (kv.1.1, nn) kv.2) kv.1) d

/-- The candidate sequence of `_makeFeaClassName`: the stripped, prefixed
base name, then numeric suffixes from 1. -/
def candName (base : String) : Nat → String
  | 0 => base
  | j + 1 => base ++ "_" ++ toString (j + 1)

/-- C4 witness inputs: a state with a colliding class name, and a state
with one left and one right kerning group plus one kerning entry. -/
def c4StateA : KernState :=
  { kerning := [], groups := [], leftFeaClasses := [("@A", ["x"])] }

def c4StateB : KernState :=
  { kerning := [(("public.kern1.L", "X"), -7)], groups := [],
    leftUfoClasses := [("public.kern1.L", ["A"])],
    rightUfoClasses := [("public.kern2.R", ["X"])] }

/-- C8 witness state: one glyph-pair rule and one collected left class. -/
def c8EmitState : KernState :=
  { kerning := [], groups := [],
    leftUfoClasses := [("@public.kern1.u", ["A"])],
    glyphPairKerning := [(("B", "C"), -5)] }

/-- The tail of `" ".join`: characters of the remaining names, each preceded
by a space. -/
def joinTail : List String → List Char
  | [] => []
  | g :: gs => ' ' :: g.toList ++ joinTail gs

def ruleCovers (lC rC : Dict String (List String)) (key : String × String)
    (a b : String) : Prop :=
  a ∈ expandSide lC key.1 ∧ b ∈ expandSide rC key.2

/-- The old-to-new name association produced by the first loop of
`_correctUfoClassNames` (mirrors `correctLeftLoop` step for step). -/
def leftRenames : KernState → List (String × List String) → List (String × String)
  | _, [] => []
  | st, (name, members) :: rest =>
    let newName := makeFeaClassName st name
    if name = newName then leftRenames st rest
    else (name, newName) ::
      leftRenames (rekeyLeft { st with
        leftUfoClasses := ddel (dset st.leftUfoClasses newName members) name }
        name newName) rest

/-- The old-to-new name association produced by the second loop of
`_correctUfoClassNames` (mirrors `correctRightLoop` step for step). -/
def rightRenames : KernState → List (String × List String) → List (String × String)
  | _, [] => []
  | st, (name, members) :: rest =>
    let newName := makeFeaClassName st name
    if name = newName then rightRenames st rest
    else (name, newName) ::
      rightRenames (rekeyRight { st with
        rightUfoClasses := ddel (dset st.rightUfoClasses newName members) name }
        name newName) rest

/-- Look a name up in a rename association; names never renamed map to
themselves. -/
def applyRen (ren : List (String × String)) (x : String) : String :=
  (dget ren x).getD x

/-- The state after the first (left) loop of `_correctUfoClassNames`. -/
def correctLeftState (st : KernState) : KernState :=
  correctLeftLoop st st.leftUfoClasses

/-- The complete left-class rename association of a `_correctUfoClassNames`
run. -/
def leftRenameMap (st : KernState) : List (String × String) :=
  leftRenames st st.leftUfoClasses

/-- The complete right-class rename association of a `_correctUfoClassNames`
run. -/
def rightRenameMap (st : KernState) : List (String × String) :=
  rightRenames (correctLeftState st) (correctLeftState st).rightUfoClasses

/-- C4 witness state: two left kerning groups, one right group, and kerning
entries keyed on group names on either side. -/
def c4StateC : KernState :=
  { kerning := [(("public.kern1.L", "X"), -7), (("B", "public.kern2.R"), 3),
      (("public.kern1.M", "public.kern2.R"), 11)],
    groups := [],
    leftUfoClasses := [("public.kern1.L", ["A"]), ("public.kern1.M", ["B", "C"])],
    rightUfoClasses := [("public.kern2.R", ["X"])] }

/-! ## Claim theorems: concrete refutations and the easy claims -/

/-- C1: refutation. In the C1 scenario the resolved class-class rule is kept
with both full classes, so the concrete pair (A, X) is covered both by the
glyph-pair rule and by the class-class rule: two bucket rules cover it, not
at most one. -/
theorem c1_counterexample :
    (writeState c1Kerning c1Groups []).map (fun st => totalCover st "A" "X") =
      Except.ok 2 := rfl

/-- C2: refutation. On the spec scenario (left class {A,B}, right class
{X,Y}, class-class -15, glyph pair (A,X) = -5) the engine keeps the glyph
pair but does not narrow the class-class rule to left [B]: the class-class
bucket still holds the original rule under both full class names, because
A still participates in the non-conflicting pair (A,Y). -/
theorem c2_counterexample :
    (writeState c2Kerning c2Groups []).map
        (fun st => (st.glyphPairKerning, st.classPairKerning)) =
      Except.ok ([(("A", "X"), -5)],
        [(("@public.kern1.L", "@public.kern2.R"), -15)]) := rfl

/-- C2 amended: on that input the engine keeps the glyph-pair rule A X -5 and
keeps the class-class rule entirely unchanged (left class still covering
{A,B} and right class {X,Y}), since each member still has a non-conflicting
counterpart; the full emitted text is exactly this. -/
theorem c2_amended_output :
    write c2Kerning c2Groups [] "\n" =
      Except.ok ("@public.kern1.L = [A B];\n@public.kern2.R = [X Y];\n\n" ++
        "feature kern \x7b\n    pos A X -5;\n    subtable;\n" ++
        "    pos @public.kern1.L @public.kern2.R -15;\n\x7d kern;") := rfl

/-- C3: refutation. When every member of a left class conflicts, the rule is
not dropped: it is kept under the empty bracketed list key "[]" (and would be
emitted as `enum pos [] B -20;`). -/
theorem c3_counterexample :
    (writeState c3Kerning c3Groups []).map (fun st => st.leftClassKerning) =
      Except.ok [(("[]", "B"), -20)] ∧
    write c3Kerning c3Groups [] "\n" =
      Except.ok ("@public.kern1.C = [A];\n\nfeature kern \x7b\n" ++
        "    pos A B -10;\n    subtable;\n    enum pos [] B -20;\n\x7d kern;") :=
  ⟨rfl, rfl⟩

/-- C8: refutation. A group-declared class that no kerning rule uses is still
given a declaration line whenever output is produced at all: here
`@public.kern1.unused` is declared although the only rule is the unrelated
glyph pair B C -5. -/
theorem c8_counterexample :
    write c8Kerning c8Groups [] "\n" =
      Except.ok ("@public.kern1.unused = [A];\n\nfeature kern \x7b\n" ++
        "    pos B C -5;\n\x7d kern;") := rfl

/-- C5: if the pipeline succeeds and all four buckets come out empty, `write`
returns exactly the empty string. -/
theorem c5_empty_output (kerning : Dict (String × String) Int)
    (groups : Dict String (List String)) (featDecls : List (String × List String))
    (linesep : String) (st : KernState)
    (h : writeState kerning groups featDecls = Except.ok st)
    (h1 : st.glyphPairKerning = []) (h2 : st.leftClassKerning = [])
    (h3 : st.rightClassKerning = []) (h4 : st.classPairKerning = []) :
    write kerning groups featDecls linesep = Except.ok "" := by
  have he : emit st linesep = "" := by
    unfold emit
    rw [if_pos ⟨h1, h2, h3, h4⟩]
  unfold write
  rw [h]
  show Except.ok (emit st linesep) = Except.ok ""
  rw [he]

/-- C5 witness: the empty kerning table with empty groups and empty feature
source yields exactly the empty string. -/
theorem c5_witness : write [] [] [] "\n" = Except.ok "" :=
  c5_empty_output [] [] [] "\n" { kerning := [], groups := [] } rfl rfl rfl rfl rfl

/-- C7: `write` is deterministic; identical kerning, groups, parsed feature
classes and line separator give identical output. -/
theorem c7_deterministic (k1 k2 : Dict (String × String) Int)
    (g1 g2 : Dict String (List String)) (f1 f2 : List (String × List String))
    (l1 l2 : String) (hk : k1 = k2) (hg : g1 = g2) (hf : f1 = f2)
    (hl : l1 = l2) : write k1 g1 f1 l1 = write k2 g2 f2 l2 := by
  subst hk
  subst hg
  subst hf
  subst hl
  rfl

/-- C7 witness: two runs on the (identical) C2 inputs agree. -/
theorem c7_witness : write c2Kerning c2Groups [] "\n" = write c2Kerning c2Groups [] "\n" :=
  c7_deterministic c2Kerning c2Kerning c2Groups c2Groups [] [] "\n" "\n" rfl rfl rfl rfl

/-! ## Supporting lemmas and remaining claim theorems -/

theorem mem_of_mem_ddel {α β : Type} [BEq α] {d : Dict α β} {k : α}
    {p : α × β} (h : p ∈ ddel d k) : p ∈ d :=
  List.mem_of_mem_filter h

theorem mem_dset {α β : Type} [BEq α] {d : Dict α β} {k : α} {v : β}
    {p : α × β} (h : p ∈ dset d k v) : p ∈ d ∨ p = (k, v) := by
  induction d with
  | nil =>
    simp only [dset, List.mem_singleton] at h
    exact Or.inr h
  | cons q rest ih =>
    simp only [dset] at h
    by_cases hq : q.1 == k
    · rw [if_pos hq] at h
      rcases List.mem_cons.mp h with h1 | h1
      · exact Or.inr h1
      · exact Or.inl (List.mem_cons_of_mem q h1)
    · rw [if_neg hq] at h
      rcases List.mem_cons.mp h with h1 | h1
      · exact Or.inl (h1 ▸ List.mem_cons_self q rest)
      · rcases ih h1 with h2 | h2
        · exact Or.inl (List.mem_cons_of_mem q h2)
        · exact Or.inr h2

theorem resolveLeftLoop_values (leftClasses : Dict String (List String))
    (items : List ((String × String) × Int)) :
    ∀ (bucket seen : Dict (String × String) Int) (p : (String × String) × Int),
      p ∈ (resolveLeftLoop leftClasses items bucket seen).1 →
      p ∈ bucket ∨ ∃ k0, (k0, p.2) ∈ items := by
  induction items with
  | nil => intro bucket seen p h; exact Or.inl h
  | cons item rest ih =>
    intro bucket seen p h
    simp only [resolveLeftLoop] at h
    rcases ih _ _ p h with h1 | ⟨k0, hk0⟩
    · by_cases hne :
        (filterSeen (fun g => (g, item.1.2)) item.2
          (classLookup leftClasses item.1.1) seen).1 ≠ classLookup leftClasses item.1.1
      · rw [if_pos hne] at h1
        rcases mem_dset (mem_of_mem_ddel h1) with h2 | h2
        · exact Or.inl h2
        · refine Or.inr ⟨item.1, ?_⟩
          rw [h2]
          exact List.mem_cons_self _ _
      · rw [if_neg hne] at h1
        exact Or.inl h1
    · exact Or.inr ⟨k0, List.mem_cons_of_mem _ hk0⟩

theorem resolveRightLoop_values (rightClasses : Dict String (List String))
    (items : List ((String × String) × Int)) :
    ∀ (bucket seen : Dict (String × String) Int) (p : (String × String) × Int),
      p ∈ (resolveRightLoop rightClasses items bucket seen).1 →
      p ∈ bucket ∨ ∃ k0, (k0, p.2) ∈ items := by
  induction items with
  | nil => intro bucket seen p h; exact Or.inl h
  | cons item rest ih =>
    intro bucket seen p h
    simp only [resolveRightLoop] at h
    rcases ih _ _ p h with h1 | ⟨k0, hk0⟩
    · by_cases hne :
        (filterSeen (fun g => (item.1.1, g)) item.2
          (classLookup rightClasses item.1.2) seen).1 ≠ classLookup rightClasses item.1.2
      · rw [if_pos hne] at h1
        rcases mem_dset (mem_of_mem_ddel h1) with h2 | h2
        · exact Or.inl h2
        · refine Or.inr ⟨item.1, ?_⟩
          rw [h2]
          exact List.mem_cons_self _ _
      · rw [if_neg hne] at h1
        exact Or.inl h1
    · exact Or.inr ⟨k0, List.mem_cons_of_mem _ hk0⟩

theorem resolveClassPairLoop_values (leftClasses rightClasses : Dict String (List String))
    (items : List ((String × String) × Int)) :
    ∀ (bucket seen : Dict (String × String) Int) (p : (String × String) × Int),
      p ∈ (resolveClassPairLoop leftClasses rightClasses items bucket seen).1 →
      p ∈ bucket ∨ ∃ k0, (k0, p.2) ∈ items := by
  induction items with
  | nil => intro bucket seen p h; exact Or.inl h
  | cons item rest ih =>
    intro bucket seen p h
    simp only [resolveClassPairLoop] at h
    rcases ih _ _ p h with h1 | ⟨k0, hk0⟩
    · by_cases hne :
        (if sameSet (crossFilter item.2 (classLookup leftClasses item.1.1)
            (classLookup rightClasses item.1.2) seen).1 (classLookup leftClasses item.1.1)
          then item.1.1
          else liststr (isort strLe (crossFilter item.2 (classLookup leftClasses item.1.1)
            (classLookup rightClasses item.1.2) seen).1)) ≠ item.1.1 ∨
        (if sameSet (crossFilter item.2 (classLookup leftClasses item.1.1)
            (classLookup rightClasses item.1.2) seen).2.1 (classLookup rightClasses item.1.2)
          then item.1.2
          else liststr (isort strLe (crossFilter item.2 (classLookup leftClasses item.1.1)
            (classLookup rightClasses item.1.2) seen).2.1)) ≠ item.1.2
      · rw [if_pos hne] at h1
        rcases mem_dset (mem_of_mem_ddel h1) with h2 | h2
        · exact Or.inl h2
        · refine Or.inr ⟨item.1, ?_⟩
          rw [h2]
          exact List.mem_cons_self _ _
      · rw [if_neg hne] at h1
        exact Or.inl h1
    · exact Or.inr ⟨k0, List.mem_cons_of_mem _ hk0⟩

theorem dget_some_mem {α β : Type} [BEq α] [LawfulBEq α] {d : Dict α β} {k : α}
    {v : β} (h : dget d k = some v) : (k, v) ∈ d := by
  induction d with
  | nil => simp [dget] at h
  | cons q rest ih =>
    simp only [dget] at h
    by_cases hq : q.1 == k
    · rw [if_pos hq] at h
      have h2 : q.2 = v := Option.some.inj h
      have h1 : q.1 = k := eq_of_beq hq
      have hqe : (k, v) = q := by rw [← h1, ← h2]
      rw [hqe]
      exact List.mem_cons_self q rest
    · rw [if_neg hq] at h
      exact List.mem_cons_of_mem q (ih h)

theorem feaClassPairLoop_error_msg (ln lk : String) :
    ∀ (items : List (String × List String)) (st : KernState) (e : String),
      feaClassPairLoop st ln lk items = Except.error e →
      e = "list index out of range" := by
  intro items
  induction items with
  | nil => intro st e h; simp [feaClassPairLoop] at h
  | cons item rest ih =>
    intro st e h
    rcases item with ⟨rn, rc⟩
    cases rc with
    | nil =>
      simp only [feaClassPairLoop, headE] at h
      injection h with h2
      exact h2.symm
    | cons x xs =>
      simp only [feaClassPairLoop, headE] at h
      cases hd : dget st.kerning (lk, x) with
      | none => rw [hd] at h; exact ih _ _ h
      | some v => rw [hd] at h; exact ih _ _ h

theorem feaClassPairLoop_empty (ln lk : String) :
    ∀ (items : List (String × List String)) (st : KernState),
      (∃ n, (n, ([] : List String)) ∈ items) →
      feaClassPairLoop st ln lk items = Except.error "list index out of range" := by
  intro items
  induction items with
  | nil => intro st ⟨n, hn⟩; simp at hn
  | cons item rest ih =>
    intro st ⟨n, hn⟩
    rcases item with ⟨rn, rc⟩
    cases rc with
    | nil => simp [feaClassPairLoop, headE]
    | cons x xs =>
      have hrest : ∃ n, (n, ([] : List String)) ∈ rest := by
        rcases List.mem_cons.mp hn with h1 | h1
        · exact absurd (congrArg Prod.snd h1) (by simp)
        · exact ⟨n, h1⟩
      simp only [feaClassPairLoop, headE]
      cases hd : dget st.kerning (lk, x) with
      | none => exact ih _ hrest
      | some v => exact ih _ hrest

theorem feaClassPairLoop_preserves (ln lk : String) :
    ∀ (items : List (String × List String)) (st st1 : KernState),
      feaClassPairLoop st ln lk items = Except.ok st1 →
      st1.rightFeaClasses = st.rightFeaClasses := by
  intro items
  induction items with
  | nil =>
    intro st st1 h
    simp only [feaClassPairLoop] at h
    injection h with h2
    rw [← h2]
  | cons item rest ih =>
    intro st st1 h
    rcases item with ⟨rn, rc⟩
    cases rc with
    | nil => simp [feaClassPairLoop, headE] at h
    | cons x xs =>
      simp only [feaClassPairLoop, headE] at h
      cases hd : dget st.kerning (lk, x) with
      | none => rw [hd] at h; exact ih _ _ h
      | some v =>
        rw [hd] at h
        dsimp only at h
        exact ih { st with
          classPairKerning := dset st.classPairKerning (ln, rn) v,
          kerning := ddel st.kerning (lk, x) } st1 h

theorem consumeLeftHits_preserves (ln : String) :
    ∀ (hits : List ((String × String) × Int)) (st : KernState),
      (consumeLeftHits st ln hits).rightFeaClasses = st.rightFeaClasses := by
  intro hits
  induction hits with
  | nil => intro st; rfl
  | cons kv rest ih =>
    intro st
    simp only [consumeLeftHits, List.foldl_cons] at ih ⊢
    rw [ih]

theorem feaLeftLoop_error_msg :
    ∀ (items : List (String × List String)) (st : KernState) (e : String),
      feaLeftLoop st items = Except.error e → e = "list index out of range" := by
  intro items
  induction items with
  | nil => intro st e h; simp [feaLeftLoop] at h
  | cons item rest ih =>
    intro st e h
    rcases item with ⟨ln, lc⟩
    cases lc with
    | nil =>
      simp only [feaLeftLoop, headE] at h
      injection h with h2
      exact h2.symm
    | cons x xs =>
      simp only [feaLeftLoop, headE] at h
      cases hcp : feaClassPairLoop st ln x st.rightFeaClasses with
      | error e2 =>
        rw [hcp] at h
        injection h with h2
        rw [← h2]
        exact feaClassPairLoop_error_msg ln x _ st e2 hcp
      | ok st1 =>
        rw [hcp] at h
        exact ih _ _ h

theorem feaLeftLoop_preserves :
    ∀ (items : List (String × List String)) (st st1 : KernState),
      feaLeftLoop st items = Except.ok st1 →
      st1.rightFeaClasses = st.rightFeaClasses := by
  intro items
  induction items with
  | nil =>
    intro st st1 h
    simp only [feaLeftLoop] at h
    injection h with h2
    rw [← h2]
  | cons item rest ih =>
    intro st st1 h
    rcases item with ⟨ln, lc⟩
    cases lc with
    | nil => simp [feaLeftLoop, headE] at h
    | cons x xs =>
      simp only [feaLeftLoop, headE] at h
      cases hcp : feaClassPairLoop st ln x st.rightFeaClasses with
      | error e2 => rw [hcp] at h; exact absurd h (by simp)
      | ok st2 =>
        rw [hcp] at h
        rw [ih _ _ h, consumeLeftHits_preserves,
          feaClassPairLoop_preserves ln x _ st st2 hcp]

theorem feaLeftLoop_empty :
    ∀ (items : List (String × List String)) (st : KernState),
      (∃ n, (n, ([] : List String)) ∈ items) →
      feaLeftLoop st items = Except.error "list index out of range" := by
  intro items
  induction items with
  | nil => intro st ⟨n, hn⟩; simp at hn
  | cons item rest ih =>
    intro st ⟨n, hn⟩
    rcases item with ⟨ln, lc⟩
    cases lc with
    | nil => simp [feaLeftLoop, headE]
    | cons x xs =>
      have hrest : ∃ n, (n, ([] : List String)) ∈ rest := by
        rcases List.mem_cons.mp hn with h1 | h1
        · exact absurd (congrArg Prod.snd h1) (by simp)
        · exact ⟨n, h1⟩
      simp only [feaLeftLoop, headE]
      cases hcp : feaClassPairLoop st ln x st.rightFeaClasses with
      | error e =>
        rw [feaClassPairLoop_error_msg ln x _ st e hcp]
      | ok st1 => exact ih _ hrest

theorem feaRightLoop_empty :
    ∀ (items : List (String × List String)) (st : KernState),
      (∃ n, (n, ([] : List String)) ∈ items) →
      feaRightLoop st items = Except.error "list index out of range" := by
  intro items
  induction items with
  | nil => intro st ⟨n, hn⟩; simp at hn
  | cons item rest ih =>
    intro st ⟨n, hn⟩
    rcases item with ⟨rn, rc⟩
    cases rc with
    | nil => simp [feaRightLoop, headE]
    | cons x xs =>
      have hrest : ∃ n, (n, ([] : List String)) ∈ rest := by
        rcases List.mem_cons.mp hn with h1 | h1
        · exact absurd (congrArg Prod.snd h1) (by simp)
        · exact ⟨n, h1⟩
      simp only [feaRightLoop, headE]
      exact ih _ hrest

theorem collectFeaClassKerning_error (st : KernState)
    (h : (∃ n, (n, ([] : List String)) ∈ st.leftFeaClasses) ∨
         (∃ n, (n, ([] : List String)) ∈ st.rightFeaClasses)) :
    collectFeaClassKerning st = Except.error "list index out of range" := by
  rcases h with h | h
  · unfold collectFeaClassKerning
    rw [feaLeftLoop_empty st.leftFeaClasses st h]
  · unfold collectFeaClassKerning
    cases hfl : feaLeftLoop st st.leftFeaClasses with
    | error e =>
      rw [feaLeftLoop_error_msg _ st e hfl]
    | ok st1 =>
      show feaRightLoop st1 st1.rightFeaClasses = Except.error "list index out of range"
      rw [feaLeftLoop_preserves _ st st1 hfl]
      exact feaRightLoop_empty _ st1 h

/-- C9: if the parsed feature source declares an empty kerning class (left
or right `@MMK_` pattern), the generation pass fails with the index error of
`contents[0]` instead of producing output. -/
theorem c9_empty_class_error (kerning : Dict (String × String) Int)
    (groups : Dict String (List String)) (featDecls : List (String × List String))
    (linesep : String) (name : String)
    (h : dget (collectFeaClasses { kerning := kerning, groups := groups }
          featDecls).leftFeaClasses name = some [] ∨
         dget (collectFeaClasses { kerning := kerning, groups := groups }
          featDecls).rightFeaClasses name = some []) :
    write kerning groups featDecls linesep =
      Except.error "list index out of range" := by
  have hc : collectFeaClassKerning
      (collectFeaClasses { kerning := kerning, groups := groups } featDecls) =
      Except.error "list index out of range" := by
    apply collectFeaClassKerning_error
    rcases h with h | h
    · exact Or.inl ⟨name, dget_some_mem h⟩
    · exact Or.inr ⟨name, dget_some_mem h⟩
  simp only [write, writeState]
  rw [hc]

/-- C9 witness: a single empty left feature class makes `write` fail. -/
theorem c9_witness :
    dget (collectFeaClasses { kerning := [], groups := [] }
      [("@MMK_L_A", [])]).leftFeaClasses "@MMK_L_A" = some [] ∧
    write [] [] [("@MMK_L_A", [])] "\n" =
      Except.error "list index out of range" :=
  ⟨rfl, c9_empty_class_error [] [] [("@MMK_L_A", [])] "\n" "@MMK_L_A" (Or.inl rfl)⟩

theorem toList_append (a b : String) : (a ++ b).toList = a.toList ++ b.toList := rfl

theorem findFreeName_toList (existing : List String) (origName : String) :
    ∀ (fuel i : Nat), ∃ l, (findFreeName existing origName fuel i).toList =
      origName.toList ++ l := by
  intro fuel
  induction fuel with
  | zero =>
    intro i
    exact ⟨"_".toList ++ (toString i).toList, by
      simp only [findFreeName]
      rw [toList_append, toList_append, List.append_assoc]⟩
  | succ n ih =>
    intro i
    simp only [findFreeName]
    by_cases hc : origName ++ "_" ++ toString i ∈ existing
    · rw [if_pos hc]
      exact ih (i + 1)
    · rw [if_neg hc]
      exact ⟨"_".toList ++ (toString i).toList, by
        rw [toList_append, toList_append, List.append_assoc]⟩

theorem makeFeaClassName_head (st : KernState) (name : String) :
    (makeFeaClassName st name).toList.head? = some '@' := by
  unfold makeFeaClassName
  by_cases hc : "@" ++ stripIllegal name ∈ existingClassNames st
  · rw [if_pos hc]
    obtain ⟨l, hl⟩ := findFreeName_toList (existingClassNames st)
      ("@" ++ stripIllegal name) (existingClassNames st).length.succ 1
    rw [hl]
    rfl
  · rw [if_neg hc]
    rfl

theorem strStarts_of_head {s : String} (h : s.toList.head? = some '@') :
    strStarts s "@" = true := by
  unfold strStarts
  cases hl : s.toList with
  | nil => rw [hl] at h; simp at h
  | cons c cs =>
    rw [hl] at h
    simp only [List.head?, Option.some.injEq] at h
    show List.isPrefixOf ['@'] (c :: cs) = true
    simp [List.isPrefixOf, h]

theorem head_of_reMatch {pat name : String} {c : Char} {cs : List Char}
    (hp : pat.toList = c :: cs) (h : reMatchPat pat name = true) :
    name.toList.head? = some c := by
  unfold reMatchPat at h
  have h1 : pat.toList.isPrefixOf name.toList = true := by
    cases hb : pat.toList.isPrefixOf name.toList
    · rw [hb] at h; simp at h
    · rfl
  have h2 : pat.toList <+: name.toList := List.isPrefixOf_iff_prefix.mp h1
  obtain ⟨t, ht⟩ := h2
  rw [← ht, hp]
  rfl

theorem makeFeaClassName_ne (st : KernState) (name : String)
    (h : name.toList.head? ≠ some '@') : makeFeaClassName st name ≠ name :=
  fun he => h (he ▸ makeFeaClassName_head st name)

theorem mem_ddel_ne {α β : Type} [BEq α] [LawfulBEq α] {d : Dict α β} {k : α}
    {p : α × β} (h : p ∈ ddel d k) : p ∈ d ∧ p.1 ≠ k := by
  unfold ddel at h
  have := List.mem_filter.mp h
  refine ⟨this.1, ?_⟩
  have h2 := this.2
  simpa using h2

theorem rekeyLeft_frame (oldName newName : String) :
    ∀ (st : KernState), ∃ k, rekeyLeft st oldName newName = { st with kerning := k } := by
  intro st
  unfold rekeyLeft
  generalize getGlyphKern st.kerning oldName 0 = hits
  induction hits generalizing st with
  | nil => exact ⟨st.kerning, rfl⟩
  | cons kv rest ih =>
    rw [List.foldl_cons]
    obtain ⟨k, hk⟩ := ih { st with kerning := ddel (dset st.kerning (newName, kv.1.2) kv.2) kv.1 }
    exact ⟨k, hk⟩

theorem rekeyRight_frame (oldName newName : String) :
    ∀ (st : KernState), ∃ k, rekeyRight st oldName newName = { st with kerning := k } := by
  intro st
  unfold rekeyRight
  generalize getGlyphKern st.kerning oldName 1 = hits
  induction hits generalizing st with
  | nil => exact ⟨st.kerning, rfl⟩
  | cons kv rest ih =>
    rw [List.foldl_cons]
    obtain ⟨k, hk⟩ := ih { st with kerning := ddel (dset st.kerning (kv.1.1, newName) kv.2) kv.1 }
    exact ⟨k, hk⟩

theorem correctLeftLoop_frame :
    ∀ (items : List (String × List String)) (st : KernState),
      ∃ l k, correctLeftLoop st items = { st with leftUfoClasses := l, kerning := k } := by
  intro items
  induction items with
  | nil => intro st; exact ⟨st.leftUfoClasses, st.kerning, rfl⟩
  | cons item rest ih =>
    intro st
    rcases item with ⟨name, members⟩
    simp only [correctLeftLoop]
    by_cases he : name = makeFeaClassName st name
    · rw [if_pos he]
      exact ih st
    · rw [if_neg he]
      obtain ⟨k1, hk1⟩ := rekeyLeft_frame name (makeFeaClassName st name)
        { st with
          leftUfoClasses := ddel (dset st.leftUfoClasses (makeFeaClassName st name) members) name }
      rw [hk1]
      obtain ⟨l, k, hlk⟩ := ih
        { st with
          leftUfoClasses := ddel (dset st.leftUfoClasses (makeFeaClassName st name) members) name,
          kerning := k1 }
      exact ⟨l, k, hlk⟩

theorem correctRightLoop_frame :
    ∀ (items : List (String × List String)) (st : KernState),
      ∃ r k, correctRightLoop st items = { st with rightUfoClasses := r, kerning := k } := by
  intro items
  induction items with
  | nil => intro st; exact ⟨st.rightUfoClasses, st.kerning, rfl⟩
  | cons item rest ih =>
    intro st
    rcases item with ⟨name, members⟩
    simp only [correctRightLoop]
    by_cases he : name = makeFeaClassName st name
    · rw [if_pos he]
      exact ih st
    · rw [if_neg he]
      obtain ⟨k1, hk1⟩ := rekeyRight_frame name (makeFeaClassName st name)
        { st with
          rightUfoClasses := ddel (dset st.rightUfoClasses (makeFeaClassName st name) members) name }
      rw [hk1]
      obtain ⟨r, k, hrk⟩ := ih
        { st with
          rightUfoClasses := ddel (dset st.rightUfoClasses (makeFeaClassName st name) members) name,
          kerning := k1 }
      exact ⟨r, k, hrk⟩

theorem correctLeftLoop_keys :
    ∀ (items : List (String × List String)) (st : KernState),
      (∀ p ∈ items, reMatchPat leftUfoGroupPat p.1 = true) →
      (∀ p ∈ st.leftUfoClasses, strStarts p.1 "@" = true ∨ ∃ m, (p.1, m) ∈ items) →
      ∀ p ∈ (correctLeftLoop st items).leftUfoClasses, strStarts p.1 "@" = true := by
  intro items
  induction items with
  | nil =>
    intro st hmatch hinv p hp
    rcases hinv p hp with h | ⟨m, hm⟩
    · exact h
    · simp at hm
  | cons item rest ih =>
    intro st hmatch hinv p hp
    rcases item with ⟨name, members⟩
    have hname : name.toList.head? = some 'p' :=
      head_of_reMatch (show leftUfoGroupPat.toList = 'p' :: "ublic.kern1.".toList from rfl)
        (hmatch (name, members) (List.mem_cons_self _ _))
    have hne2 : name.toList.head? ≠ some '@' := by rw [hname]; decide
    have hne : ¬ (name = makeFeaClassName st name) :=
      fun he => makeFeaClassName_ne st name hne2 he.symm
    simp only [correctLeftLoop] at hp
    rw [if_neg hne] at hp
    refine ih _ (fun q hq => hmatch q (List.mem_cons_of_mem _ hq)) ?_ p hp
    intro q hq
    obtain ⟨k1, hk1⟩ := rekeyLeft_frame name (makeFeaClassName st name)
      { st with
        leftUfoClasses := ddel (dset st.leftUfoClasses (makeFeaClassName st name) members) name }
    rw [hk1] at hq
    have hq2 : q ∈ ddel (dset st.leftUfoClasses (makeFeaClassName st name) members) name := hq
    obtain ⟨hq3, hq4⟩ := mem_ddel_ne hq2
    rcases mem_dset hq3 with h5 | h5
    · rcases hinv q h5 with h6 | ⟨m, hm⟩
      · exact Or.inl h6
      · rcases List.mem_cons.mp hm with h7 | h7
        · exact absurd (congrArg Prod.fst h7) hq4
        · exact Or.inr ⟨m, h7⟩
    · refine Or.inl ?_
      rw [h5]
      exact strStarts_of_head (makeFeaClassName_head st name)

theorem correctRightLoop_keys :
    ∀ (items : List (String × List String)) (st : KernState),
      (∀ p ∈ items, reMatchPat rightUfoGroupPat p.1 = true) →
      (∀ p ∈ st.rightUfoClasses, strStarts p.1 "@" = true ∨ ∃ m, (p.1, m) ∈ items) →
      ∀ p ∈ (correctRightLoop st items).rightUfoClasses, strStarts p.1 "@" = true := by
  intro items
  induction items with
  | nil =>
    intro st hmatch hinv p hp
    rcases hinv p hp with h | ⟨m, hm⟩
    · exact h
    · simp at hm
  | cons item rest ih =>
    intro st hmatch hinv p hp
    rcases item with ⟨name, members⟩
    have hname : name.toList.head? = some 'p' :=
      head_of_reMatch (show rightUfoGroupPat.toList = 'p' :: "ublic.kern2.".toList from rfl)
        (hmatch (name, members) (List.mem_cons_self _ _))
    have hne2 : name.toList.head? ≠ some '@' := by rw [hname]; decide
    have hne : ¬ (name = makeFeaClassName st name) :=
      fun he => makeFeaClassName_ne st name hne2 he.symm
    simp only [correctRightLoop] at hp
    rw [if_neg hne] at hp
    refine ih _ (fun q hq => hmatch q (List.mem_cons_of_mem _ hq)) ?_ p hp
    intro q hq
    obtain ⟨k1, hk1⟩ := rekeyRight_frame name (makeFeaClassName st name)
      { st with
        rightUfoClasses := ddel (dset st.rightUfoClasses (makeFeaClassName st name) members) name }
    rw [hk1] at hq
    have hq2 : q ∈ ddel (dset st.rightUfoClasses (makeFeaClassName st name) members) name := hq
    obtain ⟨hq3, hq4⟩ := mem_ddel_ne hq2
    rcases mem_dset hq3 with h5 | h5
    · rcases hinv q h5 with h6 | ⟨m, hm⟩
      · exact Or.inl h6
      · rcases List.mem_cons.mp hm with h7 | h7
        · exact absurd (congrArg Prod.fst h7) hq4
        · exact Or.inr ⟨m, h7⟩
    · refine Or.inl ?_
      rw [h5]
      exact strStarts_of_head (makeFeaClassName_head st name)

/-- C10: every group-declared kerning class is renamed: on any name matching
the UFO group patterns, `makeFeaClassName` yields a name that differs from
the original and starts with "@"; consequently, after `correctUfoClassNames`
every left and right UFO class key begins with "@". -/
theorem c10_always_renamed :
    (∀ (st : KernState) (name : String),
        reMatchPat leftUfoGroupPat name = true ∨
          reMatchPat rightUfoGroupPat name = true →
        makeFeaClassName st name ≠ name ∧
          strStarts (makeFeaClassName st name) "@" = true) ∧
    (∀ st : KernState,
        (∀ p ∈ st.leftUfoClasses, reMatchPat leftUfoGroupPat p.1 = true) →
        (∀ p ∈ st.rightUfoClasses, reMatchPat rightUfoGroupPat p.1 = true) →
        (∀ p ∈ (correctUfoClassNames st).leftUfoClasses, strStarts p.1 "@" = true) ∧
        (∀ p ∈ (correctUfoClassNames st).rightUfoClasses, strStarts p.1 "@" = true)) := by
  constructor
  · intro st name h
    have hname : name.toList.head? = some 'p' := by
      rcases h with h | h
      · exact head_of_reMatch (show leftUfoGroupPat.toList = 'p' :: "ublic.kern1.".toList from rfl) h
      · exact head_of_reMatch (show rightUfoGroupPat.toList = 'p' :: "ublic.kern2.".toList from rfl) h
    have hne2 : name.toList.head? ≠ some '@' := by rw [hname]; decide
    exact ⟨makeFeaClassName_ne st name hne2,
      strStarts_of_head (makeFeaClassName_head st name)⟩
  · intro st hL hR
    obtain ⟨l1, k1, hlk⟩ := correctLeftLoop_frame st.leftUfoClasses st
    constructor
    · intro p hp
      unfold correctUfoClassNames at hp
      obtain ⟨r2, k2, hrk⟩ :=
        correctRightLoop_frame (correctLeftLoop st st.leftUfoClasses).rightUfoClasses
          (correctLeftLoop st st.leftUfoClasses)
      rw [hrk] at hp
      have hp2 : p ∈ (correctLeftLoop st st.leftUfoClasses).leftUfoClasses := hp
      exact correctLeftLoop_keys st.leftUfoClasses st hL
        (fun q hq => Or.inr ⟨q.2, hq⟩) p hp2
    · intro p hp
      unfold correctUfoClassNames at hp
      refine correctRightLoop_keys
        (correctLeftLoop st st.leftUfoClasses).rightUfoClasses
        (correctLeftLoop st st.leftUfoClasses) ?_ ?_ p hp
      · intro q hq
        rw [hlk] at hq
        exact hR q hq
      · intro q hq
        exact Or.inr ⟨q.2, hq⟩

/-- C10 witness: "public.kern1.A" is renamed to a name starting with "@"
even though it is perfectly legal already, and in the C6 scenario the
corrected left class key "@public.kern1.CL" indeed starts with "@". -/
theorem c10_witness :
    (makeFeaClassName { kerning := [], groups := [] } "public.kern1.A" ≠ "public.kern1.A" ∧
      strStarts (makeFeaClassName { kerning := [], groups := [] } "public.kern1.A") "@" = true) ∧
    strStarts "@public.kern1.CL" "@" = true :=
  ⟨c10_always_renamed.1 { kerning := [], groups := [] } "public.kern1.A" (Or.inl (by decide)),
   (c10_always_renamed.2 c6State (by decide) (by decide)).1
     ("@public.kern1.CL", ["A", "D"]) (by decide)⟩

theorem dget_dset_self {α β : Type} [BEq α] [LawfulBEq α] (d : Dict α β) (k : α)
    (v : β) : dget (dset d k v) k = some v := by
  induction d with
  | nil => simp [dget, dset]
  | cons p rest ih =>
    simp only [dset]
    by_cases hp : p.1 == k
    · rw [if_pos hp]
      simp [dget]
    · rw [if_neg hp]
      simp only [dget]
      rw [if_neg hp]
      exact ih

theorem dget_dset_ne {α β : Type} [BEq α] [LawfulBEq α] (d : Dict α β)
    {k k' : α} (v : β) (h : k' ≠ k) : dget (dset d k v) k' = dget d k' := by
  induction d with
  | nil =>
    simp only [dset, dget]
    rw [if_neg (by simpa using fun he => h (by rw [he]))]
  | cons p rest ih =>
    simp only [dset]
    by_cases hp : p.1 == k
    · rw [if_pos hp]
      simp only [dget]
      rw [if_neg (by simpa using fun he => h (by rw [he])),
        if_neg (by rw [eq_of_beq hp]; simpa using fun he => h (by rw [he]))]
    · rw [if_neg hp]
      simp only [dget]
      by_cases hp2 : p.1 == k'
      · rw [if_pos hp2, if_pos hp2]
      · rw [if_neg hp2, if_neg hp2]
        exact ih

theorem dget_ddel_self {α β : Type} [BEq α] [LawfulBEq α] (d : Dict α β)
    (k : α) : dget (ddel d k) k = none := by
  induction d with
  | nil => simp [dget, ddel]
  | cons p rest ih =>
    simp only [ddel, List.filter]
    by_cases hp : p.1 == k
    · have : (p.1 != k) = false := by simp [bne]; exact eq_of_beq hp
      rw [this]
      exact ih
    · have : (p.1 != k) = true := by simpa [bne] using fun he => hp (by simp [he])
      rw [this]
      simp only [dget]
      rw [if_neg hp]
      exact ih

theorem dget_ddel_ne {α β : Type} [BEq α] [LawfulBEq α] (d : Dict α β)
    {k k' : α} (h : k' ≠ k) : dget (ddel d k) k' = dget d k' := by
  induction d with
  | nil => simp [dget, ddel]
  | cons p rest ih =>
    simp only [ddel, List.filter]
    by_cases hp : p.1 != k
    · rw [hp]
      simp only [dget]
      by_cases hp2 : p.1 == k'
      · rw [if_pos hp2, if_pos hp2]
      · rw [if_neg hp2, if_neg hp2]
        exact ih
    · have hpk : (p.1 != k) = false := by simpa using hp
      rw [hpk]
      simp only [dget]
      have : (p.1 == k') = false := by
        have hk : p.1 = k := by simpa [bne] using hp
        simp [hk]
        exact fun he => h he.symm
      rw [this]
      simp only [Bool.false_eq_true, if_false]
      exact ih

theorem dget_eq_none_iff {α β : Type} [BEq α] [LawfulBEq α] {d : Dict α β}
    {k : α} : dget d k = none ↔ ∀ p ∈ d, p.1 ≠ k := by
  induction d with
  | nil => simp [dget]
  | cons p rest ih =>
    simp only [dget, List.mem_cons]
    by_cases hp : p.1 == k
    · rw [if_pos hp]
      simp only [reduceCtorEq, false_iff, not_forall]
      push_neg
      exact ⟨p, Or.inl rfl, eq_of_beq hp⟩
    · rw [if_neg hp]
      rw [ih]
      constructor
      · intro h q hq
        rcases hq with hq | hq
        · rw [hq]; simpa using hp
        · exact h q hq
      · intro h q hq
        exact h q (Or.inr hq)

theorem dget_of_mem_nodup {α β : Type} [BEq α] [LawfulBEq α] {d : Dict α β}
    (hnd : (d.map Prod.fst).Nodup) {p : α × β} (hp : p ∈ d) :
    dget d p.1 = some p.2 := by
  induction d with
  | nil => simp at hp
  | cons q rest ih =>
    simp only [List.map_cons, List.nodup_cons] at hnd
    rcases List.mem_cons.mp hp with h | h
    · rw [h]
      simp [dget]
    · have hne : q.1 ≠ p.1 := by
        intro he
        exact hnd.1 (he ▸ List.mem_map_of_mem Prod.fst h)
      simp only [dget]
      rw [if_neg (by simpa using hne)]
      exact ih hnd.2 h

theorem nodup_keys_dset {α β : Type} [BEq α] [LawfulBEq α] {d : Dict α β}
    (hnd : (d.map Prod.fst).Nodup) (k : α) (v : β) :
    ((dset d k v).map Prod.fst).Nodup := by
  induction d with
  | nil => simp [dset]
  | cons p rest ih =>
    simp only [List.map_cons, List.nodup_cons] at hnd
    simp only [dset]
    by_cases hp : p.1 == k
    · rw [if_pos hp]
      simp only [List.map_cons, List.nodup_cons]
      exact ⟨(eq_of_beq hp) ▸ hnd.1, hnd.2⟩
    · rw [if_neg hp]
      simp only [List.map_cons, List.nodup_cons]
      refine ⟨?_, ih hnd.2⟩
      intro hmem
      rcases List.mem_map.mp hmem with ⟨q, hq, hq2⟩
      rcases mem_dset hq with h | h
      · exact hnd.1 (hq2 ▸ List.mem_map_of_mem Prod.fst h)
      · rw [h] at hq2
        exact absurd hq2.symm (by simpa using hp)

theorem nodup_keys_ddel {α β : Type} [BEq α] [LawfulBEq α] {d : Dict α β}
    (hnd : (d.map Prod.fst).Nodup) (k : α) :
    ((ddel d k).map Prod.fst).Nodup :=
  ((List.filter_sublist d).map Prod.fst).nodup hnd

theorem pair_ne_left {a c : String} (b e : String) (h : a ≠ c) :
    (a, b) ≠ ((c, e) : String × String) :=
  fun he => h (congrArg Prod.fst he)

theorem pair_ne_right {b e : String} (a c : String) (h : b ≠ e) :
    (a, b) ≠ ((c, e) : String × String) :=
  fun he => h (congrArg Prod.snd he)

theorem rekeyLeft_kerning (st : KernState) (oldName nn : String) :
    (rekeyLeft st oldName nn).kerning =
      rekeyLeftK nn (getGlyphKern st.kerning oldName 0) st.kerning := by
  unfold rekeyLeft rekeyLeftK
  generalize getGlyphKern st.kerning oldName 0 = hits
  induction hits generalizing st with
  | nil => rfl
  | cons kv rest ih =>
    rw [List.foldl_cons, List.foldl_cons]
    exact ih { st with kerning := ddel (dset st.kerning (nn, kv.1.2) kv.2) kv.1 }

theorem rekeyRight_kerning (st : KernState) (oldName nn : String) :
    (rekeyRight st oldName nn).kerning =
      rekeyRightK nn (getGlyphKern st.kerning oldName 1) st.kerning := by
  unfold rekeyRight rekeyRightK
  generalize getGlyphKern st.kerning oldName 1 = hits
  induction hits generalizing st with
  | nil => rfl
  | cons kv rest ih =>
    rw [List.foldl_cons, List.foldl_cons]
    exact ih { st with kerning := ddel (dset st.kerning (kv.1.1, nn) kv.2) kv.1 }

theorem rekeyLeftK_spec (n nn : String) (hnn : n ≠ nn) :
    ∀ (hits : List ((String × String) × Int)) (d : Dict (String × String) Int),
      (∀ p ∈ hits, p.1.1 = n) →
      (hits.map Prod.fst).Nodup →
      (∀ p ∈ hits, dget d p.1 = some p.2) →
      (∀ r, (n, r) ∈ hits.map Prod.fst → dget d (nn, r) = none) →
      (d.map Prod.fst).Nodup →
      (∀ r v, ((n, r), v) ∈ hits → dget (rekeyLeftK nn hits d) (nn, r) = some v) ∧
      (∀ l r, l ≠ n → l ≠ nn → dget (rekeyLeftK nn hits d) (l, r) = dget d (l, r)) ∧
      (∀ r, (n, r) ∈ hits.map Prod.fst → dget (rekeyLeftK nn hits d) (n, r) = none) ∧
      (∀ r, (n, r) ∉ hits.map Prod.fst → dget (rekeyLeftK nn hits d) (n, r) = dget d (n, r)) ∧
      (∀ r, (n, r) ∉ hits.map Prod.fst → dget (rekeyLeftK nn hits d) (nn, r) = dget d (nn, r)) ∧
      (∀ p ∈ rekeyLeftK nn hits d, p ∈ d ∨ ∃ r v, p = ((nn, r), v) ∧ ((n, r), v) ∈ hits) ∧
      ((rekeyLeftK nn hits d).map Prod.fst).Nodup := by
  intro hits
  induction hits with
  | nil =>
    intro d hhits hndh hget hfresh hndd
    refine ⟨?_, ?_, ?_, ?_, ?_, ?_, ?_⟩
    · intro r v hrv; simp at hrv
    · intro l r h1 h2; rfl
    · intro r hr; simp at hr
    · intro r hr; rfl
    · intro r hr; rfl
    · intro p hp; exact Or.inl hp
    · exact hndd
  | cons hit rest ih =>
    intro d hhits hndh hget hfresh hndd
    obtain ⟨⟨hl, r0⟩, v0⟩ := hit
    have hl0 : hl = n := hhits ((hl, r0), v0) (List.mem_cons_self _ _)
    subst hl0
    set d1 : Dict (String × String) Int := ddel (dset d (nn, r0) v0) (hl, r0) with hd1
    have hstep : rekeyLeftK nn (((hl, r0), v0) :: rest) d = rekeyLeftK nn rest d1 := by
      simp only [rekeyLeftK, List.foldl_cons]
    have hr0rest : (hl, r0) ∉ rest.map Prod.fst := by
      simp only [List.map_cons, List.nodup_cons] at hndh
      exact hndh.1
    have hndh2 : (rest.map Prod.fst).Nodup := by
      simp only [List.map_cons, List.nodup_cons] at hndh
      exact hndh.2
    have fact_nn : ∀ r, dget d1 (nn, r) =
        if r = r0 then some v0 else dget d (nn, r) := by
      intro r
      by_cases hr : r = r0
      · subst hr
        rw [if_pos rfl, hd1, dget_ddel_ne _ (pair_ne_left _ _ (Ne.symm hnn)),
          dget_dset_self]
      · rw [if_neg hr, hd1, dget_ddel_ne _ (pair_ne_left _ _ (Ne.symm hnn)),
          dget_dset_ne _ _ (pair_ne_right _ _ hr)]
    have fact_n : ∀ r, dget d1 (hl, r) =
        if r = r0 then none else dget d (hl, r) := by
      intro r
      by_cases hr : r = r0
      · subst hr
        rw [if_pos rfl, hd1, dget_ddel_self]
      · rw [if_neg hr, hd1, dget_ddel_ne _ (pair_ne_right _ _ hr),
          dget_dset_ne _ _ (pair_ne_left _ _ hnn)]
    have fact_other : ∀ l r, l ≠ hl → l ≠ nn → dget d1 (l, r) = dget d (l, r) := by
      intro l r h1 h2
      rw [hd1, dget_ddel_ne _ (pair_ne_left _ _ h1), dget_dset_ne _ _ (pair_ne_left _ _ h2)]
    have fact_nodup : (d1.map Prod.fst).Nodup :=
      nodup_keys_ddel (nodup_keys_dset hndd (nn, r0) v0) (hl, r0)
    have fact_mem : ∀ p, p ∈ d1 → p ∈ d ∨ p = ((nn, r0), v0) := by
      intro p hp
      exact mem_dset (mem_of_mem_ddel hp)
    have hget2 : ∀ p ∈ rest, dget d1 p.1 = some p.2 := by
      intro p hp
      have hp1 : p.1.1 = hl := hhits p (List.mem_cons_of_mem _ hp)
      have hpr : p.1.2 ≠ r0 := by
        intro he
        apply hr0rest
        have : p.1 = (hl, r0) := by
          rcases p with ⟨⟨a, b⟩, c⟩
          simp only at hp1 he
          rw [hp1, he]
        exact this ▸ List.mem_map_of_mem Prod.fst hp
      have hkey : p.1 = (hl, p.1.2) := by
        rcases p with ⟨⟨a, b⟩, c⟩
        simp only at hp1 ⊢
        rw [hp1]
      rw [hkey, fact_n p.1.2, if_neg hpr, ← hkey]
      exact hget p (List.mem_cons_of_mem _ hp)
    have hfresh2 : ∀ r, (hl, r) ∈ rest.map Prod.fst → dget d1 (nn, r) = none := by
      intro r hr
      have hrne : r ≠ r0 := by
        intro he
        exact hr0rest (he ▸ hr)
      rw [fact_nn r, if_neg hrne]
      exact hfresh r (List.mem_cons_of_mem _ hr)
    obtain ⟨C1, C2, C3, C4, C5, C6, C7⟩ := ih d1 (fun p hp => hhits p (List.mem_cons_of_mem _ hp))
      hndh2 hget2 hfresh2 fact_nodup
    rw [hstep]
    refine ⟨?_, ?_, ?_, ?_, ?_, ?_, C7⟩
    · intro r v hrv
      rcases List.mem_cons.mp hrv with h | h
      · have hr : r = r0 := by
          have := congrArg (fun q => q.1.2) h
          simpa using this
        have hv : v = v0 := by
          have := congrArg Prod.snd h
          simpa using this
        subst hr hv
        rw [C5 r (by simpa using hr0rest), fact_nn r, if_pos rfl]
      · exact C1 r v h
    · intro l r h1 h2
      rw [C2 l r h1 h2, fact_other l r h1 h2]
    · intro r hr
      simp only [List.map_cons, List.mem_cons] at hr
      rcases hr with hr | hr
      · have hr : r = r0 := by
          have := congrArg Prod.snd hr
          simpa using this
        subst hr
        rw [C4 r (by simpa using hr0rest), fact_n r, if_pos rfl]
      · exact C3 r hr
    · intro r hr
      simp only [List.map_cons, List.mem_cons, not_or] at hr
      have hrne : r ≠ r0 := by
        intro he
        exact hr.1 (by rw [he])
      rw [C4 r hr.2, fact_n r, if_neg hrne]
    · intro r hr
      simp only [List.map_cons, List.mem_cons, not_or] at hr
      have hrne : r ≠ r0 := by
        intro he
        exact hr.1 (by rw [he])
      rw [C5 r hr.2, fact_nn r, if_neg hrne]
    · intro p hp
      rcases C6 p hp with h | h
      · rcases fact_mem p h with h2 | h2
        · exact Or.inl h2
        · exact Or.inr ⟨r0, v0, h2, List.mem_cons_self _ _⟩
      · obtain ⟨r, v, hpv, hm⟩ := h
        exact Or.inr ⟨r, v, hpv, List.mem_cons_of_mem _ hm⟩

theorem rekeyRightK_spec (n nn : String) (hnn : n ≠ nn) :
    ∀ (hits : List ((String × String) × Int)) (d : Dict (String × String) Int),
      (∀ p ∈ hits, p.1.2 = n) →
      (hits.map Prod.fst).Nodup →
      (∀ p ∈ hits, dget d p.1 = some p.2) →
      (∀ l, (l, n) ∈ hits.map Prod.fst → dget d (l, nn) = none) →
      (d.map Prod.fst).Nodup →
      (∀ l v, ((l, n), v) ∈ hits → dget (rekeyRightK nn hits d) (l, nn) = some v) ∧
      (∀ l r, r ≠ n → r ≠ nn → dget (rekeyRightK nn hits d) (l, r) = dget d (l, r)) ∧
      (∀ l, (l, n) ∈ hits.map Prod.fst → dget (rekeyRightK nn hits d) (l, n) = none) ∧
      (∀ l, (l, n) ∉ hits.map Prod.fst → dget (rekeyRightK nn hits d) (l, n) = dget d (l, n)) ∧
      (∀ l, (l, n) ∉ hits.map Prod.fst → dget (rekeyRightK nn hits d) (l, nn) = dget d (l, nn)) ∧
      (∀ p ∈ rekeyRightK nn hits d, p ∈ d ∨ ∃ l v, p = ((l, nn), v) ∧ ((l, n), v) ∈ hits) ∧
      ((rekeyRightK nn hits d).map Prod.fst).Nodup := by
  intro hits
  induction hits with
  | nil =>
    intro d hhits hndh hget hfresh hndd
    refine ⟨?_, ?_, ?_, ?_, ?_, ?_, ?_⟩
    · intro l v hrv; simp at hrv
    · intro l r h1 h2; rfl
    · intro l hr; simp at hr
    · intro l hr; rfl
    · intro l hr; rfl
    · intro p hp; exact Or.inl hp
    · exact hndd
  | cons hit rest ih =>
    intro d hhits hndh hget hfresh hndd
    obtain ⟨⟨l0, hr⟩, v0⟩ := hit
    have hr0 : hr = n := hhits ((l0, hr), v0) (List.mem_cons_self _ _)
    subst hr0
    set d1 : Dict (String × String) Int := ddel (dset d (l0, nn) v0) (l0, hr) with hd1
    have hstep : rekeyRightK nn (((l0, hr), v0) :: rest) d = rekeyRightK nn rest d1 := by
      simp only [rekeyRightK, List.foldl_cons]
    have hr0rest : (l0, hr) ∉ rest.map Prod.fst := by
      simp only [List.map_cons, List.nodup_cons] at hndh
      exact hndh.1
    have hndh2 : (rest.map Prod.fst).Nodup := by
      simp only [List.map_cons, List.nodup_cons] at hndh
      exact hndh.2
    have fact_nn : ∀ l, dget d1 (l, nn) =
        if l = l0 then some v0 else dget d (l, nn) := by
      intro l
      by_cases hl : l = l0
      · subst hl
        rw [if_pos rfl, hd1, dget_ddel_ne _ (pair_ne_right _ _ (Ne.symm hnn)),
          dget_dset_self]
      · rw [if_neg hl, hd1, dget_ddel_ne _ (pair_ne_right _ _ (Ne.symm hnn)),
          dget_dset_ne _ _ (pair_ne_left _ _ hl)]
    have fact_n : ∀ l, dget d1 (l, hr) =
        if l = l0 then none else dget d (l, hr) := by
      intro l
      by_cases hl : l = l0
      · subst hl
        rw [if_pos rfl, hd1, dget_ddel_self]
      · rw [if_neg hl, hd1, dget_ddel_ne _ (pair_ne_left _ _ hl),
          dget_dset_ne _ _ (pair_ne_right _ _ hnn)]
    have fact_other : ∀ l r, r ≠ hr → r ≠ nn → dget d1 (l, r) = dget d (l, r) := by
      intro l r h1 h2
      rw [hd1, dget_ddel_ne _ (pair_ne_right _ _ h1), dget_dset_ne _ _ (pair_ne_right _ _ h2)]
    have fact_nodup : (d1.map Prod.fst).Nodup :=
      nodup_keys_ddel (nodup_keys_dset hndd (l0, nn) v0) (l0, hr)
    have fact_mem : ∀ p, p ∈ d1 → p ∈ d ∨ p = ((l0, nn), v0) := by
      intro p hp
      exact mem_dset (mem_of_mem_ddel hp)
    have hget2 : ∀ p ∈ rest, dget d1 p.1 = some p.2 := by
      intro p hp
      have hp1 : p.1.2 = hr := hhits p (List.mem_cons_of_mem _ hp)
      have hpl : p.1.1 ≠ l0 := by
        intro he
        apply hr0rest
        have : p.1 = (l0, hr) := by
          rcases p with ⟨⟨a, b⟩, c⟩
          simp only at hp1 he
          rw [hp1, he]
        exact this ▸ List.mem_map_of_mem Prod.fst hp
      have hkey : p.1 = (p.1.1, hr) := by
        rcases p with ⟨⟨a, b⟩, c⟩
        simp only at hp1 ⊢
        rw [hp1]
      rw [hkey, fact_n p.1.1, if_neg hpl, ← hkey]
      exact hget p (List.mem_cons_of_mem _ hp)
    have hfresh2 : ∀ l, (l, hr) ∈ rest.map Prod.fst → dget d1 (l, nn) = none := by
      intro l hl
      have hlne : l ≠ l0 := by
        intro he
        exact hr0rest (he ▸ hl)
      rw [fact_nn l, if_neg hlne]
      exact hfresh l (List.mem_cons_of_mem _ hl)
    obtain ⟨C1, C2, C3, C4, C5, C6, C7⟩ := ih d1 (fun p hp => hhits p (List.mem_cons_of_mem _ hp))
      hndh2 hget2 hfresh2 fact_nodup
    rw [hstep]
    refine ⟨?_, ?_, ?_, ?_, ?_, ?_, C7⟩
    · intro l v hrv
      rcases List.mem_cons.mp hrv with h | h
      · have hl : l = l0 := by
          have := congrArg (fun q => q.1.1) h
          simpa using this
        have hv : v = v0 := by
          have := congrArg Prod.snd h
          simpa using this
        subst hl hv
        rw [C5 l (by simpa using hr0rest), fact_nn l, if_pos rfl]
      · exact C1 l v h
    · intro l r h1 h2
      rw [C2 l r h1 h2, fact_other l r h1 h2]
    · intro l hl
      simp only [List.map_cons, List.mem_cons] at hl
      rcases hl with hl | hl
      · have hl2 : l = l0 := by
          have := congrArg Prod.fst hl
          simpa using this
        subst hl2
        rw [C4 l (by simpa using hr0rest), fact_n l, if_pos rfl]
      · exact C3 l hl
    · intro l hl
      simp only [List.map_cons, List.mem_cons, not_or] at hl
      have hlne : l ≠ l0 := by
        intro he
        exact hl.1 (by rw [he])
      rw [C4 l hl.2, fact_n l, if_neg hlne]
    · intro l hl
      simp only [List.map_cons, List.mem_cons, not_or] at hl
      have hlne : l ≠ l0 := by
        intro he
        exact hl.1 (by rw [he])
      rw [C5 l hl.2, fact_nn l, if_neg hlne]
    · intro p hp
      rcases C6 p hp with h | h
      · rcases fact_mem p h with h2 | h2
        · exact Or.inl h2
        · exact Or.inr ⟨l0, v0, h2, List.mem_cons_self _ _⟩
      · obtain ⟨l, v, hpv, hm⟩ := h
        exact Or.inr ⟨l, v, hpv, List.mem_cons_of_mem _ hm⟩

theorem mem_getGlyphKern0 {d : Dict (String × String) Int} {g : String}
    {p : (String × String) × Int} :
    p ∈ getGlyphKern d g 0 ↔ p ∈ d ∧ p.1.1 = g := by
  unfold getGlyphKern
  rw [List.mem_filter]
  simp

theorem mem_getGlyphKern1 {d : Dict (String × String) Int} {g : String}
    {p : (String × String) × Int} :
    p ∈ getGlyphKern d g 1 ↔ p ∈ d ∧ p.1.2 = g := by
  unfold getGlyphKern
  rw [List.mem_filter]
  simp

theorem getGlyphKern_keys_nodup {d : Dict (String × String) Int}
    (hnd : (d.map Prod.fst).Nodup) (g : String) (i : Nat) :
    ((getGlyphKern d g i).map Prod.fst).Nodup :=
  ((List.filter_sublist d).map Prod.fst).nodup hnd

theorem getGlyphKern_get {d : Dict (String × String) Int}
    (hnd : (d.map Prod.fst).Nodup) (g : String) (i : Nat) :
    ∀ p ∈ getGlyphKern d g i, dget d p.1 = some p.2 := by
  intro p hp
  exact dget_of_mem_nodup hnd (List.mem_of_mem_filter hp)

theorem key_mem_getGlyphKern0 {d : Dict (String × String) Int} {g r : String} :
    (g, r) ∈ (getGlyphKern d g 0).map Prod.fst ↔ ∃ v, ((g, r), v) ∈ d := by
  constructor
  · intro h
    rcases List.mem_map.mp h with ⟨p, hp, hfst⟩
    rcases mem_getGlyphKern0.mp hp with ⟨hd, _⟩
    exact ⟨p.2, by rwa [show ((g, r), p.2) = p from by rw [← hfst]]⟩
  · intro ⟨v, hv⟩
    exact List.mem_map_of_mem Prod.fst (mem_getGlyphKern0.mpr ⟨hv, rfl⟩)

theorem key_mem_getGlyphKern1 {d : Dict (String × String) Int} {g l : String} :
    (l, g) ∈ (getGlyphKern d g 1).map Prod.fst ↔ ∃ v, ((l, g), v) ∈ d := by
  constructor
  · intro h
    rcases List.mem_map.mp h with ⟨p, hp, hfst⟩
    rcases mem_getGlyphKern1.mp hp with ⟨hd, _⟩
    exact ⟨p.2, by rwa [show ((l, g), p.2) = p from by rw [← hfst]]⟩
  · intro ⟨v, hv⟩
    exact List.mem_map_of_mem Prod.fst (mem_getGlyphKern1.mpr ⟨hv, rfl⟩)

theorem findFreeName_found (ex : List String) (base : String) :
    ∀ (fuel i j0 : Nat), i ≤ j0 → j0 < i + fuel →
      (base ++ "_" ++ toString j0) ∉ ex →
      (∀ j, i ≤ j → j < j0 → (base ++ "_" ++ toString j) ∈ ex) →
      findFreeName ex base fuel i = base ++ "_" ++ toString j0 := by
  intro fuel
  induction fuel with
  | zero => intro i j0 h1 h2 h3 h4; omega
  | succ m ih =>
    intro i j0 h1 h2 h3 h4
    simp only [findFreeName]
    by_cases hc : base ++ "_" ++ toString i ∈ ex
    · rw [if_pos hc]
      have hij : i ≠ j0 := fun he => h3 (he ▸ hc)
      exact ih (i + 1) j0 (by omega) (by omega) h3 (fun j hj1 hj2 => h4 j (by omega) hj2)
    · rw [if_neg hc]
      have hieq : i = j0 := by
        by_contra hne
        exact hc (h4 i le_rfl (lt_of_le_of_ne h1 hne))
      rw [hieq]

theorem makeFeaClassName_first_free (st : KernState) (name : String)
    (hfree : ∃ j, 1 ≤ j ∧ j ≤ (existingClassNames st).length + 1 ∧
      candName ("@" ++ stripIllegal name) j ∉ existingClassNames st) :
    ∃ k, makeFeaClassName st name = candName ("@" ++ stripIllegal name) k ∧
      candName ("@" ++ stripIllegal name) k ∉ existingClassNames st ∧
      ∀ j < k, candName ("@" ++ stripIllegal name) j ∈ existingClassNames st := by
  by_cases hb : "@" ++ stripIllegal name ∈ existingClassNames st
  · obtain ⟨jw, hjw1, hjw2, hjw3⟩ := hfree
    have hP : ∃ j, candName ("@" ++ stripIllegal name) j ∉ existingClassNames st :=
      ⟨jw, hjw3⟩
    have hspec := Nat.find_spec hP
    have hmin := fun j (hj : j < Nat.find hP) => Nat.find_min hP hj
    have hle : Nat.find hP ≤ jw := Nat.find_min' hP hjw3
    have h1 : 1 ≤ Nat.find hP := by
      rcases Nat.eq_zero_or_pos (Nat.find hP) with h0 | h0
      · exfalso
        apply hspec
        rw [h0]
        exact hb
      · exact h0
    obtain ⟨m, hm⟩ : ∃ m, Nat.find hP = m + 1 :=
      ⟨Nat.find hP - 1, by omega⟩
    refine ⟨Nat.find hP, ?_, hspec, ?_⟩
    · unfold makeFeaClassName
      rw [if_pos hb]
      rw [hm]
      show findFreeName (existingClassNames st) ("@" ++ stripIllegal name)
        ((existingClassNames st).length + 1) 1 =
        ("@" ++ stripIllegal name) ++ "_" ++ toString (m + 1)
      apply findFreeName_found
      · omega
      · omega
      · rw [← show candName ("@" ++ stripIllegal name) (m + 1) =
            ("@" ++ stripIllegal name) ++ "_" ++ toString (m + 1) from rfl, ← hm]
        exact hspec
      · intro j hj1 hj2
        have hjlt : j < Nat.find hP := by omega
        have := not_not.mp (hmin j hjlt)
        obtain ⟨j2, hj2e⟩ : ∃ j2, j = j2 + 1 := ⟨j - 1, by omega⟩
        rw [hj2e] at this ⊢
        exact this
    · intro j hj
      have := not_not.mp (hmin j hj)
      exact this
  · refine ⟨0, ?_, hb, by omega⟩
    unfold makeFeaClassName
    rw [if_neg hb]
    rfl

theorem mem_insertLe {α : Type} (le : α → α → Bool) (x y : α) :
    ∀ l : List α, y ∈ insertLe le x l ↔ y = x ∨ y ∈ l := by
  intro l
  induction l with
  | nil => simp [insertLe]
  | cons z zs ih =>
    simp only [insertLe]
    by_cases h : le x z
    · rw [if_pos h]
      simp [List.mem_cons]
    · rw [if_neg h]
      simp only [List.mem_cons, ih]
      tauto

theorem mem_isort {α : Type} (le : α → α → Bool) (y : α) :
    ∀ l : List α, y ∈ isort le l ↔ y ∈ l := by
  intro l
  induction l with
  | nil => simp [isort]
  | cons z zs ih =>
    simp only [isort, mem_insertLe, List.mem_cons, ih]

theorem ne_of_heads {x y : String} (hx : x.toList.head? ≠ some '@')
    (hy : y.toList.head? = some '@') : x ≠ y :=
  fun he => hx (by rw [he]; exact hy)

theorem singleton_rename {n nn : String} (m : List String) (h : n ≠ nn) :
    ddel (dset [(n, m)] nn m) n = [(nn, m)] := by
  simp only [dset]
  rw [if_neg (by simpa using h)]
  simp only [ddel, List.filter]
  rw [show (n != n) = false by simp]
  rw [show (nn != n) = true from by simpa [bne_iff_ne] using fun he => h he.symm]

theorem correct_rename_singleton (st : KernState) (n1 n2 : String)
    (m1 m2 : List String)
    (hL : st.leftUfoClasses = [(n1, m1)]) (hR : st.rightUfoClasses = [(n2, m2)])
    (hn1 : reMatchPat leftUfoGroupPat n1 = true)
    (hn2 : reMatchPat rightUfoGroupPat n2 = true)
    (hnodup : (st.kerning.map Prod.fst).Nodup)
    (hat : ∀ p ∈ st.kerning,
      p.1.1.toList.head? ≠ some '@' ∧ p.1.2.toList.head? ≠ some '@') :
    ∃ nn1 nn2, nn1 = makeFeaClassName st n1 ∧
      strStarts nn1 "@" = true ∧ strStarts nn2 "@" = true ∧
      (correctUfoClassNames st).leftUfoClasses = [(nn1, m1)] ∧
      (correctUfoClassNames st).rightUfoClasses = [(nn2, m2)] ∧
      (∀ r v, dget st.kerning (n1, r) = some v → r ≠ n2 →
        dget (correctUfoClassNames st).kerning (nn1, r) = some v) ∧
      (∀ v, dget st.kerning (n1, n2) = some v →
        dget (correctUfoClassNames st).kerning (nn1, nn2) = some v) ∧
      (∀ l v, dget st.kerning (l, n2) = some v → l ≠ n1 →
        dget (correctUfoClassNames st).kerning (l, nn2) = some v) ∧
      (∀ r, dget (correctUfoClassNames st).kerning (n1, r) = none) ∧
      (∀ l, dget (correctUfoClassNames st).kerning (l, n2) = none) ∧
      (∀ l r, l ≠ n1 → l ≠ nn1 → r ≠ n2 → r ≠ nn2 →
        dget (correctUfoClassNames st).kerning (l, r) = dget st.kerning (l, r)) ∧
      (nn2 ≠ nn1 →
        (nn1 ++ " = [" ++ String.intercalate " " m1 ++ "];") ∈
            addGlyphClasses (correctUfoClassNames st) ∧
        (nn2 ++ " = [" ++ String.intercalate " " m2 ++ "];") ∈
            addGlyphClasses (correctUfoClassNames st)) := by
  have hhead1 : n1.toList.head? = some 'p' :=
    head_of_reMatch (show leftUfoGroupPat.toList = 'p' :: "ublic.kern1.".toList from rfl) hn1
  have hhead2 : n2.toList.head? = some 'p' :=
    head_of_reMatch (show rightUfoGroupPat.toList = 'p' :: "ublic.kern2.".toList from rfl) hn2
  have hhead1ne : n1.toList.head? ≠ some '@' := by rw [hhead1]; decide
  have hhead2ne : n2.toList.head? ≠ some '@' := by rw [hhead2]; decide
  set nn1 : String := makeFeaClassName st n1 with hnn1def
  have hnn1head : nn1.toList.head? = some '@' := by
    rw [hnn1def]; exact makeFeaClassName_head st n1
  have hne1 : n1 ≠ nn1 := fun he => hhead1ne (by rw [he]; exact hnn1head)
  set hits1 : List ((String × String) × Int) := getGlyphKern st.kerning n1 0 with hhits1def
  set k1 : Dict (String × String) Int := rekeyLeftK nn1 hits1 st.kerning with hk1def
  set stL : KernState :=
    { st with leftUfoClasses := [(nn1, m1)], kerning := k1 } with hstLdef
  -- the left pass
  have hstL : correctLeftLoop st st.leftUfoClasses = stL := by
    rw [hL]
    simp only [correctLeftLoop]
    rw [if_neg (fun he => hne1 (he.trans hnn1def.symm))]
    rw [hL, ← hnn1def, singleton_rename m1 hne1]
    obtain ⟨ka, hka⟩ :=
      rekeyLeft_frame n1 nn1 { st with leftUfoClasses := [(nn1, m1)] }
    rw [hka]
    have hka2 : ka = k1 := by
      have hkk := rekeyLeft_kerning { st with leftUfoClasses := [(nn1, m1)] } n1 nn1
      rw [hka] at hkk
      exact hkk
    rw [hka2]
  -- left-pass kerning characterization
  have hkeyne1 : ∀ p ∈ st.kerning, p.1.1 ≠ nn1 :=
    fun p hp => ne_of_heads (hat p hp).1 hnn1head
  obtain ⟨L1, L2, L3, L4, L5, L6, L7⟩ :=
    rekeyLeftK_spec n1 nn1 hne1 hits1 st.kerning
      (fun p hp => (mem_getGlyphKern0.mp hp).2)
      (getGlyphKern_keys_nodup hnodup n1 0)
      (getGlyphKern_get hnodup n1 0)
      (fun r _ => dget_eq_none_iff.mpr
        (fun p hp => fun he => hkeyne1 p hp (congrArg Prod.fst he)))
      hnodup
  rw [← hk1def] at L1 L2 L3 L4 L5 L6 L7
  -- facts about k1
  have hk1n1 : ∀ r, dget k1 (n1, r) = none := by
    intro r
    by_cases hmem : (n1, r) ∈ hits1.map Prod.fst
    · exact L3 r hmem
    · rw [L4 r hmem]
      cases hv : dget st.kerning (n1, r) with
      | none => rfl
      | some v =>
        exact absurd (key_mem_getGlyphKern0.mpr ⟨v, dget_some_mem hv⟩) hmem
  have hk1mem : ∀ p ∈ k1, p.1.2.toList.head? ≠ some '@' := by
    intro p hp
    rcases L6 p hp with h | ⟨r, v, hpe, hm⟩
    · exact (hat p h).2
    · have hm2 : ((n1, r), v) ∈ st.kerning := (mem_getGlyphKern0.mp hm).1
      have := (hat ((n1, r), v) hm2).2
      rw [hpe]
      exact this
  -- the right pass
  set nn2 : String := makeFeaClassName stL n2 with hnn2def
  have hnn2head : nn2.toList.head? = some '@' := by
    rw [hnn2def]; exact makeFeaClassName_head stL n2
  have hne2 : n2 ≠ nn2 := fun he => hhead2ne (by rw [he]; exact hnn2head)
  set hits2 : List ((String × String) × Int) := getGlyphKern k1 n2 1 with hhits2def
  set k2 : Dict (String × String) Int := rekeyRightK nn2 hits2 k1 with hk2def
  have hfinal : correctUfoClassNames st =
      { st with leftUfoClasses := [(nn1, m1)], rightUfoClasses := [(nn2, m2)],
                kerning := k2 } := by
    unfold correctUfoClassNames
    rw [hstL]
    dsimp only
    have hstLr : stL.rightUfoClasses = [(n2, m2)] := by rw [hstLdef]; exact hR
    rw [hstLr]
    simp only [correctRightLoop]
    rw [if_neg (fun he => hne2 (he.trans hnn2def.symm))]
    rw [hstLr, ← hnn2def, singleton_rename m2 hne2]
    obtain ⟨kb, hkb⟩ :=
      rekeyRight_frame n2 nn2 { stL with rightUfoClasses := [(nn2, m2)] }
    rw [hkb]
    have hkb2 : kb = k2 := by
      have hkk := rekeyRight_kerning { stL with rightUfoClasses := [(nn2, m2)] } n2 nn2
      rw [hkb] at hkk
      exact hkk
    rw [hkb2]
  have hk1nn2 : ∀ l, dget k1 (l, nn2) = none := by
    intro l
    apply dget_eq_none_iff.mpr
    intro p hp he
    have h2 : p.1.2 = nn2 := congrArg Prod.snd he
    exact hk1mem p hp (by rw [h2]; exact hnn2head)
  obtain ⟨R1, R2, R3, R4, R5, R6, R7⟩ :=
    rekeyRightK_spec n2 nn2 hne2 hits2 k1
      (fun p hp => (mem_getGlyphKern1.mp hp).2)
      (getGlyphKern_keys_nodup L7 n2 1)
      (getGlyphKern_get L7 n2 1)
      (fun l _ => hk1nn2 l)
      L7
  rw [← hk2def] at R1 R2 R3 R4 R5 R6 R7
  have hk2n2 : ∀ l, dget k2 (l, n2) = none := by
    intro l
    by_cases hmem : (l, n2) ∈ hits2.map Prod.fst
    · exact R3 l hmem
    · rw [R4 l hmem]
      cases hv : dget k1 (l, n2) with
      | none => rfl
      | some v =>
        exact absurd (key_mem_getGlyphKern1.mpr ⟨v, dget_some_mem hv⟩) hmem
  have hfk : (correctUfoClassNames st).kerning = k2 := by rw [hfinal]
  refine ⟨nn1, nn2, hnn1def, strStarts_of_head hnn1head, strStarts_of_head hnn2head,
    ?_, ?_, ?_, ?_, ?_, ?_, ?_, ?_, ?_⟩
  · rw [hfinal]
  · rw [hfinal]
  · intro r v hv hrn2
    have hmemk : ((n1, r), v) ∈ st.kerning := dget_some_mem hv
    have hrnn2 : r ≠ nn2 := ne_of_heads (hat _ hmemk).2 hnn2head
    have hh1 : ((n1, r), v) ∈ hits1 := mem_getGlyphKern0.mpr ⟨hmemk, rfl⟩
    rw [hfk, R2 nn1 r hrn2 hrnn2]
    exact L1 r v hh1
  · intro v hv
    have hh1 : ((n1, n2), v) ∈ hits1 :=
      mem_getGlyphKern0.mpr ⟨dget_some_mem hv, rfl⟩
    have hk1v : dget k1 (nn1, n2) = some v := L1 n2 v hh1
    have hh2 : ((nn1, n2), v) ∈ hits2 :=
      mem_getGlyphKern1.mpr ⟨dget_some_mem hk1v, rfl⟩
    rw [hfk]
    exact R1 nn1 v hh2
  · intro l v hv hln1
    have hmemk := dget_some_mem hv
    have hlnn1 : l ≠ nn1 := ne_of_heads (hat _ hmemk).1 hnn1head
    have hk1v : dget k1 (l, n2) = some v := by
      rw [L2 l n2 hln1 hlnn1]
      exact hv
    have hh2 : ((l, n2), v) ∈ hits2 :=
      mem_getGlyphKern1.mpr ⟨dget_some_mem hk1v, rfl⟩
    rw [hfk]
    exact R1 l v hh2
  · intro r
    rw [hfk]
    by_cases hr2 : r = n2
    · rw [hr2]
      exact hk2n2 n1
    · by_cases hrn : r = nn2
      · rw [hrn]
        have hnotin : (n1, n2) ∉ hits2.map Prod.fst := by
          intro hmem
          rcases key_mem_getGlyphKern1.mp hmem with ⟨v, hv⟩
          have hvv := dget_of_mem_nodup L7 hv
          rw [hk1n1 n2] at hvv
          exact absurd hvv (by simp)
        rw [R5 n1 hnotin]
        exact hk1nn2 n1
      · rw [R2 n1 r hr2 hrn]
        exact hk1n1 r
  · intro l
    rw [hfk]
    exact hk2n2 l
  · intro l r h1 h2 h3 h4
    rw [hfk, R2 l r h3 h4, L2 l r h1 h2]
  · intro hnne
    have hupd : dictUpdate [(nn1, m1)] [(nn2, m2)] = [(nn1, m1), (nn2, m2)] := by
      simp only [dictUpdate, List.foldl]
      simp only [dset]
      rw [if_neg (by simpa using fun he => hnne he.symm)]
    constructor
    · unfold addGlyphClasses
      rw [hfinal]
      dsimp only
      rw [hupd]
      exact List.mem_map_of_mem _
        ((mem_isort classItemLe ((nn1, m1) : String × List String) _).mpr
          (List.mem_cons_self _ _))
    · unfold addGlyphClasses
      rw [hfinal]
      dsimp only
      rw [hupd]
      refine List.mem_map_of_mem _
        ((mem_isort classItemLe ((nn2, m2) : String × List String) _).mpr ?_)
      exact List.mem_cons_of_mem _ (List.mem_cons_self _ _)

theorem mem_keys_dset {α β : Type} [BEq α] [LawfulBEq α] {d : Dict α β} {k k' : α}
    (v : β) (h : k ∈ d.map Prod.fst) : k ∈ (dset d k' v).map Prod.fst := by
  induction d with
  | nil => simp at h
  | cons p rest ih =>
    simp only [List.map_cons, List.mem_cons] at h
    simp only [dset]
    by_cases hp : p.1 == k'
    · rw [if_pos hp]
      simp only [List.map_cons, List.mem_cons]
      rcases h with h | h
      · exact Or.inl (by rw [h, eq_of_beq hp])
      · exact Or.inr h
    · rw [if_neg hp]
      simp only [List.map_cons, List.mem_cons]
      rcases h with h | h
      · exact Or.inl h
      · exact Or.inr (ih h)

theorem not_mem_keys_dset {α β : Type} [BEq α] [LawfulBEq α] {d : Dict α β}
    {k k' : α} (v : β) (h : k ∉ d.map Prod.fst) (hne : k ≠ k') :
    k ∉ (dset d k' v).map Prod.fst := by
  intro hmem
  rcases List.mem_map.mp hmem with ⟨p, hp, hfst⟩
  rcases mem_dset hp with h2 | h2
  · exact h (hfst ▸ List.mem_map_of_mem Prod.fst h2)
  · rw [h2] at hfst
    exact hne hfst.symm

theorem mem_keys_ddel {α β : Type} [BEq α] [LawfulBEq α] {d : Dict α β}
    {k k' : α} (h : k ∈ d.map Prod.fst) (hne : k ≠ k') :
    k ∈ (ddel d k').map Prod.fst := by
  rcases List.mem_map.mp h with ⟨p, hp, hfst⟩
  refine hfst ▸ List.mem_map_of_mem Prod.fst ?_
  unfold ddel
  rw [List.mem_filter]
  refine ⟨hp, ?_⟩
  rw [hfst]
  simpa [bne_iff_ne] using hne

theorem not_mem_keys_ddel {α β : Type} [BEq α] [LawfulBEq α] {d : Dict α β}
    {k k' : α} (h : k ∉ d.map Prod.fst) : k ∉ (ddel d k').map Prod.fst := by
  intro hmem
  rcases List.mem_map.mp hmem with ⟨p, hp, hfst⟩
  exact h (hfst ▸ List.mem_map_of_mem Prod.fst (mem_of_mem_ddel hp))

theorem liststr_starts (xs : List String) : strStarts (liststr xs) "[" = true := by
  unfold strStarts liststr
  show List.isPrefixOf ['['] (("[" ++ (String.intercalate " " xs ++ "]")).toList) = true
  rw [toList_append, show "[".toList = ['['] from rfl]
  simp [List.isPrefixOf]

theorem not_mem_keys_ddel_self {α β : Type} [BEq α] [LawfulBEq α]
    {d : Dict α β} (k : α) : k ∉ (ddel d k).map Prod.fst := by
  intro hmem
  rcases List.mem_map.mp hmem with ⟨p, hp, hfst⟩
  have := (List.mem_filter.mp hp).2
  rw [hfst] at this
  simp [bne] at this

theorem ne_of_bracket {x y : String} (hx : strStarts x "[" = true)
    (hy : strStarts y "[" = false) : x ≠ y := by
  intro he
  rw [he, hy] at hx
  exact absurd hx (by simp)

theorem resolveLeftLoop_append (leftClasses : Dict String (List String)) :
    ∀ (pre rest : List ((String × String) × Int))
      (bucket seen : Dict (String × String) Int),
      resolveLeftLoop leftClasses (pre ++ rest) bucket seen =
        resolveLeftLoop leftClasses rest
          (resolveLeftLoop leftClasses pre bucket seen).1
          (resolveLeftLoop leftClasses pre bucket seen).2 := by
  intro pre
  induction pre with
  | nil => intro rest bucket seen; rfl
  | cons item items ih =>
    intro rest bucket seen
    rw [List.cons_append]
    simp only [resolveLeftLoop]
    exact ih rest _ _

theorem resolveRightLoop_append (rightClasses : Dict String (List String)) :
    ∀ (pre rest : List ((String × String) × Int))
      (bucket seen : Dict (String × String) Int),
      resolveRightLoop rightClasses (pre ++ rest) bucket seen =
        resolveRightLoop rightClasses rest
          (resolveRightLoop rightClasses pre bucket seen).1
          (resolveRightLoop rightClasses pre bucket seen).2 := by
  intro pre
  induction pre with
  | nil => intro rest bucket seen; rfl
  | cons item items ih =>
    intro rest bucket seen
    rw [List.cons_append]
    simp only [resolveRightLoop]
    exact ih rest _ _

theorem resolveLeftLoop_keeps (leftClasses : Dict String (List String)) :
    ∀ (items : List ((String × String) × Int))
      (bucket seen : Dict (String × String) Int) (k : String × String),
      strStarts k.1 "[" = true →
      (∀ q ∈ items, strStarts q.1.1 "[" = false) →
      k ∈ bucket.map Prod.fst →
      k ∈ (resolveLeftLoop leftClasses items bucket seen).1.map Prod.fst := by
  intro items
  induction items with
  | nil => intro bucket seen k hk hq h; exact h
  | cons item rest ih =>
    intro bucket seen k hk hq h
    simp only [resolveLeftLoop]
    apply ih _ _ k hk (fun q hqq => hq q (List.mem_cons_of_mem _ hqq))
    by_cases hch :
      (filterSeen (fun g => (g, item.1.2)) item.2
        (classLookup leftClasses item.1.1) seen).1 ≠ classLookup leftClasses item.1.1
    · rw [if_pos hch]
      refine mem_keys_ddel (mem_keys_dset _ h) ?_
      exact pair_ne_left _ _
        (ne_of_bracket hk (hq item (List.mem_cons_self _ _)))
    · rw [if_neg hch]
      exact h

theorem resolveLeftLoop_away (leftClasses : Dict String (List String)) :
    ∀ (items : List ((String × String) × Int))
      (bucket seen : Dict (String × String) Int) (k : String × String),
      strStarts k.1 "[" = false →
      k ∉ bucket.map Prod.fst →
      k ∉ (resolveLeftLoop leftClasses items bucket seen).1.map Prod.fst := by
  intro items
  induction items with
  | nil => intro bucket seen k hk h; exact h
  | cons item rest ih =>
    intro bucket seen k hk h
    simp only [resolveLeftLoop]
    apply ih _ _ k hk
    by_cases hch :
      (filterSeen (fun g => (g, item.1.2)) item.2
        (classLookup leftClasses item.1.1) seen).1 ≠ classLookup leftClasses item.1.1
    · rw [if_pos hch]
      refine not_mem_keys_ddel (not_mem_keys_dset _ h ?_)
      exact pair_ne_left _ _
        (ne_of_bracket (liststr_starts _) hk).symm
    · rw [if_neg hch]
      exact h

theorem resolveRightLoop_keeps (rightClasses : Dict String (List String)) :
    ∀ (items : List ((String × String) × Int))
      (bucket seen : Dict (String × String) Int) (k : String × String),
      strStarts k.2 "[" = true →
      (∀ q ∈ items, strStarts q.1.2 "[" = false) →
      k ∈ bucket.map Prod.fst →
      k ∈ (resolveRightLoop rightClasses items bucket seen).1.map Prod.fst := by
  intro items
  induction items with
  | nil => intro bucket seen k hk hq h; exact h
  | cons item rest ih =>
    intro bucket seen k hk hq h
    simp only [resolveRightLoop]
    apply ih _ _ k hk (fun q hqq => hq q (List.mem_cons_of_mem _ hqq))
    by_cases hch :
      (filterSeen (fun g => (item.1.1, g)) item.2
        (classLookup rightClasses item.1.2) seen).1 ≠ classLookup rightClasses item.1.2
    · rw [if_pos hch]
      refine mem_keys_ddel (mem_keys_dset _ h) ?_
      exact pair_ne_right _ _
        (ne_of_bracket hk (hq item (List.mem_cons_self _ _)))
    · rw [if_neg hch]
      exact h

theorem resolveRightLoop_away (rightClasses : Dict String (List String)) :
    ∀ (items : List ((String × String) × Int))
      (bucket seen : Dict (String × String) Int) (k : String × String),
      strStarts k.2 "[" = false →
      k ∉ bucket.map Prod.fst →
      k ∉ (resolveRightLoop rightClasses items bucket seen).1.map Prod.fst := by
  intro items
  induction items with
  | nil => intro bucket seen k hk h; exact h
  | cons item rest ih =>
    intro bucket seen k hk h
    simp only [resolveRightLoop]
    apply ih _ _ k hk
    by_cases hch :
      (filterSeen (fun g => (item.1.1, g)) item.2
        (classLookup rightClasses item.1.2) seen).1 ≠ classLookup rightClasses item.1.2
    · rw [if_pos hch]
      refine not_mem_keys_ddel (not_mem_keys_dset _ h ?_)
      exact pair_ne_right _ _
        (ne_of_bracket (liststr_starts _) hk).symm
    · rw [if_neg hch]
      exact h

/-- C3 amended: in the left-class-glyph pass (and symmetrically the
glyph-right-class pass), a rule whose surviving member list differs from the
full member list is re-keyed under the bracketed list of exactly the
surviving members and its old key is removed — including when the surviving
list is empty, in which case the rule is kept under the empty list key "[]"
rather than dropped. -/
theorem c3_amended_narrowing :
    (∀ (leftClasses : Dict String (List String))
      (pre post : List ((String × String) × Int)) (pair : String × String)
      (val : Int) (bucket0 seen0 : Dict (String × String) Int)
      (survivors : List String),
      (∀ q ∈ pre ++ (pair, val) :: post, strStarts q.1.1 "[" = false) →
      survivors = (filterSeen (fun g => (g, pair.2)) val
        (classLookup leftClasses pair.1)
        (resolveLeftLoop leftClasses pre bucket0 seen0).2).1 →
      survivors ≠ classLookup leftClasses pair.1 →
      (liststr survivors, pair.2) ∈
        (resolveLeftLoop leftClasses (pre ++ (pair, val) :: post)
          bucket0 seen0).1.map Prod.fst ∧
      pair ∉
        (resolveLeftLoop leftClasses (pre ++ (pair, val) :: post)
          bucket0 seen0).1.map Prod.fst) ∧
    (∀ (rightClasses : Dict String (List String))
      (pre post : List ((String × String) × Int)) (pair : String × String)
      (val : Int) (bucket0 seen0 : Dict (String × String) Int)
      (survivors : List String),
      (∀ q ∈ pre ++ (pair, val) :: post, strStarts q.1.2 "[" = false) →
      survivors = (filterSeen (fun g => (pair.1, g)) val
        (classLookup rightClasses pair.2)
        (resolveRightLoop rightClasses pre bucket0 seen0).2).1 →
      survivors ≠ classLookup rightClasses pair.2 →
      (pair.1, liststr survivors) ∈
        (resolveRightLoop rightClasses (pre ++ (pair, val) :: post)
          bucket0 seen0).1.map Prod.fst ∧
      pair ∉
        (resolveRightLoop rightClasses (pre ++ (pair, val) :: post)
          bucket0 seen0).1.map Prod.fst) := by
  constructor
  · intro leftClasses pre post pair val bucket0 seen0 survivors hnb hsurv hne
    have hpairnb : strStarts pair.1 "[" = false :=
      hnb (pair, val) (List.mem_append.mpr (Or.inr (List.mem_cons_self _ _)))
    rw [resolveLeftLoop_append]
    simp only [resolveLeftLoop]
    rw [← hsurv, if_pos hne]
    constructor
    · apply resolveLeftLoop_keeps leftClasses post _ _ _ (liststr_starts survivors)
        (fun q hq => hnb q
          (List.mem_append.mpr (Or.inr (List.mem_cons_of_mem _ hq))))
      refine mem_keys_ddel ?_ (pair_ne_left _ _ (ne_of_bracket (liststr_starts _) hpairnb))
      exact List.mem_map_of_mem Prod.fst (dget_some_mem (dget_dset_self _ _ _))
    · apply resolveLeftLoop_away leftClasses post _ _ _ hpairnb
      exact not_mem_keys_ddel_self pair
  · intro rightClasses pre post pair val bucket0 seen0 survivors hnb hsurv hne
    have hpairnb : strStarts pair.2 "[" = false :=
      hnb (pair, val) (List.mem_append.mpr (Or.inr (List.mem_cons_self _ _)))
    rw [resolveRightLoop_append]
    simp only [resolveRightLoop]
    rw [← hsurv, if_pos hne]
    constructor
    · apply resolveRightLoop_keeps rightClasses post _ _ _ (liststr_starts survivors)
        (fun q hq => hnb q
          (List.mem_append.mpr (Or.inr (List.mem_cons_of_mem _ hq))))
      refine mem_keys_ddel ?_ (pair_ne_right _ _ (ne_of_bracket (liststr_starts _) hpairnb))
      exact List.mem_map_of_mem Prod.fst (dget_some_mem (dget_dset_self _ _ _))
    · apply resolveRightLoop_away rightClasses post _ _ _ hpairnb
      exact not_mem_keys_ddel_self pair

/-- C3 witness: in the concrete C3 scenario the left rule's sole member A
conflicts, and the bucket ends up holding the key ("[]", "B") while the old
class key is gone. -/
theorem c3_witness :
    ("[]", "B") ∈
      (resolveLeftLoop [("@public.kern1.C", ["A"])]
        [(("@public.kern1.C", "B"), -20)] [(("@public.kern1.C", "B"), -20)]
        [(("A", "B"), -10)]).1.map Prod.fst ∧
    ("@public.kern1.C", "B") ∉
      (resolveLeftLoop [("@public.kern1.C", ["A"])]
        [(("@public.kern1.C", "B"), -20)] [(("@public.kern1.C", "B"), -20)]
        [(("A", "B"), -10)]).1.map Prod.fst :=
  c3_amended_narrowing.1 [("@public.kern1.C", ["A"])] [] []
    ("@public.kern1.C", "B") (-20) [(("@public.kern1.C", "B"), -20)]
    [(("A", "B"), -10)] [] (by decide) (by decide) (by decide)

theorem char_eq_of_toNat {a b : Char} (h : a.toNat = b.toNat) : a = b := by
  exact_mod_cast Char.ofNat_toNat a ▸ Char.ofNat_toNat b ▸ congrArg Char.ofNat h

theorem charListLt_trichotomy :
    ∀ a b : List Char, charListLt a b = true ∨ a = b ∨ charListLt b a = true := by
  intro a
  induction a with
  | nil =>
    intro b
    cases b with
    | nil => exact Or.inr (Or.inl rfl)
    | cons y ys => exact Or.inl rfl
  | cons x xs ih =>
    intro b
    cases b with
    | nil => exact Or.inr (Or.inr rfl)
    | cons y ys =>
      rcases Nat.lt_trichotomy x.toNat y.toNat with hlt | heq | hgt
      · refine Or.inl ?_
        simp [charListLt, hlt]
      · have hxy : x = y := char_eq_of_toNat heq
        subst hxy
        rcases ih ys with h | h | h
        · refine Or.inl ?_
          simp [charListLt, h]
        · exact Or.inr (Or.inl (by rw [h]))
        · refine Or.inr (Or.inr ?_)
          simp [charListLt, h]
      · refine Or.inr (Or.inr ?_)
        simp [charListLt, hgt]

theorem charListLt_trans :
    ∀ a b c : List Char, charListLt a b = true → charListLt b c = true →
      charListLt a c = true := by
  intro a
  induction a with
  | nil =>
    intro b c h1 h2
    cases b with
    | nil => simp [charListLt] at h1
    | cons y ys =>
      cases c with
      | nil => simp [charListLt] at h2
      | cons z zs => rfl
  | cons x xs ih =>
    intro b c h1 h2
    cases b with
    | nil => simp [charListLt] at h1
    | cons y ys =>
      cases c with
      | nil => simp [charListLt] at h2
      | cons z zs =>
        simp only [charListLt, Bool.or_eq_true, Bool.and_eq_true,
          decide_eq_true_eq, beq_iff_eq] at h1 h2 ⊢
        rcases h1 with h1 | ⟨h1e, h1r⟩
        · rcases h2 with h2 | ⟨h2e, h2r⟩
          · exact Or.inl (Nat.lt_trans h1 h2)
          · subst h2e
            exact Or.inl h1
        · subst h1e
          rcases h2 with h2 | ⟨h2e, h2r⟩
          · exact Or.inl h2
          · subst h2e
            exact Or.inr ⟨rfl, ih ys zs h1r h2r⟩

theorem strLt_trans {a b c : String} (h1 : strLt a b = true)
    (h2 : strLt b c = true) : strLt a c = true :=
  charListLt_trans a.toList b.toList c.toList h1 h2

theorem strLt_trichotomy (a b : String) :
    strLt a b = true ∨ a = b ∨ strLt b a = true := by
  rcases charListLt_trichotomy a.toList b.toList with h | h | h
  · exact Or.inl h
  · refine Or.inr (Or.inl ?_)
    cases a with
    | mk da =>
      cases b with
      | mk db =>
        simp only [String.toList] at h
        rw [h]
  · exact Or.inr (Or.inr h)

theorem classItemLe_total (a b : String × List String) :
    classItemLe a b = true ∨ classItemLe b a = true := by
  unfold classItemLe
  rcases strLt_trichotomy a.1 b.1 with h | h | h
  · exact Or.inl (by simp [h])
  · exact Or.inl (by simp [h])
  · exact Or.inr (by simp [h])

theorem classItemLe_trans (a b c : String × List String)
    (h1 : classItemLe a b = true) (h2 : classItemLe b c = true) :
    classItemLe a c = true := by
  unfold classItemLe at h1 h2 ⊢
  simp only [Bool.or_eq_true, beq_iff_eq] at h1 h2 ⊢
  rcases h1 with h1 | h1
  · rcases h2 with h2 | h2
    · exact Or.inl (strLt_trans h1 h2)
    · rw [← h2]
      exact Or.inl h1
  · rw [h1]
    exact h2

theorem itemLe_total (a b : (String × String) × Int) :
    itemLe a b = true ∨ itemLe b a = true := by
  unfold itemLe
  rcases strLt_trichotomy a.1.1 b.1.1 with h | h | h
  · exact Or.inl (by simp [h])
  · rcases strLt_trichotomy a.1.2 b.1.2 with h2 | h2 | h2
    · exact Or.inl (by simp [h, h2])
    · rcases Int.le_total a.2 b.2 with h3 | h3
      · exact Or.inl (by simp [h, h2, h3])
      · exact Or.inr (by simp [h.symm, h2.symm, h3])
    · exact Or.inr (by simp [h.symm, h2])
  · exact Or.inr (by simp [h])

theorem itemLe_trans (a b c : (String × String) × Int)
    (h1 : itemLe a b = true) (h2 : itemLe b c = true) : itemLe a c = true := by
  unfold itemLe at h1 h2 ⊢
  simp only [Bool.or_eq_true, Bool.and_eq_true, beq_iff_eq,
    decide_eq_true_eq] at h1 h2 ⊢
  rcases h1 with h1 | ⟨h1e, h1r⟩
  · rcases h2 with h2 | ⟨h2e, h2r⟩
    · exact Or.inl (strLt_trans h1 h2)
    · rw [← h2e]
      exact Or.inl h1
  · rw [h1e]
    rcases h2 with h2 | ⟨h2e, h2r⟩
    · exact Or.inl h2
    · refine Or.inr ⟨h2e, ?_⟩
      rcases h1r with h1r | ⟨h1re, h1rv⟩
      · rcases h2r with h2r | ⟨h2re, h2rv⟩
        · exact Or.inl (strLt_trans h1r h2r)
        · rw [← h2re]
          exact Or.inl h1r
      · rw [h1re]
        rcases h2r with h2r | ⟨h2re, h2rv⟩
        · exact Or.inl h2r
        · exact Or.inr ⟨h2re, Int.le_trans h1rv h2rv⟩

theorem pairwise_insertLe {α : Type} (le : α → α → Bool)
    (htot : ∀ a b, le a b = true ∨ le b a = true)
    (htrans : ∀ a b c, le a b = true → le b c = true → le a c = true) (x : α) :
    ∀ l : List α, List.Pairwise (fun a b => le a b = true) l →
      List.Pairwise (fun a b => le a b = true) (insertLe le x l) := by
  intro l
  induction l with
  | nil => intro h; simp [insertLe]
  | cons y ys ih =>
    intro h
    rcases List.pairwise_cons.mp h with ⟨hy, hys⟩
    simp only [insertLe]
    by_cases hxy : le x y = true
    · rw [if_pos hxy]
      refine List.Pairwise.cons ?_ h
      intro z hz
      rcases List.mem_cons.mp hz with hz | hz
      · rw [hz]
        exact hxy
      · exact htrans x y z hxy (hy z hz)
    · rw [if_neg hxy]
      have hyx : le y x = true := (htot x y).resolve_left hxy
      refine List.Pairwise.cons ?_ (ih hys)
      intro z hz
      rcases (mem_insertLe le x z ys).mp hz with hz | hz
      · rw [hz]
        exact hyx
      · exact hy z hz

theorem isort_pairwise {α : Type} (le : α → α → Bool)
    (htot : ∀ a b, le a b = true ∨ le b a = true)
    (htrans : ∀ a b c, le a b = true → le b c = true → le a c = true) :
    ∀ l : List α, List.Pairwise (fun a b => le a b = true) (isort le l) := by
  intro l
  induction l with
  | nil => simp [isort]
  | cons x xs ih =>
    simp only [isort]
    exact pairwise_insertLe le htot htrans x (isort le xs) ih

/-- C8 amended: when output is non-empty the emitted text is, in order: one
declaration line per collected group-declared class — all of them, whether
or not any rule uses them — merged left/right and sorted by class name, a
blank line, the kern feature block with the glyph-glyph rules first and then,
for each of the left-class-glyph, glyph-right-class and class-class buckets
in that fixed order, a subtable marker followed by the bucket's rules only
when the bucket is non-empty; rule lines within each bucket are sorted by
pair key. -/
theorem c8_amended_emission :
    (∀ (st : KernState) (linesep : String),
      ¬(st.glyphPairKerning = [] ∧ st.leftClassKerning = [] ∧
        st.rightClassKerning = [] ∧ st.classPairKerning = []) →
      emit st linesep = String.intercalate linesep
        (addGlyphClasses st ++ [""] ++ ["feature kern \x7b"] ++
         addKerning st.glyphPairKerning false ++
         (if st.leftClassKerning ≠ [] then
            "    subtable;" :: addKerning st.leftClassKerning true else []) ++
         (if st.rightClassKerning ≠ [] then
            "    subtable;" :: addKerning st.rightClassKerning true else []) ++
         (if st.classPairKerning ≠ [] then
            "    subtable;" :: addKerning st.classPairKerning false else []) ++
         ["\x7d kern;"])) ∧
    (∀ st : KernState, ∀ p ∈ dictUpdate st.leftUfoClasses st.rightUfoClasses,
      (p.1 ++ " = [" ++ String.intercalate " " p.2 ++ "];") ∈ addGlyphClasses st) ∧
    (∀ st : KernState, List.Pairwise (fun a b => classItemLe a b = true)
      (isort classItemLe (dictUpdate st.leftUfoClasses st.rightUfoClasses))) ∧
    (∀ (kerning : Dict (String × String) Int) (e : Bool),
      addKerning kerning e = (isort itemLe kerning).map (fun kv =>
        "    " ++ (if e then "enum " else "") ++ "pos " ++ kv.1.1 ++ " " ++
          kv.1.2 ++ " " ++ toString kv.2 ++ ";") ∧
      List.Pairwise (fun a b => itemLe a b = true) (isort itemLe kerning)) := by
  refine ⟨?_, ?_, ?_, ?_⟩
  · intro st linesep h
    unfold emit
    rw [if_neg h]
  · intro st p hp
    exact List.mem_map_of_mem _ ((mem_isort classItemLe p _).mpr hp)
  · intro st
    exact isort_pairwise classItemLe classItemLe_total classItemLe_trans _
  · intro kerning e
    exact ⟨rfl, isort_pairwise itemLe itemLe_total itemLe_trans kerning⟩

/-- C8 witness: on a concrete state with one glyph-pair rule and one group
class, the emitted text is exactly the skeleton given by the emission
theorem. -/
theorem c8_witness :
    emit c8EmitState "\n" =
      String.intercalate "\n"
        (addGlyphClasses c8EmitState ++ [""] ++ ["feature kern \x7b"] ++
          addKerning c8EmitState.glyphPairKerning false ++
          (if c8EmitState.leftClassKerning ≠ [] then
            "    subtable;" :: addKerning c8EmitState.leftClassKerning true else []) ++
          (if c8EmitState.rightClassKerning ≠ [] then
            "    subtable;" :: addKerning c8EmitState.rightClassKerning true else []) ++
          (if c8EmitState.classPairKerning ≠ [] then
            "    subtable;" :: addKerning c8EmitState.classPairKerning false else []) ++
          ["\x7d kern;"]) :=
  c8_amended_emission.1 c8EmitState "\n" (by decide)

theorem splitSpacesAux_append (a : List Char) (ha : ∀ c ∈ a, c ≠ ' ') :
    ∀ (t acc : List Char),
      splitSpacesAux (a ++ t) acc = splitSpacesAux t (a.reverse ++ acc) := by
  induction a with
  | nil => intro t acc; simp
  | cons c cs ih =>
    intro t acc
    rw [List.cons_append]
    simp only [splitSpacesAux]
    rw [show (c == ' ') = false by
      simpa using ha c (List.mem_cons_self _ _)]
    simp only [Bool.false_eq_true, if_false]
    rw [ih (fun x hx => ha x (List.mem_cons_of_mem _ hx)) t (c :: acc)]
    simp

theorem intercalate_go_toList (gs : List String) :
    ∀ acc : String, (String.intercalate.go acc " " gs).toList =
      acc.toList ++ joinTail gs := by
  induction gs with
  | nil => intro acc; simp [String.intercalate.go, joinTail]
  | cons g rest ih =>
    intro acc
    simp only [String.intercalate.go, joinTail]
    rw [ih (acc ++ " " ++ g), toList_append, toList_append]
    simp [List.append_assoc]

theorem intercalate_toList (g : String) (gs : List String) :
    (String.intercalate " " (g :: gs)).toList = g.toList ++ joinTail gs := by
  show (String.intercalate.go g " " gs).toList = _
  exact intercalate_go_toList gs g

theorem splitAll_join (g : String) (gs : List String)
    (hg : ∀ c ∈ g.toList, c ≠ ' ')
    (hgs : ∀ x ∈ gs, ∀ c ∈ x.toList, c ≠ ' ') :
    splitSpacesAux (g.toList ++ joinTail gs) [] = g :: gs := by
  induction gs generalizing g with
  | nil =>
    rw [joinTail]
    rw [splitSpacesAux_append g.toList hg [] []]
    simp only [splitSpacesAux, List.append_nil, List.reverse_reverse]
    cases g with
    | mk d => rfl
  | cons g2 rest ih =>
    rw [joinTail, splitSpacesAux_append g.toList hg _ []]
    show splitSpacesAux (' ' :: (g2.toList ++ joinTail rest)) (g.toList.reverse ++ []) = _
    simp only [splitSpacesAux]
    rw [show (' ' == ' ') = true from rfl]
    simp only [if_true]
    rw [ih g2 (hgs g2 (List.mem_cons_self _ _))
      (fun x hx => hgs x (List.mem_cons_of_mem _ hx))]
    congr 1
    rw [List.append_nil, List.reverse_reverse]
    cases g with
    | mk d => rfl

theorem parseListKey_liststr (gs : List String)
    (h : ∀ g ∈ gs, g ≠ "" ∧ ∀ c ∈ g.toList, c ≠ ' ') :
    parseListKey (liststr gs) = gs := by
  cases gs with
  | nil => rfl
  | cons g rest =>
    have hinner : (liststr (g :: rest)).toList =
        '[' :: ((g.toList ++ joinTail rest) ++ [']']) := by
      unfold liststr
      rw [toList_append, toList_append, intercalate_toList]
      simp
    unfold parseListKey
    rw [hinner]
    simp only [List.drop_succ_cons, List.drop_zero]
    rw [List.dropLast_concat]
    have hne : g.toList ++ joinTail rest ≠ [] := by
      intro he
      rcases List.append_eq_nil.mp he with ⟨h1, h2⟩
      exact (h g (List.mem_cons_self _ _)).1 (by cases g with | mk d =>
        simp only [String.toList] at h1
        rw [h1])
    cases hcs : g.toList ++ joinTail rest with
    | nil => exact absurd hcs hne
    | cons c cs =>
      show splitSpacesAux (c :: cs) [] = g :: rest
      rw [← hcs]
      exact splitAll_join g rest
        (fun c hc => (h g (List.mem_cons_self _ _)).2 c hc)
        (fun x hx c hc => (h x (List.mem_cons_of_mem _ hx)).2 c hc)

theorem dget_none_iff_keys {α β : Type} [BEq α] [LawfulBEq α] {d : Dict α β}
    {k : α} : dget d k = none ↔ k ∉ d.map Prod.fst := by
  rw [dget_eq_none_iff]
  constructor
  · intro h hmem
    rcases List.mem_map.mp hmem with ⟨p, hp, hfst⟩
    exact h p hp hfst
  · intro h p hp he
    exact h (he ▸ List.mem_map_of_mem Prod.fst hp)

theorem keys_dset_sub {α β : Type} [BEq α] [LawfulBEq α] {d : Dict α β}
    {k k0 : α} {v : β} (h : k ∈ (dset d k0 v).map Prod.fst) :
    k ∈ d.map Prod.fst ∨ k = k0 := by
  rcases List.mem_map.mp h with ⟨p, hp, hfst⟩
  rcases mem_dset hp with h2 | h2
  · exact Or.inl (hfst ▸ List.mem_map_of_mem Prod.fst h2)
  · rw [h2] at hfst
    exact Or.inr hfst.symm

theorem filterSeen_spec (mk : String → String × String) (val : Int) :
    ∀ (gs : List String) (seen : Dict (String × String) Int),
      (∀ k, k ∈ seen.map Prod.fst →
        k ∈ (filterSeen mk val gs seen).2.map Prod.fst) ∧
      (∀ g ∈ (filterSeen mk val gs seen).1, g ∈ gs ∧
        mk g ∉ seen.map Prod.fst ∧
        mk g ∈ (filterSeen mk val gs seen).2.map Prod.fst) ∧
      (∀ k, k ∈ (filterSeen mk val gs seen).2.map Prod.fst →
        k ∈ seen.map Prod.fst ∨ ∃ g ∈ (filterSeen mk val gs seen).1, k = mk g) := by
  intro gs
  induction gs with
  | nil =>
    intro seen
    refine ⟨fun k hk => hk, ?_, fun k hk => Or.inl hk⟩
    intro g hg
    simp [filterSeen] at hg
  | cons g0 rest ih =>
    intro seen
    by_cases hs : (dget seen (mk g0)).isSome
    · have hstep : filterSeen mk val (g0 :: rest) seen = filterSeen mk val rest seen := by
        simp only [filterSeen]
        rw [if_pos hs]
      rw [hstep]
      obtain ⟨i1, i2, i3⟩ := ih seen
      refine ⟨i1, ?_, i3⟩
      intro g hg
      obtain ⟨ha, hb, hc⟩ := i2 g hg
      exact ⟨List.mem_cons_of_mem _ ha, hb, hc⟩
    · have hstep : filterSeen mk val (g0 :: rest) seen =
          (g0 :: (filterSeen mk val rest (dset seen (mk g0) val)).1,
           (filterSeen mk val rest (dset seen (mk g0) val)).2) := by
        simp only [filterSeen]
        rw [if_neg hs]
      rw [hstep]
      obtain ⟨i1, i2, i3⟩ := ih (dset seen (mk g0) val)
      have hg0seen : mk g0 ∉ seen.map Prod.fst :=
        dget_none_iff_keys.mp (Option.not_isSome_iff_eq_none.mp hs)
      have hg0in : mk g0 ∈ (filterSeen mk val rest (dset seen (mk g0) val)).2.map Prod.fst :=
        i1 (mk g0) (List.mem_map_of_mem Prod.fst (dget_some_mem (dget_dset_self _ _ _)))
      refine ⟨?_, ?_, ?_⟩
      · intro k hk
        exact i1 k (mem_keys_dset _ hk)
      · intro g hg
        rcases List.mem_cons.mp hg with hg | hg
        · subst hg
          exact ⟨List.mem_cons_self _ _, hg0seen, hg0in⟩
        · obtain ⟨ha, hb, hc⟩ := i2 g hg
          refine ⟨List.mem_cons_of_mem _ ha, ?_, hc⟩
          intro hmem
          exact hb (mem_keys_dset _ hmem)
      · intro k hk
        rcases i3 k hk with hk2 | ⟨g, hg, hge⟩
        · rcases keys_dset_sub hk2 with hk3 | hk3
          · exact Or.inl hk3
          · exact Or.inr ⟨g0, List.mem_cons_self _ _, hk3⟩
        · exact Or.inr ⟨g, List.mem_cons_of_mem _ hg, hge⟩

theorem expandSide_class {lC : Dict String (List String)} {key : String}
    {ms : List String} (hb : ¬ strStarts key "[" = true)
    (hm : dget lC key = some ms) : expandSide lC key = ms := by
  unfold expandSide
  rw [if_neg hb, hm]

theorem expandSide_glyph {lC : Dict String (List String)} {key : String}
    (hb : ¬ strStarts key "[" = true) (hm : dget lC key = none) :
    expandSide lC key = [key] := by
  unfold expandSide
  rw [if_neg hb, hm]

theorem expandSide_bracket {lC : Dict String (List String)} (gs : List String)
    (h : ∀ g ∈ gs, g ≠ "" ∧ ∀ c ∈ g.toList, c ≠ ' ') :
    expandSide lC (liststr gs) = gs := by
  unfold expandSide
  rw [if_pos (liststr_starts gs)]
  exact parseListKey_liststr gs h

theorem resolveLeft_invariant (lC rC : Dict String (List String))
    (hlCm : ∀ q ∈ lC, ∀ g ∈ q.2, g ≠ "" ∧ ∀ c ∈ g.toList, c ≠ ' ') :
    ∀ (items : List ((String × String) × Int))
      (bucket seen seen0 : Dict (String × String) Int),
      (∀ p ∈ items, ¬ strStarts p.1.1 "[" = true ∧
        (dget lC p.1.1).isSome = true ∧ dget rC p.1.2 = none ∧
        ¬ strStarts p.1.2 "[" = true) →
      (∀ k, k ∈ seen0.map Prod.fst → k ∈ seen.map Prod.fst) →
      ((bucket.map Prod.fst).Nodup) →
      (∀ p ∈ bucket, p ∉ items → ∀ a b, ruleCovers lC rC p.1 a b →
        (a, b) ∈ seen.map Prod.fst ∧ (a, b) ∉ seen0.map Prod.fst) →
      (∀ p q, p ∈ bucket → q ∈ bucket → p ∉ items → q ∉ items → p.1 ≠ q.1 →
        ∀ a b, ruleCovers lC rC p.1 a b → ruleCovers lC rC q.1 a b → False) →
      (∀ k, k ∈ seen.map Prod.fst →
        k ∈ (resolveLeftLoop lC items bucket seen).2.map Prod.fst) ∧
      (((resolveLeftLoop lC items bucket seen).1.map Prod.fst).Nodup) ∧
      (∀ p ∈ (resolveLeftLoop lC items bucket seen).1, ∀ a b,
        ruleCovers lC rC p.1 a b →
        (a, b) ∈ (resolveLeftLoop lC items bucket seen).2.map Prod.fst ∧
        (a, b) ∉ seen0.map Prod.fst) ∧
      (∀ p q, p ∈ (resolveLeftLoop lC items bucket seen).1 →
        q ∈ (resolveLeftLoop lC items bucket seen).1 → p.1 ≠ q.1 →
        ∀ a b, ruleCovers lC rC p.1 a b → ruleCovers lC rC q.1 a b → False) := by
  intro items
  induction items with
  | nil =>
    intro bucket seen seen0 hitems hsub hnd hdone hdisj
    exact ⟨fun k hk => hk, hnd,
      fun p hp a b hc => hdone p hp (by simp) a b hc,
      fun p q hp hq => hdisj p q hp hq (by simp) (by simp)⟩
  | cons item rest ih =>
    intro bucket seen seen0 hitems hsub hnd hdone hdisj
    obtain ⟨hnb1, hsome, hrcnone, hnb2⟩ := hitems item (List.mem_cons_self _ _)
    obtain ⟨ms, hms⟩ := Option.isSome_iff_exists.mp hsome
    have hlG : classLookup lC item.1.1 = ms := by
      unfold classLookup
      rw [hms]
      rfl
    have hmswf : ∀ g ∈ ms, g ≠ "" ∧ ∀ c ∈ g.toList, c ≠ ' ' :=
      fun g hg => hlCm (item.1.1, ms) (dget_some_mem hms) g hg
    obtain ⟨F1, F2, F3⟩ := filterSeen_spec (fun g => (g, item.1.2)) item.2
      (classLookup lC item.1.1) seen
    have hcov_unch : ∀ a b, ruleCovers lC rC item.1 a b ↔
        (a ∈ classLookup lC item.1.1 ∧ b = item.1.2) := by
      intro a b
      unfold ruleCovers
      rw [expandSide_class hnb1 hms, expandSide_glyph hnb2 hrcnone, hlG]
      simp
    have hnlwf : ∀ g ∈ (filterSeen (fun g => (g, item.1.2)) item.2
        (classLookup lC item.1.1) seen).1, g ≠ "" ∧ ∀ c ∈ g.toList, c ≠ ' ' := by
      intro g hg
      exact hmswf g (hlG ▸ (F2 g hg).1)
    have hcov_narrow : ∀ a b, ruleCovers lC rC
        (liststr (filterSeen (fun g => (g, item.1.2)) item.2
          (classLookup lC item.1.1) seen).1, item.1.2) a b ↔
        (a ∈ (filterSeen (fun g => (g, item.1.2)) item.2
          (classLookup lC item.1.1) seen).1 ∧ b = item.1.2) := by
      intro a b
      unfold ruleCovers
      rw [expandSide_bracket _ hnlwf, expandSide_glyph hnb2 hrcnone]
      simp
    simp only [resolveLeftLoop]
    by_cases hch : (filterSeen (fun g => (g, item.1.2)) item.2
        (classLookup lC item.1.1) seen).1 ≠ classLookup lC item.1.1
    · rw [if_pos hch]
      have hdone1 : ∀ p ∈ ddel (dset bucket
            (liststr (filterSeen (fun g => (g, item.1.2)) item.2
              (classLookup lC item.1.1) seen).1, item.1.2) item.2) item.1,
          p ∉ rest → ∀ a b, ruleCovers lC rC p.1 a b →
          (a, b) ∈ (filterSeen (fun g => (g, item.1.2)) item.2
            (classLookup lC item.1.1) seen).2.map Prod.fst ∧
          (a, b) ∉ seen0.map Prod.fst := by
        intro p hp hpr a b hc
        obtain ⟨hp1, hp2⟩ := mem_ddel_ne hp
        rcases mem_dset hp1 with hp3 | hp3
        · have hpni : p ∉ item :: rest := by
            intro hmem
            rcases List.mem_cons.mp hmem with h | h
            · exact hp2 (by rw [h])
            · exact hpr h
          obtain ⟨ha1, ha2⟩ := hdone p hp3 hpni a b hc
          exact ⟨F1 _ ha1, ha2⟩
        · rw [hp3] at hc
          rcases (hcov_narrow a b).mp hc with ⟨hcn1, hcn2⟩
          obtain ⟨_, hnseen, hinseen⟩ := F2 a hcn1
          subst hcn2
          exact ⟨hinseen, fun hmem => hnseen (hsub _ hmem)⟩
      have hdisj1 : ∀ p q, p ∈ ddel (dset bucket
            (liststr (filterSeen (fun g => (g, item.1.2)) item.2
              (classLookup lC item.1.1) seen).1, item.1.2) item.2) item.1 →
          q ∈ ddel (dset bucket
            (liststr (filterSeen (fun g => (g, item.1.2)) item.2
              (classLookup lC item.1.1) seen).1, item.1.2) item.2) item.1 →
          p ∉ rest → q ∉ rest → p.1 ≠ q.1 →
          ∀ a b, ruleCovers lC rC p.1 a b → ruleCovers lC rC q.1 a b → False := by
        intro p q hp hq hpr hqr hne a b hcp hcq
        obtain ⟨hp1, hp2⟩ := mem_ddel_ne hp
        obtain ⟨hq1, hq2⟩ := mem_ddel_ne hq
        rcases mem_dset hp1 with hp3 | hp3 <;> rcases mem_dset hq1 with hq3 | hq3
        · have hpni : p ∉ item :: rest := by
            intro hmem
            rcases List.mem_cons.mp hmem with h | h
            · exact hp2 (by rw [h])
            · exact hpr h
          have hqni : q ∉ item :: rest := by
            intro hmem
            rcases List.mem_cons.mp hmem with h | h
            · exact hq2 (by rw [h])
            · exact hqr h
          exact hdisj p q hp3 hq3 hpni hqni hne a b hcp hcq
        · have hpni : p ∉ item :: rest := by
            intro hmem
            rcases List.mem_cons.mp hmem with h | h
            · exact hp2 (by rw [h])
            · exact hpr h
          obtain ⟨ha1, _⟩ := hdone p hp3 hpni a b hcp
          rw [hq3] at hcq
          rcases (hcov_narrow a b).mp hcq with ⟨hcn1, hcn2⟩
          obtain ⟨_, hnseen, _⟩ := F2 a hcn1
          subst hcn2
          exact hnseen ha1
        · have hqni : q ∉ item :: rest := by
            intro hmem
            rcases List.mem_cons.mp hmem with h | h
            · exact hq2 (by rw [h])
            · exact hqr h
          obtain ⟨ha1, _⟩ := hdone q hq3 hqni a b hcq
          rw [hp3] at hcp
          rcases (hcov_narrow a b).mp hcp with ⟨hcn1, hcn2⟩
          obtain ⟨_, hnseen, _⟩ := F2 a hcn1
          subst hcn2
          exact hnseen ha1
        · rw [hp3, hq3] at hne
          exact hne rfl
      obtain ⟨I1, I2, I3, I4⟩ := ih _ _ seen0
        (fun p hp => hitems p (List.mem_cons_of_mem _ hp))
        (fun k hk => F1 k (hsub k hk))
        (nodup_keys_ddel (nodup_keys_dset hnd _ _) _)
        hdone1 hdisj1
      exact ⟨fun k hk => I1 k (F1 k hk), I2, I3, I4⟩
    · rw [if_neg hch]
      have hnl : (filterSeen (fun g => (g, item.1.2)) item.2
          (classLookup lC item.1.1) seen).1 = classLookup lC item.1.1 :=
        not_not.mp hch
      have hdone1 : ∀ p ∈ bucket, p ∉ rest → ∀ a b, ruleCovers lC rC p.1 a b →
          (a, b) ∈ (filterSeen (fun g => (g, item.1.2)) item.2
            (classLookup lC item.1.1) seen).2.map Prod.fst ∧
          (a, b) ∉ seen0.map Prod.fst := by
        intro p hp hpr a b hc
        by_cases hphead : p = item
        · rw [hphead] at hc
          rcases (hcov_unch a b).mp hc with ⟨hcn1, hcn2⟩
          rw [← hnl] at hcn1
          obtain ⟨_, hnseen, hinseen⟩ := F2 a hcn1
          subst hcn2
          exact ⟨hinseen, fun hmem => hnseen (hsub _ hmem)⟩
        · have hpni : p ∉ item :: rest := by
            intro hmem
            rcases List.mem_cons.mp hmem with h | h
            · exact hphead h
            · exact hpr h
          obtain ⟨ha1, ha2⟩ := hdone p hp hpni a b hc
          exact ⟨F1 _ ha1, ha2⟩
      have hdisj1 : ∀ p q, p ∈ bucket → q ∈ bucket →
          p ∉ rest → q ∉ rest → p.1 ≠ q.1 →
          ∀ a b, ruleCovers lC rC p.1 a b → ruleCovers lC rC q.1 a b → False := by
        intro p q hp hq hpr hqr hne a b hcp hcq
        by_cases hphead : p = item <;> by_cases hqhead : q = item
        · rw [hphead, hqhead] at hne
          exact hne rfl
        · rw [hphead] at hcp
          rcases (hcov_unch a b).mp hcp with ⟨hcn1, hcn2⟩
          rw [← hnl] at hcn1
          obtain ⟨_, hnseen, _⟩ := F2 a hcn1
          have hqni : q ∉ item :: rest := by
            intro hmem
            rcases List.mem_cons.mp hmem with h | h
            · exact hqhead h
            · exact hqr h
          obtain ⟨ha1, _⟩ := hdone q hq hqni a b hcq
          subst hcn2
          exact hnseen ha1
        · rw [hqhead] at hcq
          rcases (hcov_unch a b).mp hcq with ⟨hcn1, hcn2⟩
          rw [← hnl] at hcn1
          obtain ⟨_, hnseen, _⟩ := F2 a hcn1
          have hpni : p ∉ item :: rest := by
            intro hmem
            rcases List.mem_cons.mp hmem with h | h
            · exact hphead h
            · exact hpr h
          obtain ⟨ha1, _⟩ := hdone p hp hpni a b hcp
          subst hcn2
          exact hnseen ha1
        · have hpni : p ∉ item :: rest := by
            intro hmem
            rcases List.mem_cons.mp hmem with h | h
            · exact hphead h
            · exact hpr h
          have hqni : q ∉ item :: rest := by
            intro hmem
            rcases List.mem_cons.mp hmem with h | h
            · exact hqhead h
            · exact hqr h
          exact hdisj p q hp hq hpni hqni hne a b hcp hcq
      obtain ⟨I1, I2, I3, I4⟩ := ih _ _ seen0
        (fun p hp => hitems p (List.mem_cons_of_mem _ hp))
        (fun k hk => F1 k (hsub k hk))
        hnd hdone1 hdisj1
      exact ⟨fun k hk => I1 k (F1 k hk), I2, I3, I4⟩

theorem resolveRight_invariant (lC rC : Dict String (List String))
    (hrCm : ∀ q ∈ rC, ∀ g ∈ q.2, g ≠ "" ∧ ∀ c ∈ g.toList, c ≠ ' ') :
    ∀ (items : List ((String × String) × Int))
      (bucket seen seen0 : Dict (String × String) Int),
      (∀ p ∈ items, ¬ strStarts p.1.1 "[" = true ∧
        dget lC p.1.1 = none ∧ (dget rC p.1.2).isSome = true ∧
        ¬ strStarts p.1.2 "[" = true) →
      (∀ k, k ∈ seen0.map Prod.fst → k ∈ seen.map Prod.fst) →
      ((bucket.map Prod.fst).Nodup) →
      (∀ p ∈ bucket, p ∉ items → ∀ a b, ruleCovers lC rC p.1 a b →
        (a, b) ∈ seen.map Prod.fst ∧ (a, b) ∉ seen0.map Prod.fst) →
      (∀ p q, p ∈ bucket → q ∈ bucket → p ∉ items → q ∉ items → p.1 ≠ q.1 →
        ∀ a b, ruleCovers lC rC p.1 a b → ruleCovers lC rC q.1 a b → False) →
      (∀ k, k ∈ seen.map Prod.fst →
        k ∈ (resolveRightLoop rC items bucket seen).2.map Prod.fst) ∧
      (((resolveRightLoop rC items bucket seen).1.map Prod.fst).Nodup) ∧
      (∀ p ∈ (resolveRightLoop rC items bucket seen).1, ∀ a b,
        ruleCovers lC rC p.1 a b →
        (a, b) ∈ (resolveRightLoop rC items bucket seen).2.map Prod.fst ∧
        (a, b) ∉ seen0.map Prod.fst) ∧
      (∀ p q, p ∈ (resolveRightLoop rC items bucket seen).1 →
        q ∈ (resolveRightLoop rC items bucket seen).1 → p.1 ≠ q.1 →
        ∀ a b, ruleCovers lC rC p.1 a b → ruleCovers lC rC q.1 a b → False) := by
  intro items
  induction items with
  | nil =>
    intro bucket seen seen0 hitems hsub hnd hdone hdisj
    exact ⟨fun k hk => hk, hnd,
      fun p hp a b hc => hdone p hp (by simp) a b hc,
      fun p q hp hq => hdisj p q hp hq (by simp) (by simp)⟩
  | cons item rest ih =>
    intro bucket seen seen0 hitems hsub hnd hdone hdisj
    obtain ⟨hnb1, hlcnone, hsome, hnb2⟩ := hitems item (List.mem_cons_self _ _)
    obtain ⟨ms, hms⟩ := Option.isSome_iff_exists.mp hsome
    have hrG : classLookup rC item.1.2 = ms := by
      unfold classLookup
      rw [hms]
      rfl
    have hmswf : ∀ g ∈ ms, g ≠ "" ∧ ∀ c ∈ g.toList, c ≠ ' ' :=
      fun g hg => hrCm (item.1.2, ms) (dget_some_mem hms) g hg
    obtain ⟨F1, F2, F3⟩ := filterSeen_spec (fun g => (item.1.1, g)) item.2
      (classLookup rC item.1.2) seen
    have hcov_unch : ∀ a b, ruleCovers lC rC item.1 a b ↔
        (a = item.1.1 ∧ b ∈ classLookup rC item.1.2) := by
      intro a b
      unfold ruleCovers
      rw [expandSide_class hnb2 hms, expandSide_glyph hnb1 hlcnone, hrG]
      simp
    have hnlwf : ∀ g ∈ (filterSeen (fun g => (item.1.1, g)) item.2
        (classLookup rC item.1.2) seen).1, g ≠ "" ∧ ∀ c ∈ g.toList, c ≠ ' ' := by
      intro g hg
      exact hmswf g (hrG ▸ (F2 g hg).1)
    have hcov_narrow : ∀ a b, ruleCovers lC rC
        (item.1.1, liststr (filterSeen (fun g => (item.1.1, g)) item.2
          (classLookup rC item.1.2) seen).1) a b ↔
        (a = item.1.1 ∧ b ∈ (filterSeen (fun g => (item.1.1, g)) item.2
          (classLookup rC item.1.2) seen).1) := by
      intro a b
      unfold ruleCovers
      rw [expandSide_bracket _ hnlwf, expandSide_glyph hnb1 hlcnone]
      simp
    simp only [resolveRightLoop]
    by_cases hch : (filterSeen (fun g => (item.1.1, g)) item.2
        (classLookup rC item.1.2) seen).1 ≠ classLookup rC item.1.2
    · rw [if_pos hch]
      have hdone1 : ∀ p ∈ ddel (dset bucket
            (item.1.1, liststr (filterSeen (fun g => (item.1.1, g)) item.2
              (classLookup rC item.1.2) seen).1) item.2) item.1,
          p ∉ rest → ∀ a b, ruleCovers lC rC p.1 a b →
          (a, b) ∈ (filterSeen (fun g => (item.1.1, g)) item.2
            (classLookup rC item.1.2) seen).2.map Prod.fst ∧
          (a, b) ∉ seen0.map Prod.fst := by
        intro p hp hpr a b hc
        obtain ⟨hp1, hp2⟩ := mem_ddel_ne hp
        rcases mem_dset hp1 with hp3 | hp3
        · have hpni : p ∉ item :: rest := by
            intro hmem
            rcases List.mem_cons.mp hmem with h | h
            · exact hp2 (by rw [h])
            · exact hpr h
          obtain ⟨ha1, ha2⟩ := hdone p hp3 hpni a b hc
          exact ⟨F1 _ ha1, ha2⟩
        · rw [hp3] at hc
          rcases (hcov_narrow a b).mp hc with ⟨hcn2, hcn1⟩
          obtain ⟨_, hnseen, hinseen⟩ := F2 b hcn1
          subst hcn2
          exact ⟨hinseen, fun hmem => hnseen (hsub _ hmem)⟩
      have hdisj1 : ∀ p q, p ∈ ddel (dset bucket
            (item.1.1, liststr (filterSeen (fun g => (item.1.1, g)) item.2
              (classLookup rC item.1.2) seen).1) item.2) item.1 →
          q ∈ ddel (dset bucket
            (item.1.1, liststr (filterSeen (fun g => (item.1.1, g)) item.2
              (classLookup rC item.1.2) seen).1) item.2) item.1 →
          p ∉ rest → q ∉ rest → p.1 ≠ q.1 →
          ∀ a b, ruleCovers lC rC p.1 a b → ruleCovers lC rC q.1 a b → False := by
        intro p q hp hq hpr hqr hne a b hcp hcq
        obtain ⟨hp1, hp2⟩ := mem_ddel_ne hp
        obtain ⟨hq1, hq2⟩ := mem_ddel_ne hq
        rcases mem_dset hp1 with hp3 | hp3 <;> rcases mem_dset hq1 with hq3 | hq3
        · have hpni : p ∉ item :: rest := by
            intro hmem
            rcases List.mem_cons.mp hmem with h | h
            · exact hp2 (by rw [h])
            · exact hpr h
          have hqni : q ∉ item :: rest := by
            intro hmem
            rcases List.mem_cons.mp hmem with h | h
            · exact hq2 (by rw [h])
            · exact hqr h
          exact hdisj p q hp3 hq3 hpni hqni hne a b hcp hcq
        · have hpni : p ∉ item :: rest := by
            intro hmem
            rcases List.mem_cons.mp hmem with h | h
            · exact hp2 (by rw [h])
            · exact hpr h
          obtain ⟨ha1, _⟩ := hdone p hp3 hpni a b hcp
          rw [hq3] at hcq
          rcases (hcov_narrow a b).mp hcq with ⟨hcn2, hcn1⟩
          obtain ⟨_, hnseen, _⟩ := F2 b hcn1
          subst hcn2
          exact hnseen ha1
        · have hqni : q ∉ item :: rest := by
            intro hmem
            rcases List.mem_cons.mp hmem with h | h
            · exact hq2 (by rw [h])
            · exact hqr h
          obtain ⟨ha1, _⟩ := hdone q hq3 hqni a b hcq
          rw [hp3] at hcp
          rcases (hcov_narrow a b).mp hcp with ⟨hcn2, hcn1⟩
          obtain ⟨_, hnseen, _⟩ := F2 b hcn1
          subst hcn2
          exact hnseen ha1
        · rw [hp3, hq3] at hne
          exact hne rfl
      obtain ⟨I1, I2, I3, I4⟩ := ih _ _ seen0
        (fun p hp => hitems p (List.mem_cons_of_mem _ hp))
        (fun k hk => F1 k (hsub k hk))
        (nodup_keys_ddel (nodup_keys_dset hnd _ _) _)
        hdone1 hdisj1
      exact ⟨fun k hk => I1 k (F1 k hk), I2, I3, I4⟩
    · rw [if_neg hch]
      have hnl : (filterSeen (fun g => (item.1.1, g)) item.2
          (classLookup rC item.1.2) seen).1 = classLookup rC item.1.2 :=
        not_not.mp hch
      have hdone1 : ∀ p ∈ bucket, p ∉ rest → ∀ a b, ruleCovers lC rC p.1 a b →
          (a, b) ∈ (filterSeen (fun g => (item.1.1, g)) item.2
            (classLookup rC item.1.2) seen).2.map Prod.fst ∧
          (a, b) ∉ seen0.map Prod.fst := by
        intro p hp hpr a b hc
        by_cases hphead : p = item
        · rw [hphead] at hc
          rcases (hcov_unch a b).mp hc with ⟨hcn2, hcn1⟩
          rw [← hnl] at hcn1
          obtain ⟨_, hnseen, hinseen⟩ := F2 b hcn1
          subst hcn2
          exact ⟨hinseen, fun hmem => hnseen (hsub _ hmem)⟩
        · have hpni : p ∉ item :: rest := by
            intro hmem
            rcases List.mem_cons.mp hmem with h | h
            · exact hphead h
            · exact hpr h
          obtain ⟨ha1, ha2⟩ := hdone p hp hpni a b hc
          exact ⟨F1 _ ha1, ha2⟩
      have hdisj1 : ∀ p q, p ∈ bucket → q ∈ bucket →
          p ∉ rest → q ∉ rest → p.1 ≠ q.1 →
          ∀ a b, ruleCovers lC rC p.1 a b → ruleCovers lC rC q.1 a b → False := by
        intro p q hp hq hpr hqr hne a b hcp hcq
        by_cases hphead : p = item <;> by_cases hqhead : q = item
        · rw [hphead, hqhead] at hne
          exact hne rfl
        · rw [hphead] at hcp
          rcases (hcov_unch a b).mp hcp with ⟨hcn2, hcn1⟩
          rw [← hnl] at hcn1
          obtain ⟨_, hnseen, _⟩ := F2 b hcn1
          have hqni : q ∉ item :: rest := by
            intro hmem
            rcases List.mem_cons.mp hmem with h | h
            · exact hqhead h
            · exact hqr h
          obtain ⟨ha1, _⟩ := hdone q hq hqni a b hcq
          subst hcn2
          exact hnseen ha1
        · rw [hqhead] at hcq
          rcases (hcov_unch a b).mp hcq with ⟨hcn2, hcn1⟩
          rw [← hnl] at hcn1
          obtain ⟨_, hnseen, _⟩ := F2 b hcn1
          have hpni : p ∉ item :: rest := by
            intro hmem
            rcases List.mem_cons.mp hmem with h | h
            · exact hphead h
            · exact hpr h
          obtain ⟨ha1, _⟩ := hdone p hp hpni a b hcp
          subst hcn2
          exact hnseen ha1
        · have hpni : p ∉ item :: rest := by
            intro hmem
            rcases List.mem_cons.mp hmem with h | h
            · exact hphead h
            · exact hpr h
          have hqni : q ∉ item :: rest := by
            intro hmem
            rcases List.mem_cons.mp hmem with h | h
            · exact hqhead h
            · exact hqr h
          exact hdisj p q hp hq hpni hqni hne a b hcp hcq
      obtain ⟨I1, I2, I3, I4⟩ := ih _ _ seen0
        (fun p hp => hitems p (List.mem_cons_of_mem _ hp))
        (fun k hk => F1 k (hsub k hk))
        hnd hdone1 hdisj1
      exact ⟨fun k hk => I1 k (F1 k hk), I2, I3, I4⟩

theorem coverP_iff (lC rC : Dict String (List String)) (p : (String × String) × Int)
    (a b : String) :
    ((expandSide lC p.1.1).contains a && (expandSide rC p.1.2).contains b) = true ↔
      ruleCovers lC rC p.1 a b := by
  unfold ruleCovers
  rw [Bool.and_eq_true]
  constructor
  · intro ⟨h1, h2⟩
    exact ⟨by simpa using h1, by simpa using h2⟩
  · intro ⟨h1, h2⟩
    exact ⟨by simpa using h1, by simpa using h2⟩

theorem coverCount_le_one (lC rC : Dict String (List String)) (a b : String) :
    ∀ (bucket : Dict (String × String) Int),
      ((bucket.map Prod.fst).Nodup) →
      (∀ p q, p ∈ bucket → q ∈ bucket → p.1 ≠ q.1 →
        ruleCovers lC rC p.1 a b → ruleCovers lC rC q.1 a b → False) →
      coverCount lC rC bucket a b ≤ 1 := by
  intro bucket
  induction bucket with
  | nil => intro hnd hdisj; simp [coverCount]
  | cons p rest ih =>
    intro hnd hdisj
    simp only [List.map_cons, List.nodup_cons] at hnd
    unfold coverCount
    rw [List.filter_cons]
    by_cases hp : ((expandSide lC p.1.1).contains a && (expandSide rC p.1.2).contains b) = true
    · rw [if_pos hp]
      have hrest : rest.filter (fun kv =>
          (expandSide lC kv.1.1).contains a && (expandSide rC kv.1.2).contains b) = [] := by
        rw [List.filter_eq_nil]
        intro q hq hq2
        have hqkey : q.1 ≠ p.1 := by
          intro he
          exact hnd.1 (he ▸ List.mem_map_of_mem Prod.fst hq)
        exact hdisj q p (List.mem_cons_of_mem _ hq) (List.mem_cons_self _ _)
          hqkey ((coverP_iff lC rC q a b).mp hq2) ((coverP_iff lC rC p a b).mp hp)
      rw [hrest]
      simp
    · rw [if_neg hp]
      exact ih hnd.2 (fun p2 q hp2 hq =>
        hdisj p2 q (List.mem_cons_of_mem _ hp2) (List.mem_cons_of_mem _ hq))

theorem coverCount_eq_zero (lC rC : Dict String (List String)) (a b : String)
    (bucket : Dict (String × String) Int)
    (h : ∀ p ∈ bucket, ¬ ruleCovers lC rC p.1 a b) :
    coverCount lC rC bucket a b = 0 := by
  unfold coverCount
  rw [List.length_eq_zero, List.filter_eq_nil]
  intro p hp hp2
  exact h p hp ((coverP_iff lC rC p a b).mp hp2)

theorem coverCount_pos (lC rC : Dict String (List String)) (a b : String)
    (bucket : Dict (String × String) Int)
    (h : 0 < coverCount lC rC bucket a b) :
    ∃ p ∈ bucket, ruleCovers lC rC p.1 a b := by
  unfold coverCount at h
  cases hf : bucket.filter (fun kv =>
      (expandSide lC kv.1.1).contains a && (expandSide rC kv.1.2).contains b) with
  | nil => rw [hf] at h; simp at h
  | cons p rest =>
    have hp : p ∈ bucket.filter (fun kv =>
        (expandSide lC kv.1.1).contains a && (expandSide rC kv.1.2).contains b) :=
      hf ▸ List.mem_cons_self p rest
    exact ⟨p, (List.mem_filter.mp hp).1,
      (coverP_iff lC rC p a b).mp (List.mem_filter.mp hp).2⟩

/-- C1 amended: after conflict resolution, each concrete glyph pair is
covered by at most one rule across the glyph-pair, left-class-glyph and
glyph-right-class buckets; the class-class bucket is excluded because its
per-side narrowing can retain rules that re-cover pairs already claimed. -/
theorem c1_amended_no_duplicate_coverage (st : KernState)
    (hLm : ∀ q ∈ mergedLeft st, ∀ g ∈ q.2, g ≠ "" ∧ ∀ c ∈ g.toList, c ≠ ' ')
    (hRm : ∀ q ∈ mergedRight st, ∀ g ∈ q.2, g ≠ "" ∧ ∀ c ∈ g.toList, c ≠ ' ')
    (hG : ∀ p ∈ st.glyphPairKerning, ¬ strStarts p.1.1 "[" = true ∧
      dget (mergedLeft st) p.1.1 = none ∧ dget (mergedRight st) p.1.2 = none ∧
      ¬ strStarts p.1.2 "[" = true)
    (hGnd : (st.glyphPairKerning.map Prod.fst).Nodup)
    (hLb : ∀ p ∈ st.leftClassKerning, ¬ strStarts p.1.1 "[" = true ∧
      (dget (mergedLeft st) p.1.1).isSome = true ∧
      dget (mergedRight st) p.1.2 = none ∧ ¬ strStarts p.1.2 "[" = true)
    (hLnd : (st.leftClassKerning.map Prod.fst).Nodup)
    (hRb : ∀ p ∈ st.rightClassKerning, ¬ strStarts p.1.1 "[" = true ∧
      dget (mergedLeft st) p.1.1 = none ∧
      (dget (mergedRight st) p.1.2).isSome = true ∧
      ¬ strStarts p.1.2 "[" = true)
    (hRnd : (st.rightClassKerning.map Prod.fst).Nodup)
    (a b : String) :
    coverCount (mergedLeft st) (mergedRight st)
        (removeConflictingKerningRules st).glyphPairKerning a b +
      coverCount (mergedLeft st) (mergedRight st)
        (removeConflictingKerningRules st).leftClassKerning a b +
      coverCount (mergedLeft st) (mergedRight st)
        (removeConflictingKerningRules st).rightClassKerning a b ≤ 1 := by
  have hgp : (removeConflictingKerningRules st).glyphPairKerning =
      st.glyphPairKerning := rfl
  have hlck : (removeConflictingKerningRules st).leftClassKerning =
      (resolveLeftLoop (mergedLeft st) st.leftClassKerning st.leftClassKerning
        st.glyphPairKerning).1 := rfl
  have hrck : (removeConflictingKerningRules st).rightClassKerning =
      (resolveRightLoop (mergedRight st) st.rightClassKerning st.rightClassKerning
        (resolveLeftLoop (mergedLeft st) st.leftClassKerning st.leftClassKerning
          st.glyphPairKerning).2).1 := rfl
  obtain ⟨A1, A2, A3, A4⟩ := resolveLeft_invariant (mergedLeft st) (mergedRight st)
    hLm st.leftClassKerning st.leftClassKerning st.glyphPairKerning
    st.glyphPairKerning hLb (fun k hk => hk) hLnd
    (fun p hp hpn => absurd hp hpn)
    (fun p q hp hq hpn hqn => absurd hp hpn)
  obtain ⟨B1, B2, B3, B4⟩ := resolveRight_invariant (mergedLeft st) (mergedRight st)
    hRm st.rightClassKerning st.rightClassKerning
    (resolveLeftLoop (mergedLeft st) st.leftClassKerning st.leftClassKerning
      st.glyphPairKerning).2
    (resolveLeftLoop (mergedLeft st) st.leftClassKerning st.leftClassKerning
      st.glyphPairKerning).2
    hRb (fun k hk => hk) hRnd
    (fun p hp hpn => absurd hp hpn)
    (fun p q hp hq hpn hqn => absurd hp hpn)
  have hGcov : ∀ p ∈ st.glyphPairKerning, ∀ x y,
      ruleCovers (mergedLeft st) (mergedRight st) p.1 x y → (x, y) = p.1 := by
    intro p hp x y hc
    obtain ⟨hb1, hn1, hn2, hb2⟩ := hG p hp
    unfold ruleCovers at hc
    rw [expandSide_glyph hb1 hn1, expandSide_glyph hb2 hn2] at hc
    simp only [List.mem_singleton] at hc
    rw [hc.1, hc.2]
  have hGle : coverCount (mergedLeft st) (mergedRight st)
      st.glyphPairKerning a b ≤ 1 := by
    apply coverCount_le_one _ _ a b _ hGnd
    intro p q hp hq hne hcp hcq
    exact hne ((hGcov p hp a b hcp).symm.trans (hGcov q hq a b hcq))
  rw [hgp, hlck, hrck]
  by_cases hg : 0 < coverCount (mergedLeft st) (mergedRight st)
      st.glyphPairKerning a b
  · obtain ⟨p, hp, hpc⟩ := coverCount_pos _ _ _ _ _ hg
    have hab : (a, b) ∈ st.glyphPairKerning.map Prod.fst := by
      rw [hGcov p hp a b hpc]
      exact List.mem_map_of_mem Prod.fst hp
    have hL0 : coverCount (mergedLeft st) (mergedRight st)
        (resolveLeftLoop (mergedLeft st) st.leftClassKerning st.leftClassKerning
          st.glyphPairKerning).1 a b = 0 :=
      coverCount_eq_zero _ _ _ _ _ (fun q hq hqc => (A3 q hq a b hqc).2 hab)
    have hR0 : coverCount (mergedLeft st) (mergedRight st)
        (resolveRightLoop (mergedRight st) st.rightClassKerning
          st.rightClassKerning
          (resolveLeftLoop (mergedLeft st) st.leftClassKerning
            st.leftClassKerning st.glyphPairKerning).2).1 a b = 0 :=
      coverCount_eq_zero _ _ _ _ _
        (fun q hq hqc => (B3 q hq a b hqc).2 (A1 (a, b) hab))
    rw [hL0, hR0]
    omega
  · by_cases hl : 0 < coverCount (mergedLeft st) (mergedRight st)
        (resolveLeftLoop (mergedLeft st) st.leftClassKerning st.leftClassKerning
          st.glyphPairKerning).1 a b
    · obtain ⟨p, hp, hpc⟩ := coverCount_pos _ _ _ _ _ hl
      obtain ⟨hin1, hnin0⟩ := A3 p hp a b hpc
      have hR0 : coverCount (mergedLeft st) (mergedRight st)
          (resolveRightLoop (mergedRight st) st.rightClassKerning
            st.rightClassKerning
            (resolveLeftLoop (mergedLeft st) st.leftClassKerning
              st.leftClassKerning st.glyphPairKerning).2).1 a b = 0 :=
        coverCount_eq_zero _ _ _ _ _
          (fun q hq hqc => (B3 q hq a b hqc).2 hin1)
      have hLle : coverCount (mergedLeft st) (mergedRight st)
          (resolveLeftLoop (mergedLeft st) st.leftClassKerning st.leftClassKerning
            st.glyphPairKerning).1 a b ≤ 1 :=
        coverCount_le_one _ _ a b _ A2 (fun p q hp hq hne => A4 p q hp hq hne a b)
      rw [hR0]
      omega
    · have hRle : coverCount (mergedLeft st) (mergedRight st)
          (resolveRightLoop (mergedRight st) st.rightClassKerning
            st.rightClassKerning
            (resolveLeftLoop (mergedLeft st) st.leftClassKerning
              st.leftClassKerning st.glyphPairKerning).2).1 a b ≤ 1 :=
        coverCount_le_one _ _ a b _ B2 (fun p q hp hq hne => B4 p q hp hq hne a b)
      omega

/-- C1 amended witness: in the C6 scenario state, the concrete pair (A, B)
is covered exactly once after resolution across the three buckets. -/
theorem c1_amended_witness :
    coverCount (mergedLeft c6State) (mergedRight c6State)
        (removeConflictingKerningRules c6State).glyphPairKerning "A" "B" +
      coverCount (mergedLeft c6State) (mergedRight c6State)
        (removeConflictingKerningRules c6State).leftClassKerning "A" "B" +
      coverCount (mergedLeft c6State) (mergedRight c6State)
        (removeConflictingKerningRules c6State).rightClassKerning "A" "B" ≤ 1 :=
  c1_amended_no_duplicate_coverage c6State (by decide) (by decide) (by decide)
    (by decide) (by decide) (by decide) (by decide) (by decide) "A" "B"

theorem filterSeen_sublist (mk : String → String × String) (val : Int) :
    ∀ (gs : List String) (seen : Dict (String × String) Int),
      (filterSeen mk val gs seen).1.Sublist gs := by
  intro gs
  induction gs with
  | nil => intro seen; simp [filterSeen]
  | cons g rest ih =>
    intro seen
    simp only [filterSeen]
    by_cases h : (dget seen (mk g)).isSome = true
    · rw [if_pos h]
      exact (ih seen).cons g
    · rw [if_neg h]
      exact (ih (dset seen (mk g) val)).cons₂ g

theorem resolveLeftLoop_origin (leftClasses : Dict String (List String))
    (items : List ((String × String) × Int)) :
    ∀ (bucket seen : Dict (String × String) Int) (p : (String × String) × Int),
      p ∈ (resolveLeftLoop leftClasses items bucket seen).1 →
      p ∈ bucket ∨ ∃ q, q ∈ items ∧ p.2 = q.2 ∧ p.1.2 = q.1.2 ∧
        ∃ gs, gs.Sublist (classLookup leftClasses q.1.1) ∧
          gs ≠ classLookup leftClasses q.1.1 ∧ p.1.1 = liststr gs := by
  induction items with
  | nil => intro bucket seen p h; exact Or.inl h
  | cons item rest ih =>
    intro bucket seen p h
    simp only [resolveLeftLoop] at h
    rcases ih _ _ p h with h1 | h1
    · by_cases hne :
        (filterSeen (fun g => (g, item.1.2)) item.2
          (classLookup leftClasses item.1.1) seen).1 ≠ classLookup leftClasses item.1.1
      · rw [if_pos hne] at h1
        rcases mem_dset (mem_of_mem_ddel h1) with h2 | h2
        · exact Or.inl h2
        · refine Or.inr ⟨item, List.mem_cons_self _ _, by rw [h2], by rw [h2],
            (filterSeen (fun g => (g, item.1.2)) item.2
              (classLookup leftClasses item.1.1) seen).1,
            filterSeen_sublist _ _ _ _, hne, by rw [h2]⟩
      · rw [if_neg hne] at h1
        exact Or.inl h1
    · obtain ⟨q, hq, hrest⟩ := h1
      exact Or.inr ⟨q, List.mem_cons_of_mem _ hq, hrest⟩

theorem resolveRightLoop_origin (rightClasses : Dict String (List String))
    (items : List ((String × String) × Int)) :
    ∀ (bucket seen : Dict (String × String) Int) (p : (String × String) × Int),
      p ∈ (resolveRightLoop rightClasses items bucket seen).1 →
      p ∈ bucket ∨ ∃ q, q ∈ items ∧ p.2 = q.2 ∧ p.1.1 = q.1.1 ∧
        ∃ gs, gs.Sublist (classLookup rightClasses q.1.2) ∧
          gs ≠ classLookup rightClasses q.1.2 ∧ p.1.2 = liststr gs := by
  induction items with
  | nil => intro bucket seen p h; exact Or.inl h
  | cons item rest ih =>
    intro bucket seen p h
    simp only [resolveRightLoop] at h
    rcases ih _ _ p h with h1 | h1
    · by_cases hne :
        (filterSeen (fun g => (item.1.1, g)) item.2
          (classLookup rightClasses item.1.2) seen).1 ≠ classLookup rightClasses item.1.2
      · rw [if_pos hne] at h1
        rcases mem_dset (mem_of_mem_ddel h1) with h2 | h2
        · exact Or.inl h2
        · refine Or.inr ⟨item, List.mem_cons_self _ _, by rw [h2], by rw [h2],
            (filterSeen (fun g => (item.1.1, g)) item.2
              (classLookup rightClasses item.1.2) seen).1,
            filterSeen_sublist _ _ _ _, hne, by rw [h2]⟩
      · rw [if_neg hne] at h1
        exact Or.inl h1
    · obtain ⟨q, hq, hrest⟩ := h1
      exact Or.inr ⟨q, List.mem_cons_of_mem _ hq, hrest⟩

theorem mem_addUniq {l : List String} {x y : String} (h : y ∈ addUniq l x) :
    y ∈ l ∨ y = x := by
  unfold addUniq at h
  by_cases hx : x ∈ l
  · rw [if_pos hx] at h
    exact Or.inl h
  · rw [if_neg hx] at h
    rcases List.mem_append.mp h with h2 | h2
    · exact Or.inl h2
    · exact Or.inr (List.mem_singleton.mp h2)

theorem crossInner_mem (val : Int) (lG : String) :
    ∀ (rs : List String) (acc : List String × List String × Dict (String × String) Int),
      (∀ x, x ∈ (rs.foldl (fun acc2 rG =>
          if (dget acc2.2.2 (lG, rG)).isSome then acc2
          else (addUniq acc2.1 lG, addUniq acc2.2.1 rG, dset acc2.2.2 (lG, rG) val)) acc).1 →
        x ∈ acc.1 ∨ x = lG) ∧
      (∀ y, y ∈ (rs.foldl (fun acc2 rG =>
          if (dget acc2.2.2 (lG, rG)).isSome then acc2
          else (addUniq acc2.1 lG, addUniq acc2.2.1 rG, dset acc2.2.2 (lG, rG) val)) acc).2.1 →
        y ∈ acc.2.1 ∨ y ∈ rs) := by
  intro rs
  induction rs with
  | nil => intro acc; exact ⟨fun x hx => Or.inl hx, fun y hy => Or.inl hy⟩
  | cons r rest ih =>
    intro acc
    simp only [List.foldl_cons]
    by_cases h : (dget acc.2.2 (lG, r)).isSome = true
    · rw [if_pos h]
      refine ⟨(ih acc).1, fun y hy => ?_⟩
      rcases (ih acc).2 y hy with h2 | h2
      · exact Or.inl h2
      · exact Or.inr (List.mem_cons_of_mem _ h2)
    · rw [if_neg h]
      refine ⟨fun x hx => ?_, fun y hy => ?_⟩
      · rcases (ih (addUniq acc.1 lG, addUniq acc.2.1 r, dset acc.2.2 (lG, r) val)).1 x hx with
          h2 | h2
        · rcases mem_addUniq h2 with h3 | h3
          · exact Or.inl h3
          · exact Or.inr h3
        · exact Or.inr h2
      · rcases (ih (addUniq acc.1 lG, addUniq acc.2.1 r, dset acc.2.2 (lG, r) val)).2 y hy with
          h2 | h2
        · rcases mem_addUniq h2 with h3 | h3
          · exact Or.inl h3
          · exact Or.inr (List.mem_cons.mpr (Or.inl h3))
        · exact Or.inr (List.mem_cons_of_mem _ h2)

theorem crossFilter_mem (val : Int) (lGlyphs rGlyphs : List String)
    (seen : Dict (String × String) Int) :
    (∀ x ∈ (crossFilter val lGlyphs rGlyphs seen).1, x ∈ lGlyphs) ∧
    (∀ y ∈ (crossFilter val lGlyphs rGlyphs seen).2.1, y ∈ rGlyphs) := by
  have key : ∀ (ls : List String) (acc : List String × List String ×
      Dict (String × String) Int),
      (∀ x, x ∈ (ls.foldl (fun acc lG =>
          rGlyphs.foldl (fun acc2 rG =>
            if (dget acc2.2.2 (lG, rG)).isSome then acc2
            else (addUniq acc2.1 lG, addUniq acc2.2.1 rG, dset acc2.2.2 (lG, rG) val))
            acc) acc).1 →
        x ∈ acc.1 ∨ x ∈ ls) ∧
      (∀ y, y ∈ (ls.foldl (fun acc lG =>
          rGlyphs.foldl (fun acc2 rG =>
            if (dget acc2.2.2 (lG, rG)).isSome then acc2
            else (addUniq acc2.1 lG, addUniq acc2.2.1 rG, dset acc2.2.2 (lG, rG) val))
            acc) acc).2.1 →
        y ∈ acc.2.1 ∨ y ∈ rGlyphs) := by
    intro ls
    induction ls with
    | nil => intro acc; exact ⟨fun x hx => Or.inl hx, fun y hy => Or.inl hy⟩
    | cons lg lrest ih =>
      intro acc
      simp only [List.foldl_cons]
      refine ⟨fun x hx => ?_, fun y hy => ?_⟩
      · rcases (ih _).1 x hx with h2 | h2
        · rcases (crossInner_mem val lg rGlyphs acc).1 x h2 with h3 | h3
          · exact Or.inl h3
          · exact Or.inr (h3 ▸ List.mem_cons_self _ _)
        · exact Or.inr (List.mem_cons_of_mem _ h2)
      · rcases (ih _).2 y hy with h2 | h2
        · rcases (crossInner_mem val lg rGlyphs acc).2 y h2 with h3 | h3
          · exact Or.inl h3
          · exact Or.inr h3
        · exact Or.inr h2
  obtain ⟨h1, h2⟩ := key lGlyphs ([], [], seen)
  constructor
  · intro x hx
    rcases h1 x hx with h | h
    · simp at h
    · exact h
  · intro y hy
    rcases h2 y hy with h | h
    · simp at h
    · exact h

theorem sameSet_false_exists {a b : List String}
    (hsub : ∀ x ∈ a, x ∈ b) (h : sameSet a b = false) :
    ∃ y ∈ b, y ∉ a := by
  unfold sameSet at h
  rcases Bool.and_eq_false_iff.mp h with h1 | h1
  · exfalso
    rw [List.all_eq_false] at h1
    obtain ⟨x, hx, hxc⟩ := h1
    exact hxc (by simpa using hsub x hx)
  · rw [List.all_eq_false] at h1
    obtain ⟨y, hy, hyc⟩ := h1
    exact ⟨y, hy, by simpa using hyc⟩

theorem resolveClassPairLoop_origin (leftClasses rightClasses : Dict String (List String))
    (items : List ((String × String) × Int)) :
    ∀ (bucket seen : Dict (String × String) Int) (p : (String × String) × Int),
      p ∈ (resolveClassPairLoop leftClasses rightClasses items bucket seen).1 →
      p ∈ bucket ∨ ∃ q, q ∈ items ∧ p.2 = q.2 ∧
        (p.1.1 = q.1.1 ∨ ∃ gs, (∀ x ∈ gs, x ∈ classLookup leftClasses q.1.1) ∧
          (∃ y ∈ classLookup leftClasses q.1.1, y ∉ gs) ∧ p.1.1 = liststr gs) ∧
        (p.1.2 = q.1.2 ∨ ∃ gs, (∀ x ∈ gs, x ∈ classLookup rightClasses q.1.2) ∧
          (∃ y ∈ classLookup rightClasses q.1.2, y ∉ gs) ∧ p.1.2 = liststr gs) := by
  induction items with
  | nil => intro bucket seen p h; exact Or.inl h
  | cons item rest ih =>
    intro bucket seen p h
    simp only [resolveClassPairLoop] at h
    rcases ih _ _ p h with h1 | h1
    · by_cases hne :
        (if sameSet (crossFilter item.2 (classLookup leftClasses item.1.1)
            (classLookup rightClasses item.1.2) seen).1 (classLookup leftClasses item.1.1)
          then item.1.1
          else liststr (isort strLe (crossFilter item.2 (classLookup leftClasses item.1.1)
            (classLookup rightClasses item.1.2) seen).1)) ≠ item.1.1 ∨
        (if sameSet (crossFilter item.2 (classLookup leftClasses item.1.1)
            (classLookup rightClasses item.1.2) seen).2.1 (classLookup rightClasses item.1.2)
          then item.1.2
          else liststr (isort strLe (crossFilter item.2 (classLookup leftClasses item.1.1)
            (classLookup rightClasses item.1.2) seen).2.1)) ≠ item.1.2
      · rw [if_pos hne] at h1
        rcases mem_dset (mem_of_mem_ddel h1) with h2 | h2
        · exact Or.inl h2
        · refine Or.inr ⟨item, List.mem_cons_self _ _, by rw [h2], ?_, ?_⟩
          · by_cases hls : sameSet (crossFilter item.2 (classLookup leftClasses item.1.1)
                (classLookup rightClasses item.1.2) seen).1
                (classLookup leftClasses item.1.1) = true
            · refine Or.inl ?_
              rw [h2]
              show (if sameSet (crossFilter item.2 (classLookup leftClasses item.1.1)
                  (classLookup rightClasses item.1.2) seen).1
                  (classLookup leftClasses item.1.1)
                then item.1.1
                else liststr (isort strLe (crossFilter item.2
                  (classLookup leftClasses item.1.1)
                  (classLookup rightClasses item.1.2) seen).1)) = item.1.1
              rw [if_pos hls]
            · refine Or.inr ⟨isort strLe (crossFilter item.2
                (classLookup leftClasses item.1.1)
                (classLookup rightClasses item.1.2) seen).1, ?_, ?_, ?_⟩
              · intro x hx
                exact (crossFilter_mem item.2 (classLookup leftClasses item.1.1)
                  (classLookup rightClasses item.1.2) seen).1 x
                  ((mem_isort strLe x _).mp hx)
              · obtain ⟨y, hy, hyn⟩ := sameSet_false_exists
                  ((crossFilter_mem item.2 (classLookup leftClasses item.1.1)
                    (classLookup rightClasses item.1.2) seen).1)
                  (Bool.eq_false_iff.mpr hls)
                exact ⟨y, hy, fun hmem => hyn ((mem_isort strLe y _).mp hmem)⟩
              · rw [h2]
                show (if sameSet (crossFilter item.2 (classLookup leftClasses item.1.1)
                    (classLookup rightClasses item.1.2) seen).1
                    (classLookup leftClasses item.1.1)
                  then item.1.1
                  else liststr (isort strLe (crossFilter item.2
                    (classLookup leftClasses item.1.1)
                    (classLookup rightClasses item.1.2) seen).1)) =
                  liststr (isort strLe (crossFilter item.2
                    (classLookup leftClasses item.1.1)
                    (classLookup rightClasses item.1.2) seen).1)
                rw [if_neg hls]
          · by_cases hrs : sameSet (crossFilter item.2 (classLookup leftClasses item.1.1)
                (classLookup rightClasses item.1.2) seen).2.1
                (classLookup rightClasses item.1.2) = true
            · refine Or.inl ?_
              rw [h2]
              show (if sameSet (crossFilter item.2 (classLookup leftClasses item.1.1)
                  (classLookup rightClasses item.1.2) seen).2.1
                  (classLookup rightClasses item.1.2)
                then item.1.2
                else liststr (isort strLe (crossFilter item.2
                  (classLookup leftClasses item.1.1)
                  (classLookup rightClasses item.1.2) seen).2.1)) = item.1.2
              rw [if_pos hrs]
            · refine Or.inr ⟨isort strLe (crossFilter item.2
                (classLookup leftClasses item.1.1)
                (classLookup rightClasses item.1.2) seen).2.1, ?_, ?_, ?_⟩
              · intro x hx
                exact (crossFilter_mem item.2 (classLookup leftClasses item.1.1)
                  (classLookup rightClasses item.1.2) seen).2 x
                  ((mem_isort strLe x _).mp hx)
              · obtain ⟨y, hy, hyn⟩ := sameSet_false_exists
                  ((crossFilter_mem item.2 (classLookup leftClasses item.1.1)
                    (classLookup rightClasses item.1.2) seen).2)
                  (Bool.eq_false_iff.mpr hrs)
                exact ⟨y, hy, fun hmem => hyn ((mem_isort strLe y _).mp hmem)⟩
              · rw [h2]
                show (if sameSet (crossFilter item.2 (classLookup leftClasses item.1.1)
                    (classLookup rightClasses item.1.2) seen).2.1
                    (classLookup rightClasses item.1.2)
                  then item.1.2
                  else liststr (isort strLe (crossFilter item.2
                    (classLookup leftClasses item.1.1)
                    (classLookup rightClasses item.1.2) seen).2.1)) =
                  liststr (isort strLe (crossFilter item.2
                    (classLookup leftClasses item.1.1)
                    (classLookup rightClasses item.1.2) seen).2.1)
                rw [if_neg hrs]
      · rw [if_neg hne] at h1
        exact Or.inl h1
    · obtain ⟨q, hq, hrest⟩ := h1
      exact Or.inr ⟨q, List.mem_cons_of_mem _ hq, hrest⟩

/-- C6: conflict resolution never changes numeric adjustments: the glyph-pair
bucket is untouched, and every rule surviving a bucket descends from a rule
of that same bucket — same value, the glyph side unchanged, and the class
side either unchanged or narrowed to a bracketed strict sub-list (sub-set,
for the class-class pass) of that same rule's class members. -/
theorem c6_value_preservation (st : KernState) :
    (removeConflictingKerningRules st).glyphPairKerning = st.glyphPairKerning ∧
    (∀ p : (String × String) × Int,
      p ∈ (removeConflictingKerningRules st).leftClassKerning →
      ∃ q, q ∈ st.leftClassKerning ∧ p.2 = q.2 ∧ p.1.2 = q.1.2 ∧
        (p.1.1 = q.1.1 ∨ ∃ gs, gs.Sublist (classLookup (mergedLeft st) q.1.1) ∧
          gs ≠ classLookup (mergedLeft st) q.1.1 ∧ p.1.1 = liststr gs)) ∧
    (∀ p : (String × String) × Int,
      p ∈ (removeConflictingKerningRules st).rightClassKerning →
      ∃ q, q ∈ st.rightClassKerning ∧ p.2 = q.2 ∧ p.1.1 = q.1.1 ∧
        (p.1.2 = q.1.2 ∨ ∃ gs, gs.Sublist (classLookup (mergedRight st) q.1.2) ∧
          gs ≠ classLookup (mergedRight st) q.1.2 ∧ p.1.2 = liststr gs)) ∧
    (∀ p : (String × String) × Int,
      p ∈ (removeConflictingKerningRules st).classPairKerning →
      ∃ q, q ∈ st.classPairKerning ∧ p.2 = q.2 ∧
        (p.1.1 = q.1.1 ∨ ∃ gs, (∀ x ∈ gs, x ∈ classLookup (mergedLeft st) q.1.1) ∧
          (∃ y ∈ classLookup (mergedLeft st) q.1.1, y ∉ gs) ∧ p.1.1 = liststr gs) ∧
        (p.1.2 = q.1.2 ∨ ∃ gs, (∀ x ∈ gs, x ∈ classLookup (mergedRight st) q.1.2) ∧
          (∃ y ∈ classLookup (mergedRight st) q.1.2, y ∉ gs) ∧ p.1.2 = liststr gs)) := by
  refine ⟨rfl, ?_, ?_, ?_⟩
  · intro p h
    simp only [removeConflictingKerningRules] at h
    rcases resolveLeftLoop_origin _ _ _ _ p h with h1 | h1
    · exact ⟨p, h1, rfl, rfl, Or.inl rfl⟩
    · obtain ⟨q, hq, h2, h3, h4⟩ := h1
      exact ⟨q, hq, h2, h3, Or.inr h4⟩
  · intro p h
    simp only [removeConflictingKerningRules] at h
    rcases resolveRightLoop_origin _ _ _ _ p h with h1 | h1
    · exact ⟨p, h1, rfl, rfl, Or.inl rfl⟩
    · obtain ⟨q, hq, h2, h3, h4⟩ := h1
      exact ⟨q, hq, h2, h3, Or.inr h4⟩
  · intro p h
    simp only [removeConflictingKerningRules] at h
    rcases resolveClassPairLoop_origin _ _ _ _ _ p h with h1 | h1
    · exact ⟨p, h1, rfl, Or.inl rfl, Or.inl rfl⟩
    · exact h1

/-- C6 witness: in the C6 scenario the surviving narrowed rule ([D], B, -20)
descends from the original rule (public.kern1.CL, B, -20): value and right
glyph unchanged, left side narrowed to the strict sub-list [D] of the class
members [A, D]. -/
theorem c6_witness :
    ∃ q, q ∈ c6State.leftClassKerning ∧
      ((("[D]", "B"), (-20 : Int)) : (String × String) × Int).2 = q.2 ∧
      ("[D]", "B").2 = q.1.2 ∧
      (("[D]", "B").1 = q.1.1 ∨
        ∃ gs, gs.Sublist (classLookup (mergedLeft c6State) q.1.1) ∧
          gs ≠ classLookup (mergedLeft c6State) q.1.1 ∧
          ("[D]", "B").1 = liststr gs) :=
  (c6_value_preservation c6State).2.1 (("[D]", "B"), -20) (by decide)

theorem toDigitsCore_app (b : Nat) :
    ∀ (fuel n : Nat) (ds : List Char),
      Nat.toDigitsCore b fuel n ds = Nat.toDigitsCore b fuel n [] ++ ds := by
  intro fuel
  induction fuel with
  | zero => intro n ds; rfl
  | succ f ih =>
    intro n ds
    simp only [Nat.toDigitsCore]
    by_cases h : n / b = 0
    · rw [if_pos h, if_pos h]
      rfl
    · rw [if_neg h, if_neg h, ih (n / b) (Nat.digitChar (n % b) :: ds),
        ih (n / b) [Nat.digitChar (n % b)]]
      simp

theorem digitChar_val : ∀ m, m < 10 → (Nat.digitChar m).toNat - 48 = m := by
  decide

theorem toDigitsCore_foldl :
    ∀ (n fuel : Nat), n < fuel → ∀ (acc : Nat),
      (Nat.toDigitsCore 10 fuel n []).foldl (fun a c => a * 10 + (c.toNat - 48)) acc =
        acc * 10 ^ (Nat.toDigitsCore 10 fuel n []).length + n := by
  intro n
  induction n using Nat.strong_induction_on with
  | _ n ih =>
    intro fuel hf acc
    cases fuel with
    | zero => omega
    | succ f =>
      simp only [Nat.toDigitsCore]
      by_cases h : n / 10 = 0
      · rw [if_pos h]
        have hn : n < 10 := by omega
        simp only [List.foldl_cons, List.foldl_nil, List.length_cons,
          List.length_nil]
        rw [digitChar_val (n % 10) (by omega)]
        have hmod : n % 10 = n := Nat.mod_eq_of_lt hn
        rw [hmod, pow_one]
      · rw [if_neg h]
        rw [toDigitsCore_app 10 f (n / 10) [Nat.digitChar (n % 10)]]
        rw [List.foldl_append]
        have h0 : 0 < n := by omega
        have hdiv : n / 10 < n := Nat.div_lt_self h0 (by omega)
        have hfuel : n / 10 < f := by omega
        rw [ih (n / 10) hdiv f hfuel acc]
        simp only [List.foldl_cons, List.foldl_nil, List.length_append,
          List.length_cons, List.length_nil]
        rw [digitChar_val (n % 10) (by omega)]
        rw [pow_succ, ← mul_assoc]
        generalize acc * 10 ^ (Nat.toDigitsCore 10 f (n / 10) []).length = A
        omega

theorem natRepr_foldl (n : Nat) :
    (Nat.repr n).toList.foldl (fun a c => a * 10 + (c.toNat - 48)) 0 = n := by
  show (Nat.toDigitsCore 10 (n + 1) n []).foldl
    (fun a c => a * 10 + (c.toNat - 48)) 0 = n
  rw [toDigitsCore_foldl n (n + 1) (Nat.lt_succ_self n) 0]
  simp

theorem candName_pos_inj {base : String} {i j : Nat}
    (h : candName base (i + 1) = candName base (j + 1)) : i = j := by
  have h2 : (base ++ "_" ++ toString (i + 1)).toList =
      (base ++ "_" ++ toString (j + 1)).toList := by
    rw [show base ++ "_" ++ toString (i + 1) = candName base (i + 1) from rfl,
      show base ++ "_" ++ toString (j + 1) = candName base (j + 1) from rfl, h]
  rw [toList_append, toList_append] at h2
  have h3 : (toString (i + 1) : String).toList =
      (toString (j + 1) : String).toList := List.append_cancel_left h2
  have h4 : ((toString (i + 1) : String)).toList.foldl
      (fun a c => a * 10 + (c.toNat - 48)) 0 =
      ((toString (j + 1) : String)).toList.foldl
      (fun a c => a * 10 + (c.toNat - 48)) 0 := by rw [h3]
  have e1 : ((toString (i + 1) : String)).toList.foldl
      (fun a c => a * 10 + (c.toNat - 48)) 0 = i + 1 := natRepr_foldl (i + 1)
  have e2 : ((toString (j + 1) : String)).toList.foldl
      (fun a c => a * 10 + (c.toNat - 48)) 0 = j + 1 := natRepr_foldl (j + 1)
  rw [e1, e2] at h4
  omega

theorem exists_free_suffix (ex : List String) (base : String) :
    ∃ j, 1 ≤ j ∧ j ≤ ex.length + 1 ∧ candName base j ∉ ex := by
  by_contra hall
  push_neg at hall
  have hinj : Function.Injective
      (fun i : Fin (ex.length + 1) => candName base (i.1 + 1)) := by
    intro a b hab
    simp only at hab
    exact Fin.ext (candName_pos_inj hab)
  have hsub : Finset.image
      (fun i : Fin (ex.length + 1) => candName base (i.1 + 1)) Finset.univ ⊆
      ex.toFinset := by
    intro x hx
    rw [Finset.mem_image] at hx
    obtain ⟨i, _, hix⟩ := hx
    rw [List.mem_toFinset, ← hix]
    have hlt := i.isLt
    exact hall (i.1 + 1) (by omega) (by omega)
  have h1 : (Finset.image
      (fun i : Fin (ex.length + 1) => candName base (i.1 + 1)) Finset.univ).card =
      ex.length + 1 := by
    rw [Finset.card_image_of_injective _ hinj, Finset.card_univ, Fintype.card_fin]
  have h2 : ex.toFinset.card ≤ ex.length := ex.toFinset_card_le
  have h3 := Finset.card_le_card hsub
  omega

theorem makeFeaClassName_fresh (st : KernState) (name : String) :
    makeFeaClassName st name ∉ existingClassNames st := by
  obtain ⟨k, hk, hfree, _⟩ := makeFeaClassName_first_free st name
    (exists_free_suffix (existingClassNames st) ("@" ++ stripIllegal name))
  rw [hk]
  exact hfree

theorem leftUfo_sub_existing (st : KernState) {k : String}
    (h : k ∈ st.leftUfoClasses.map Prod.fst) : k ∈ existingClassNames st := by
  unfold existingClassNames
  rw [List.map_append, List.map_append, List.map_append]
  simp only [List.mem_append]
  exact Or.inl (Or.inr h)

theorem rightUfo_sub_existing (st : KernState) {k : String}
    (h : k ∈ st.rightUfoClasses.map Prod.fst) : k ∈ existingClassNames st := by
  unfold existingClassNames
  rw [List.map_append, List.map_append, List.map_append]
  simp only [List.mem_append]
  exact Or.inr h

theorem leftFea_sub_existing (st : KernState) {k : String}
    (h : k ∈ st.leftFeaClasses.map Prod.fst) : k ∈ existingClassNames st := by
  unfold existingClassNames
  rw [List.map_append, List.map_append, List.map_append]
  simp only [List.mem_append]
  exact Or.inl (Or.inl (Or.inl h))

theorem dget_dictUpdate_not_mem {α β : Type} [BEq α] [LawfulBEq α] :
    ∀ {d2 : Dict α β} {k : α}, k ∉ d2.map Prod.fst →
      ∀ d1 : Dict α β, dget (dictUpdate d1 d2) k = dget d1 k := by
  intro d2
  induction d2 with
  | nil => intro k _ d1; rfl
  | cons q rest ih =>
    intro k h d1
    simp only [List.map_cons, List.mem_cons, not_or] at h
    have e : dictUpdate d1 (q :: rest) = dictUpdate (dset d1 q.1 q.2) rest := rfl
    rw [e, ih h.2 (dset d1 q.1 q.2), dget_dset_ne d1 q.2 h.1]

theorem dget_dictUpdate_mem {α β : Type} [BEq α] [LawfulBEq α] :
    ∀ {d2 : Dict α β}, (d2.map Prod.fst).Nodup → ∀ {p : α × β}, p ∈ d2 →
      ∀ d1 : Dict α β, dget (dictUpdate d1 d2) p.1 = some p.2 := by
  intro d2
  induction d2 with
  | nil => intro _ p hp; simp at hp
  | cons q rest ih =>
    intro hnd p hp d1
    simp only [List.map_cons, List.nodup_cons] at hnd
    have e : dictUpdate d1 (q :: rest) = dictUpdate (dset d1 q.1 q.2) rest := rfl
    rw [e]
    rcases List.mem_cons.mp hp with h | h
    · rw [h, dget_dictUpdate_not_mem hnd.1, dget_dset_self]
    · exact ih hnd.2 h (dset d1 q.1 q.2)

theorem applyRen_not_mem {ren : List (String × String)} {x : String}
    (h : x ∉ ren.map Prod.fst) : applyRen ren x = x := by
  unfold applyRen
  rw [dget_none_iff_keys.mpr h]
  rfl

theorem applyRen_cons_self {name nn : String} {ren : List (String × String)} :
    applyRen ((name, nn) :: ren) name = nn := by
  unfold applyRen
  simp [dget]

theorem applyRen_cons_ne {name nn x : String} {ren : List (String × String)}
    (h : x ≠ name) : applyRen ((name, nn) :: ren) x = applyRen ren x := by
  unfold applyRen
  simp only [dget]
  rw [if_neg (by simpa using fun he => h he.symm)]

theorem leftRenames_keys :
    ∀ (gs : List (String × List String)) (st : KernState),
      (∀ q ∈ gs, q.1.toList.head? = some 'p') →
      (leftRenames st gs).map Prod.fst = gs.map Prod.fst := by
  intro gs
  induction gs with
  | nil => intro st _; rfl
  | cons g rest ih =>
    intro st h
    rcases g with ⟨name, members⟩
    have hhead : name.toList.head? = some 'p' :=
      h (name, members) (List.mem_cons_self _ _)
    have hne : ¬ (name = makeFeaClassName st name) := fun he =>
      makeFeaClassName_ne st name (by rw [hhead]; decide) he.symm
    simp only [leftRenames]
    rw [if_neg hne]
    simp only [List.map_cons]
    rw [ih _ (fun q hq => h q (List.mem_cons_of_mem _ hq))]

theorem rightRenames_keys :
    ∀ (gs : List (String × List String)) (st : KernState),
      (∀ q ∈ gs, q.1.toList.head? = some 'p') →
      (rightRenames st gs).map Prod.fst = gs.map Prod.fst := by
  intro gs
  induction gs with
  | nil => intro st _; rfl
  | cons g rest ih =>
    intro st h
    rcases g with ⟨name, members⟩
    have hhead : name.toList.head? = some 'p' :=
      h (name, members) (List.mem_cons_self _ _)
    have hne : ¬ (name = makeFeaClassName st name) := fun he =>
      makeFeaClassName_ne st name (by rw [hhead]; decide) he.symm
    simp only [rightRenames]
    rw [if_neg hne]
    simp only [List.map_cons]
    rw [ih _ (fun q hq => h q (List.mem_cons_of_mem _ hq))]

theorem head_of_strStartsAt {s : String} (h : strStarts s "@" = true) :
    s.toList.head? = some '@' := by
  unfold strStarts at h
  cases hl : s.toList with
  | nil =>
    rw [hl] at h
    simp [List.isPrefixOf] at h
  | cons c cs =>
    rw [hl] at h
    have : ('@' == c) = true := by
      cases hb : ('@' == c)
      · rw [show ("@".toList) = ['@'] from rfl] at h
        simp [List.isPrefixOf, hb] at h
      · rfl
    simp only [List.head?, Option.some.injEq]
    exact (eq_of_beq this).symm

theorem self_mem_keys_dset {α β : Type} [BEq α] [LawfulBEq α]
    (d : Dict α β) (k : α) (v : β) : k ∈ (dset d k v).map Prod.fst :=
  List.mem_map_of_mem Prod.fst (dget_some_mem (dget_dset_self d k v))

theorem correctLeftLoop_spec :
    ∀ (gs : List (String × List String)) (st : KernState),
      (∀ q ∈ gs, q.1.toList.head? = some 'p') →
      (gs.map Prod.fst).Nodup →
      (∀ q ∈ gs, dget st.leftUfoClasses q.1 = some q.2) →
      (st.kerning.map Prod.fst).Nodup →
      (∀ p ∈ st.kerning, p.1.2.toList.head? ≠ some '@') →
      (∀ p ∈ st.kerning, p.1.1.toList.head? ≠ some '@' ∨
        p.1.1 ∈ st.leftUfoClasses.map Prod.fst) →
      (st.leftUfoClasses.map Prod.fst).Nodup →
      ((correctLeftLoop st gs).kerning.map Prod.fst).Nodup ∧
      (∀ p ∈ (correctLeftLoop st gs).kerning, p.1.2.toList.head? ≠ some '@') ∧
      (∀ l r, l ∉ gs.map Prod.fst →
        (l.toList.head? ≠ some '@' ∨ l ∈ st.leftUfoClasses.map Prod.fst) →
        dget (correctLeftLoop st gs).kerning (l, r) = dget st.kerning (l, r)) ∧
      (∀ q ∈ gs, ∀ r v, dget st.kerning (q.1, r) = some v →
        dget (correctLeftLoop st gs).kerning
          (applyRen (leftRenames st gs) q.1, r) = some v) ∧
      (∀ q ∈ gs, ∀ r, dget (correctLeftLoop st gs).kerning (q.1, r) = none) ∧
      (∀ q ∈ gs, dget (correctLeftLoop st gs).leftUfoClasses
        (applyRen (leftRenames st gs) q.1) = some q.2) ∧
      (∀ k m, k.toList.head? = some '@' → dget st.leftUfoClasses k = some m →
        dget (correctLeftLoop st gs).leftUfoClasses k = some m) ∧
      (∀ q ∈ gs, (applyRen (leftRenames st gs) q.1).toList.head? = some '@') ∧
      ((correctLeftLoop st gs).leftUfoClasses.map Prod.fst).Nodup := by
  intro gs
  induction gs with
  | nil =>
    intro st _ _ _ hknd hk2 _ hund
    refine ⟨hknd, hk2, fun l r _ _ => rfl, ?_, ?_, ?_, fun k m _ h => h, ?_, hund⟩
    · intro q hq; simp at hq
    · intro q hq; simp at hq
    · intro q hq; simp at hq
    · intro q hq; simp at hq
  | cons g rest ih =>
    intro st hp hnd hmem hknd hk2 hk1 hund
    rcases g with ⟨name, members⟩
    have hnamehead : name.toList.head? = some 'p' :=
      hp (name, members) (List.mem_cons_self _ _)
    have hname_at : name.toList.head? ≠ some '@' := by rw [hnamehead]; decide
    have hne : ¬ (name = makeFeaClassName st name) := fun he =>
      makeFeaClassName_ne st name hname_at he.symm
    set nn := makeFeaClassName st name with hnndef
    have hnnhead : nn.toList.head? = some '@' := makeFeaClassName_head st name
    have hfreshEx : nn ∉ existingClassNames st := makeFeaClassName_fresh st name
    have hnnU : nn ∉ st.leftUfoClasses.map Prod.fst := fun h =>
      hfreshEx (leftUfo_sub_existing st h)
    have hnename : name ≠ nn := fun he => hne he
    set LU1 := ddel (dset st.leftUfoClasses nn members) name with hLU1
    set hits := getGlyphKern st.kerning name 0 with hhits
    set k1 := rekeyLeftK nn hits st.kerning with hk1def
    have hstate : rekeyLeft { st with leftUfoClasses := LU1 } name nn =
        { st with leftUfoClasses := LU1, kerning := k1 } := by
      obtain ⟨kk, hkk⟩ := rekeyLeft_frame name nn { st with leftUfoClasses := LU1 }
      rw [hkk]
      have hkk2 : kk = k1 := by
        have hkk3 := rekeyLeft_kerning { st with leftUfoClasses := LU1 } name nn
        rw [hkk] at hkk3
        exact hkk3
      rw [hkk2]
    have hloop : correctLeftLoop st ((name, members) :: rest) =
        correctLeftLoop { st with leftUfoClasses := LU1, kerning := k1 } rest := by
      simp only [correctLeftLoop]
      rw [if_neg hne, hstate]
    have hren : leftRenames st ((name, members) :: rest) =
        (name, nn) ::
          leftRenames { st with leftUfoClasses := LU1, kerning := k1 } rest := by
      simp only [leftRenames]
      rw [if_neg hne, hstate]
    have hhits1 : ∀ p2 ∈ hits, p2.1.1 = name := fun p2 hp2 =>
      (mem_getGlyphKern0.mp hp2).2
    have hhitsnd : (hits.map Prod.fst).Nodup := getGlyphKern_keys_nodup hknd name 0
    have hhitsget : ∀ p2 ∈ hits, dget st.kerning p2.1 = some p2.2 :=
      getGlyphKern_get hknd name 0
    have hfreshk : ∀ r, (name, r) ∈ hits.map Prod.fst →
        dget st.kerning (nn, r) = none := by
      intro r _
      apply dget_eq_none_iff.mpr
      intro p2 hp2 he
      have h11 : p2.1.1 = nn := congrArg Prod.fst he
      rcases hk1 p2 hp2 with hc | hc
      · exact hc (h11 ▸ hnnhead)
      · exact hnnU (h11 ▸ hc)
    obtain ⟨C1, C2, C3, C4, C5, C6, C7⟩ :=
      rekeyLeftK_spec name nn hnename hits st.kerning hhits1 hhitsnd hhitsget
        hfreshk hknd
    rw [← hk1def] at C1 C2 C3 C4 C5 C6 C7
    have hk1name : ∀ r, dget k1 (name, r) = none := by
      intro r
      by_cases hmem2 : (name, r) ∈ hits.map Prod.fst
      · exact C3 r hmem2
      · rw [C4 r hmem2]
        cases hv : dget st.kerning (name, r) with
        | none => rfl
        | some v =>
          exact absurd (key_mem_getGlyphKern0.mpr ⟨v, dget_some_mem hv⟩) hmem2
    set st2 : KernState := { st with leftUfoClasses := LU1, kerning := k1 }
      with hst2
    have hp' : ∀ q ∈ rest, q.1.toList.head? = some 'p' :=
      fun q hq => hp q (List.mem_cons_of_mem _ hq)
    have hnd' : (rest.map Prod.fst).Nodup := by
      simp only [List.map_cons, List.nodup_cons] at hnd
      exact hnd.2
    have hnotin : name ∉ rest.map Prod.fst := by
      simp only [List.map_cons, List.nodup_cons] at hnd
      exact hnd.1
    have hresthead : ∀ q ∈ rest, q.1 ≠ nn := fun q hq =>
      ne_of_heads (by rw [hp' q hq]; decide) hnnhead
    have hmem' : ∀ q ∈ rest, dget st2.leftUfoClasses q.1 = some q.2 := by
      intro q hq
      have hqname : q.1 ≠ name := fun he =>
        hnotin (he ▸ List.mem_map_of_mem Prod.fst hq)
      show dget LU1 q.1 = some q.2
      rw [hLU1, dget_ddel_ne _ hqname, dget_dset_ne _ _ (hresthead q hq)]
      exact hmem q (List.mem_cons_of_mem _ hq)
    have hk2' : ∀ p2 ∈ st2.kerning, p2.1.2.toList.head? ≠ some '@' := by
      intro p2 hp2
      rcases C6 p2 hp2 with h | ⟨r, v, hpe, hm⟩
      · exact hk2 p2 h
      · have hmm : ((name, r), v) ∈ st.kerning := (mem_getGlyphKern0.mp hm).1
        have h2 := hk2 _ hmm
        rw [hpe]
        exact h2
    have hnoleft_name : ∀ p2 ∈ st2.kerning, p2.1.1 ≠ name := by
      intro p2 hp2 he
      have hg := dget_of_mem_nodup C7 hp2
      have hkey : p2.1 = (name, p2.1.2) := by
        rcases p2 with ⟨⟨a, b⟩, c⟩
        simp only at he ⊢
        rw [he]
      rw [hkey, hk1name p2.1.2] at hg
      exact absurd hg (by simp)
    have hk1' : ∀ p2 ∈ st2.kerning, p2.1.1.toList.head? ≠ some '@' ∨
        p2.1.1 ∈ st2.leftUfoClasses.map Prod.fst := by
      intro p2 hp2
      rcases C6 p2 hp2 with h | ⟨r, v, hpe, hm⟩
      · rcases hk1 p2 h with hc | hc
        · exact Or.inl hc
        · refine Or.inr ?_
          show p2.1.1 ∈ LU1.map Prod.fst
          rw [hLU1]
          exact mem_keys_ddel (mem_keys_dset members hc) (hnoleft_name p2 hp2)
      · refine Or.inr ?_
        show p2.1.1 ∈ LU1.map Prod.fst
        rw [hLU1, hpe]
        exact mem_keys_ddel (self_mem_keys_dset _ nn members) hnename.symm
    have hund' : (st2.leftUfoClasses.map Prod.fst).Nodup := by
      show (LU1.map Prod.fst).Nodup
      rw [hLU1]
      exact nodup_keys_ddel (nodup_keys_dset hund nn members) name
    obtain ⟨I1, I2, I3, I4, I5, I6, I7, I8, I9⟩ :=
      ih st2 hp' hnd' hmem' C7 hk2' hk1' hund'
    have hnn_notin_rest : nn ∉ rest.map Prod.fst := by
      intro hmem3
      rcases List.mem_map.mp hmem3 with ⟨q2, hq2, hfst⟩
      exact hresthead q2 hq2 hfst
    have hnnLU1 : nn ∈ LU1.map Prod.fst := by
      rw [hLU1]
      exact mem_keys_ddel (self_mem_keys_dset _ nn members) hnename.symm
    rw [hloop, hren]
    refine ⟨I1, I2, ?_, ?_, ?_, ?_, ?_, ?_, I9⟩
    · intro l r hl hcond
      simp only [List.map_cons, List.mem_cons, not_or] at hl
      have hlnn : l ≠ nn := by
        rcases hcond with hc | hc
        · exact ne_of_heads hc hnnhead
        · exact fun he => hnnU (he ▸ hc)
      have hstep : dget (correctLeftLoop st2 rest).kerning (l, r) =
          dget st2.kerning (l, r) := by
        apply I3 l r hl.2
        rcases hcond with hc | hc
        · exact Or.inl hc
        · refine Or.inr ?_
          show l ∈ LU1.map Prod.fst
          rw [hLU1]
          exact mem_keys_ddel (mem_keys_dset members hc) hl.1
      rw [hstep]
      exact C2 l r hl.1 hlnn
    · intro q hq r v hv
      rcases List.mem_cons.mp hq with hqh | hqt
      · have hq1 : q.1 = name := by rw [hqh]
        rw [hq1, applyRen_cons_self]
        have hhit : ((name, r), v) ∈ hits := by
          refine mem_getGlyphKern0.mpr ⟨?_, rfl⟩
          exact dget_some_mem (hq1 ▸ hv)
        have hk1v : dget k1 (nn, r) = some v := C1 r v hhit
        have hstep := I3 nn r hnn_notin_rest (Or.inr hnnLU1)
        rw [hstep]
        exact hk1v
      · have hqname : q.1 ≠ name := fun he =>
          hnotin (he ▸ List.mem_map_of_mem Prod.fst hqt)
        rw [applyRen_cons_ne hqname]
        apply I4 q hqt r v
        show dget k1 (q.1, r) = some v
        rw [C2 q.1 r hqname (hresthead q hqt)]
        exact hv
    · intro q hq r
      rcases List.mem_cons.mp hq with hqh | hqt
      · have hq1 : q.1 = name := by rw [hqh]
        rw [hq1]
        rw [I3 name r hnotin (Or.inl hname_at)]
        exact hk1name r
      · exact I5 q hqt r
    · intro q hq
      rcases List.mem_cons.mp hq with hqh | hqt
      · have hq1 : q.1 = name := by rw [hqh]
        have hq2 : q.2 = members := by rw [hqh]
        rw [hq1, hq2, applyRen_cons_self]
        apply I7 nn members hnnhead
        show dget LU1 nn = some members
        rw [hLU1, dget_ddel_ne _ hnename.symm, dget_dset_self]
      · have hqname : q.1 ≠ name := fun he =>
          hnotin (he ▸ List.mem_map_of_mem Prod.fst hqt)
        rw [applyRen_cons_ne hqname]
        exact I6 q hqt
    · intro k m hkhead hkget
      apply I7 k m hkhead
      have hkname : k ≠ name := (ne_of_heads hname_at hkhead).symm
      have hknn : k ≠ nn := by
        intro he
        apply hnnU
        rw [← he]
        exact List.mem_map_of_mem Prod.fst (dget_some_mem hkget)
      show dget LU1 k = some m
      rw [hLU1, dget_ddel_ne _ hkname, dget_dset_ne _ _ hknn]
      exact hkget
    · intro q hq
      rcases List.mem_cons.mp hq with hqh | hqt
      · have hq1 : q.1 = name := by rw [hqh]
        rw [hq1, applyRen_cons_self]
        exact hnnhead
      · have hqname : q.1 ≠ name := fun he =>
          hnotin (he ▸ List.mem_map_of_mem Prod.fst hqt)
        rw [applyRen_cons_ne hqname]
        exact I8 q hqt

theorem correctRightLoop_spec :
    ∀ (gs : List (String × List String)) (st : KernState),
      (∀ q ∈ gs, q.1.toList.head? = some 'p') →
      (gs.map Prod.fst).Nodup →
      (∀ q ∈ gs, dget st.rightUfoClasses q.1 = some q.2) →
      (st.kerning.map Prod.fst).Nodup →
      (∀ p ∈ st.kerning, p.1.2.toList.head? ≠ some '@' ∨
        p.1.2 ∈ st.rightUfoClasses.map Prod.fst) →
      (st.rightUfoClasses.map Prod.fst).Nodup →
      (∀ k ∈ st.rightUfoClasses.map Prod.fst,
        k ∉ st.leftUfoClasses.map Prod.fst) →
      ((correctRightLoop st gs).kerning.map Prod.fst).Nodup ∧
      (∀ l r, r ∉ gs.map Prod.fst →
        (r.toList.head? ≠ some '@' ∨ r ∈ st.rightUfoClasses.map Prod.fst) →
        dget (correctRightLoop st gs).kerning (l, r) = dget st.kerning (l, r)) ∧
      (∀ q ∈ gs, ∀ l v, dget st.kerning (l, q.1) = some v →
        dget (correctRightLoop st gs).kerning
          (l, applyRen (rightRenames st gs) q.1) = some v) ∧
      (∀ q ∈ gs, ∀ l, dget (correctRightLoop st gs).kerning (l, q.1) = none) ∧
      (∀ q ∈ gs, dget (correctRightLoop st gs).rightUfoClasses
        (applyRen (rightRenames st gs) q.1) = some q.2) ∧
      (∀ k m, k.toList.head? = some '@' → dget st.rightUfoClasses k = some m →
        dget (correctRightLoop st gs).rightUfoClasses k = some m) ∧
      (∀ q ∈ gs, (applyRen (rightRenames st gs) q.1).toList.head? = some '@') ∧
      ((correctRightLoop st gs).rightUfoClasses.map Prod.fst).Nodup ∧
      (∀ k ∈ (correctRightLoop st gs).rightUfoClasses.map Prod.fst,
        k ∉ st.leftUfoClasses.map Prod.fst) ∧
      (∀ l, (∀ r, dget st.kerning (l, r) = none) →
        ∀ r, dget (correctRightLoop st gs).kerning (l, r) = none) := by
  intro gs
  induction gs with
  | nil =>
    intro st _ _ _ hknd _ hund hdisj
    refine ⟨hknd, fun l r _ _ => rfl, ?_, ?_, ?_, fun k m _ h => h, ?_, hund,
      hdisj, fun l hl r => hl r⟩
    · intro q hq; simp at hq
    · intro q hq; simp at hq
    · intro q hq; simp at hq
    · intro q hq; simp at hq
  | cons g rest ih =>
    intro st hp hnd hmem hknd hk2 hund hdisj
    rcases g with ⟨name, members⟩
    have hnamehead : name.toList.head? = some 'p' :=
      hp (name, members) (List.mem_cons_self _ _)
    have hname_at : name.toList.head? ≠ some '@' := by rw [hnamehead]; decide
    have hne : ¬ (name = makeFeaClassName st name) := fun he =>
      makeFeaClassName_ne st name hname_at he.symm
    set nn := makeFeaClassName st name with hnndef
    have hnnhead : nn.toList.head? = some '@' := makeFeaClassName_head st name
    have hfreshEx : nn ∉ existingClassNames st := makeFeaClassName_fresh st name
    have hnnU : nn ∉ st.rightUfoClasses.map Prod.fst := fun h =>
      hfreshEx (rightUfo_sub_existing st h)
    have hnnL : nn ∉ st.leftUfoClasses.map Prod.fst := fun h =>
      hfreshEx (leftUfo_sub_existing st h)
    have hnename : name ≠ nn := fun he => hne he
    set RU1 := ddel (dset st.rightUfoClasses nn members) name with hRU1
    set hits := getGlyphKern st.kerning name 1 with hhits
    set k1 := rekeyRightK nn hits st.kerning with hk1def
    have hstate : rekeyRight { st with rightUfoClasses := RU1 } name nn =
        { st with rightUfoClasses := RU1, kerning := k1 } := by
      obtain ⟨kk, hkk⟩ := rekeyRight_frame name nn { st with rightUfoClasses := RU1 }
      rw [hkk]
      have hkk2 : kk = k1 := by
        have hkk3 := rekeyRight_kerning { st with rightUfoClasses := RU1 } name nn
        rw [hkk] at hkk3
        exact hkk3
      rw [hkk2]
    have hloop : correctRightLoop st ((name, members) :: rest) =
        correctRightLoop { st with rightUfoClasses := RU1, kerning := k1 } rest := by
      simp only [correctRightLoop]
      rw [if_neg hne, hstate]
    have hren : rightRenames st ((name, members) :: rest) =
        (name, nn) ::
          rightRenames { st with rightUfoClasses := RU1, kerning := k1 } rest := by
      simp only [rightRenames]
      rw [if_neg hne, hstate]
    have hhits1 : ∀ p2 ∈ hits, p2.1.2 = name := fun p2 hp2 =>
      (mem_getGlyphKern1.mp hp2).2
    have hhitsnd : (hits.map Prod.fst).Nodup := getGlyphKern_keys_nodup hknd name 1
    have hhitsget : ∀ p2 ∈ hits, dget st.kerning p2.1 = some p2.2 :=
      getGlyphKern_get hknd name 1
    have hfreshk : ∀ l, (l, name) ∈ hits.map Prod.fst →
        dget st.kerning (l, nn) = none := by
      intro l _
      apply dget_eq_none_iff.mpr
      intro p2 hp2 he
      have h12 : p2.1.2 = nn := congrArg Prod.snd he
      rcases hk2 p2 hp2 with hc | hc
      · exact hc (h12 ▸ hnnhead)
      · exact hnnU (h12 ▸ hc)
    obtain ⟨C1, C2, C3, C4, C5, C6, C7⟩ :=
      rekeyRightK_spec name nn hnename hits st.kerning hhits1 hhitsnd hhitsget
        hfreshk hknd
    rw [← hk1def] at C1 C2 C3 C4 C5 C6 C7
    have hk1name : ∀ l, dget k1 (l, name) = none := by
      intro l
      by_cases hmem2 : (l, name) ∈ hits.map Prod.fst
      · exact C3 l hmem2
      · rw [C4 l hmem2]
        cases hv : dget st.kerning (l, name) with
        | none => rfl
        | some v =>
          exact absurd (key_mem_getGlyphKern1.mpr ⟨v, dget_some_mem hv⟩) hmem2
    set st2 : KernState := { st with rightUfoClasses := RU1, kerning := k1 }
      with hst2
    have hp' : ∀ q ∈ rest, q.1.toList.head? = some 'p' :=
      fun q hq => hp q (List.mem_cons_of_mem _ hq)
    have hnd' : (rest.map Prod.fst).Nodup := by
      simp only [List.map_cons, List.nodup_cons] at hnd
      exact hnd.2
    have hnotin : name ∉ rest.map Prod.fst := by
      simp only [List.map_cons, List.nodup_cons] at hnd
      exact hnd.1
    have hresthead : ∀ q ∈ rest, q.1 ≠ nn := fun q hq =>
      ne_of_heads (by rw [hp' q hq]; decide) hnnhead
    have hmem' : ∀ q ∈ rest, dget st2.rightUfoClasses q.1 = some q.2 := by
      intro q hq
      have hqname : q.1 ≠ name := fun he =>
        hnotin (he ▸ List.mem_map_of_mem Prod.fst hq)
      show dget RU1 q.1 = some q.2
      rw [hRU1, dget_ddel_ne _ hqname, dget_dset_ne _ _ (hresthead q hq)]
      exact hmem q (List.mem_cons_of_mem _ hq)
    have hnoright_name : ∀ p2 ∈ st2.kerning, p2.1.2 ≠ name := by
      intro p2 hp2 he
      have hg := dget_of_mem_nodup C7 hp2
      have hkey : p2.1 = (p2.1.1, name) := by
        rcases p2 with ⟨⟨a, b⟩, c⟩
        simp only at he ⊢
        rw [he]
      rw [hkey, hk1name p2.1.1] at hg
      exact absurd hg (by simp)
    have hk2' : ∀ p2 ∈ st2.kerning, p2.1.2.toList.head? ≠ some '@' ∨
        p2.1.2 ∈ st2.rightUfoClasses.map Prod.fst := by
      intro p2 hp2
      rcases C6 p2 hp2 with h | ⟨l, v, hpe, hm⟩
      · rcases hk2 p2 h with hc | hc
        · exact Or.inl hc
        · refine Or.inr ?_
          show p2.1.2 ∈ RU1.map Prod.fst
          rw [hRU1]
          exact mem_keys_ddel (mem_keys_dset members hc) (hnoright_name p2 hp2)
      · refine Or.inr ?_
        show p2.1.2 ∈ RU1.map Prod.fst
        rw [hRU1, hpe]
        exact mem_keys_ddel (self_mem_keys_dset _ nn members) hnename.symm
    have hund' : (st2.rightUfoClasses.map Prod.fst).Nodup := by
      show (RU1.map Prod.fst).Nodup
      rw [hRU1]
      exact nodup_keys_ddel (nodup_keys_dset hund nn members) name
    have hdisj' : ∀ k ∈ st2.rightUfoClasses.map Prod.fst,
        k ∉ st2.leftUfoClasses.map Prod.fst := by
      intro k hk
      have hk2m : k ∈ (dset st.rightUfoClasses nn members).map Prod.fst := by
        rcases List.mem_map.mp hk with ⟨p, hp2, hfst⟩
        exact hfst ▸ List.mem_map_of_mem Prod.fst (mem_of_mem_ddel hp2)
      rcases keys_dset_sub hk2m with h | h
      · exact hdisj k h
      · rw [h]
        exact hnnL
    obtain ⟨I1, I2, I3, I4, I5, I6, I7, I8, I9, I10⟩ :=
      ih st2 hp' hnd' hmem' C7 hk2' hund' hdisj'
    have hnn_notin_rest : nn ∉ rest.map Prod.fst := by
      intro hmem3
      rcases List.mem_map.mp hmem3 with ⟨q2, hq2, hfst⟩
      exact hresthead q2 hq2 hfst
    have hnnRU1 : nn ∈ RU1.map Prod.fst := by
      rw [hRU1]
      exact mem_keys_ddel (self_mem_keys_dset _ nn members) hnename.symm
    rw [hloop, hren]
    refine ⟨I1, ?_, ?_, ?_, ?_, ?_, ?_, I8, I9, ?_⟩
    · intro l r hr hcond
      simp only [List.map_cons, List.mem_cons, not_or] at hr
      have hrnn : r ≠ nn := by
        rcases hcond with hc | hc
        · exact ne_of_heads hc hnnhead
        · exact fun he => hnnU (he ▸ hc)
      have hstep : dget (correctRightLoop st2 rest).kerning (l, r) =
          dget st2.kerning (l, r) := by
        apply I2 l r hr.2
        rcases hcond with hc | hc
        · exact Or.inl hc
        · refine Or.inr ?_
          show r ∈ RU1.map Prod.fst
          rw [hRU1]
          exact mem_keys_ddel (mem_keys_dset members hc) hr.1
      rw [hstep]
      exact C2 l r hr.1 hrnn
    · intro q hq l v hv
      rcases List.mem_cons.mp hq with hqh | hqt
      · have hq1 : q.1 = name := by rw [hqh]
        rw [hq1, applyRen_cons_self]
        have hhit : ((l, name), v) ∈ hits := by
          refine mem_getGlyphKern1.mpr ⟨?_, rfl⟩
          exact dget_some_mem (hq1 ▸ hv)
        have hk1v : dget k1 (l, nn) = some v := C1 l v hhit
        have hstep := I2 l nn hnn_notin_rest (Or.inr hnnRU1)
        rw [hstep]
        exact hk1v
      · have hqname : q.1 ≠ name := fun he =>
          hnotin (he ▸ List.mem_map_of_mem Prod.fst hqt)
        rw [applyRen_cons_ne hqname]
        apply I3 q hqt l v
        show dget k1 (l, q.1) = some v
        rw [C2 l q.1 hqname (hresthead q hqt)]
        exact hv
    · intro q hq l
      rcases List.mem_cons.mp hq with hqh | hqt
      · have hq1 : q.1 = name := by rw [hqh]
        rw [hq1]
        rw [I2 l name hnotin (Or.inl hname_at)]
        exact hk1name l
      · exact I4 q hqt l
    · intro q hq
      rcases List.mem_cons.mp hq with hqh | hqt
      · have hq1 : q.1 = name := by rw [hqh]
        have hq2 : q.2 = members := by rw [hqh]
        rw [hq1, hq2, applyRen_cons_self]
        apply I6 nn members hnnhead
        show dget RU1 nn = some members
        rw [hRU1, dget_ddel_ne _ hnename.symm, dget_dset_self]
      · have hqname : q.1 ≠ name := fun he =>
          hnotin (he ▸ List.mem_map_of_mem Prod.fst hqt)
        rw [applyRen_cons_ne hqname]
        exact I5 q hqt
    · intro k m hkhead hkget
      apply I6 k m hkhead
      have hkname : k ≠ name := (ne_of_heads hname_at hkhead).symm
      have hknn : k ≠ nn := by
        intro he
        apply hnnU
        rw [← he]
        exact List.mem_map_of_mem Prod.fst (dget_some_mem hkget)
      show dget RU1 k = some m
      rw [hRU1, dget_ddel_ne _ hkname, dget_dset_ne _ _ hknn]
      exact hkget
    · intro q hq
      rcases List.mem_cons.mp hq with hqh | hqt
      · have hq1 : q.1 = name := by rw [hqh]
        rw [hq1, applyRen_cons_self]
        exact hnnhead
      · have hqname : q.1 ≠ name := fun he =>
          hnotin (he ▸ List.mem_map_of_mem Prod.fst hqt)
        rw [applyRen_cons_ne hqname]
        exact I7 q hqt
    · intro l hl r
      apply I10 l ?_ r
      intro r2
      cases hv : dget k1 (l, r2) with
      | none => rfl
      | some v =>
        exfalso
        have hmemk1 : ((l, r2), v) ∈ k1 := dget_some_mem hv
        rcases C6 _ hmemk1 with h | ⟨l2, v2, hpe, hm⟩
        · have := dget_of_mem_nodup hknd h
          rw [hl r2] at this
          exact absurd this (by simp)
        · have hl2 : l2 = l := by
            have := congrArg (fun q => q.1.1) hpe
            simpa using this.symm
          have hmm : ((l2, name), v2) ∈ st.kerning := (mem_getGlyphKern1.mp hm).1
          have := dget_of_mem_nodup hknd hmm
          rw [hl2] at this
          rw [hl name] at this
          exact absurd this (by simp)

/-- C4: group-declared class names are corrected deterministically and all
kerning is re-keyed, for any number of left and right groups. First
conjunct: `makeFeaClassName` strips illegal characters, prefixes "@", and on
collision picks the first free numeric suffix starting at 1. Second
conjunct: after `correctUfoClassNames`, every group's members are held
under its corrected ("@"-headed, changed) name, the emitted glyph-class
declaration line uses the corrected identifier, every kerning entry is
re-keyed with each side replaced by its group's corrected name (sides that
are not group names are kept), values unchanged, and no kerning entry keyed
on an old group name survives on either side. -/
theorem c4_rename_correct :
    (∀ (st : KernState) (name : String),
      ∃ k, makeFeaClassName st name = candName ("@" ++ stripIllegal name) k ∧
        candName ("@" ++ stripIllegal name) k ∉ existingClassNames st ∧
        ∀ j < k, candName ("@" ++ stripIllegal name) j ∈ existingClassNames st) ∧
    (∀ st : KernState,
      (∀ q ∈ st.leftUfoClasses, reMatchPat leftUfoGroupPat q.1 = true) →
      (∀ q ∈ st.rightUfoClasses, reMatchPat rightUfoGroupPat q.1 = true) →
      (st.leftUfoClasses.map Prod.fst).Nodup →
      (st.rightUfoClasses.map Prod.fst).Nodup →
      (st.kerning.map Prod.fst).Nodup →
      (∀ p ∈ st.kerning,
        p.1.1.toList.head? ≠ some '@' ∧ p.1.2.toList.head? ≠ some '@') →
      (∀ n m, (n, m) ∈ st.leftUfoClasses →
        applyRen (leftRenameMap st) n ≠ n ∧
        strStarts (applyRen (leftRenameMap st) n) "@" = true ∧
        dget (correctUfoClassNames st).leftUfoClasses
          (applyRen (leftRenameMap st) n) = some m ∧
        (applyRen (leftRenameMap st) n ++ " = [" ++
            String.intercalate " " m ++ "];") ∈
          addGlyphClasses (correctUfoClassNames st)) ∧
      (∀ n m, (n, m) ∈ st.rightUfoClasses →
        applyRen (rightRenameMap st) n ≠ n ∧
        strStarts (applyRen (rightRenameMap st) n) "@" = true ∧
        dget (correctUfoClassNames st).rightUfoClasses
          (applyRen (rightRenameMap st) n) = some m ∧
        (applyRen (rightRenameMap st) n ++ " = [" ++
            String.intercalate " " m ++ "];") ∈
          addGlyphClasses (correctUfoClassNames st)) ∧
      (∀ l r v, dget st.kerning (l, r) = some v →
        dget (correctUfoClassNames st).kerning
          (applyRen (leftRenameMap st) l, applyRen (rightRenameMap st) r) =
          some v) ∧
      (∀ n ∈ st.leftUfoClasses.map Prod.fst, ∀ r,
        dget (correctUfoClassNames st).kerning (n, r) = none) ∧
      (∀ n ∈ st.rightUfoClasses.map Prod.fst, ∀ l,
        dget (correctUfoClassNames st).kerning (l, n) = none)) := by
  constructor
  · intro st name
    exact makeFeaClassName_first_free st name
      (exists_free_suffix (existingClassNames st) ("@" ++ stripIllegal name))
  · intro st hLpat hRpat hLnd hRnd hKnd hKat
    have hLheads : ∀ q ∈ st.leftUfoClasses, q.1.toList.head? = some 'p' :=
      fun q hq => head_of_reMatch
        (show leftUfoGroupPat.toList = 'p' :: "ublic.kern1.".toList from rfl)
        (hLpat q hq)
    have hRheads : ∀ q ∈ st.rightUfoClasses, q.1.toList.head? = some 'p' :=
      fun q hq => head_of_reMatch
        (show rightUfoGroupPat.toList = 'p' :: "ublic.kern2.".toList from rfl)
        (hRpat q hq)
    obtain ⟨K1, K2, K3, K4, K5, K6, K7, K8, K9⟩ :=
      correctLeftLoop_spec st.leftUfoClasses st hLheads hLnd
        (fun q hq => dget_of_mem_nodup hLnd hq) hKnd
        (fun p hp => (hKat p hp).2) (fun p hp => Or.inl (hKat p hp).1) hLnd
    obtain ⟨lu1, kk1, hfr⟩ := correctLeftLoop_frame st.leftUfoClasses st
    have hstLr : (correctLeftState st).rightUfoClasses = st.rightUfoClasses := by
      show (correctLeftLoop st st.leftUfoClasses).rightUfoClasses =
        st.rightUfoClasses
      rw [hfr]
    have hfinal : correctUfoClassNames st =
        correctRightLoop (correctLeftState st)
          (correctLeftState st).rightUfoClasses := rfl
    have hLkeys : ∀ p ∈ (correctLeftState st).leftUfoClasses,
        strStarts p.1 "@" = true := by
      apply correctLeftLoop_keys st.leftUfoClasses st hLpat
      intro p hp
      exact Or.inr ⟨p.2, by rwa [Prod.mk.eta]⟩
    have hdisjSt : ∀ k ∈ (correctLeftState st).rightUfoClasses.map Prod.fst,
        k ∉ (correctLeftState st).leftUfoClasses.map Prod.fst := by
      intro k hk hkL
      rcases List.mem_map.mp hkL with ⟨p, hp, hfst⟩
      have h1 := head_of_strStartsAt (hLkeys p hp)
      rw [hfst] at h1
      rw [hstLr] at hk
      rcases List.mem_map.mp hk with ⟨q, hq, hfst2⟩
      have h2 := hRheads q hq
      rw [hfst2, h1] at h2
      simp at h2
    have hRheads2 : ∀ q ∈ (correctLeftState st).rightUfoClasses,
        q.1.toList.head? = some 'p' := by
      intro q hq
      rw [hstLr] at hq
      exact hRheads q hq
    have hRnd2 : ((correctLeftState st).rightUfoClasses.map Prod.fst).Nodup := by
      rw [hstLr]
      exact hRnd
    obtain ⟨R1, R2, R3, R4, R5, R6, R7, R8, R9, R10⟩ :=
      correctRightLoop_spec (correctLeftState st).rightUfoClasses
        (correctLeftState st) hRheads2 hRnd2
        (fun q hq => dget_of_mem_nodup hRnd2 hq) K1
        (fun p hp => Or.inl (K2 p hp)) hRnd2 hdisjSt
    obtain ⟨ru2, kk2, hfr2⟩ := correctRightLoop_frame
      (correctLeftState st).rightUfoClasses (correctLeftState st)
    have hfinalL : (correctUfoClassNames st).leftUfoClasses =
        (correctLeftState st).leftUfoClasses := by
      rw [hfinal, hfr2]
    refine ⟨?_, ?_, ?_, ?_, ?_⟩
    · intro n m hmem0
      have hhd : (applyRen (leftRenameMap st) n).toList.head? = some '@' :=
        K8 (n, m) hmem0
      have hnhd : n.toList.head? = some 'p' := hLheads (n, m) hmem0
      refine ⟨?_, strStarts_of_head hhd, ?_, ?_⟩
      · intro he
        rw [he] at hhd
        rw [hnhd] at hhd
        simp at hhd
      · rw [hfinalL]
        exact K6 (n, m) hmem0
      · have hnotR : applyRen (leftRenameMap st) n ∉
            (correctUfoClassNames st).rightUfoClasses.map Prod.fst := fun hmemR =>
          R9 _ hmemR
            (List.mem_map_of_mem Prod.fst (dget_some_mem (K6 (n, m) hmem0)))
        have hdg : dget (dictUpdate (correctUfoClassNames st).leftUfoClasses
            (correctUfoClassNames st).rightUfoClasses)
            (applyRen (leftRenameMap st) n) = some m := by
          rw [dget_dictUpdate_not_mem hnotR, hfinalL]
          exact K6 (n, m) hmem0
        show _ ∈ addGlyphClasses (correctUfoClassNames st)
        unfold addGlyphClasses
        exact List.mem_map_of_mem _
          ((mem_isort classItemLe _ _).mpr (dget_some_mem hdg))
    · intro n m hmem0
      have hmem0s : (n, m) ∈ (correctLeftState st).rightUfoClasses := by
        rw [hstLr]
        exact hmem0
      have hhd : (applyRen (rightRenameMap st) n).toList.head? = some '@' :=
        R7 (n, m) hmem0s
      have hnhd : n.toList.head? = some 'p' := hRheads (n, m) hmem0
      refine ⟨?_, strStarts_of_head hhd, ?_, ?_⟩
      · intro he
        rw [he] at hhd
        rw [hnhd] at hhd
        simp at hhd
      · rw [hfinal]
        exact R5 (n, m) hmem0s
      · have hmemR : ((applyRen (rightRenameMap st) n, m) : String × List String) ∈
            (correctUfoClassNames st).rightUfoClasses := by
          rw [hfinal]
          exact dget_some_mem (R5 (n, m) hmem0s)
        have hR8f : ((correctUfoClassNames st).rightUfoClasses.map Prod.fst).Nodup := by
          rw [hfinal]
          exact R8
        have hdg : dget (dictUpdate (correctUfoClassNames st).leftUfoClasses
            (correctUfoClassNames st).rightUfoClasses)
            (applyRen (rightRenameMap st) n) = some m :=
          dget_dictUpdate_mem hR8f hmemR _
        show _ ∈ addGlyphClasses (correctUfoClassNames st)
        unfold addGlyphClasses
        exact List.mem_map_of_mem _
          ((mem_isort classItemLe _ _).mpr (dget_some_mem hdg))
    · intro l r v hv
      have hpmem : ((l, r), v) ∈ st.kerning := dget_some_mem hv
      have hlat : l.toList.head? ≠ some '@' := (hKat _ hpmem).1
      have hrat : r.toList.head? ≠ some '@' := (hKat _ hpmem).2
      have h1 : dget (correctLeftState st).kerning
          (applyRen (leftRenameMap st) l, r) = some v := by
        show dget (correctLeftLoop st st.leftUfoClasses).kerning
          (applyRen (leftRenames st st.leftUfoClasses) l, r) = some v
        by_cases hlm : l ∈ st.leftUfoClasses.map Prod.fst
        · rcases List.mem_map.mp hlm with ⟨q, hq, hfst⟩
          have h2 := K4 q hq r v (by rw [hfst]; exact hv)
          rw [hfst] at h2
          exact h2
        · have he : applyRen (leftRenames st st.leftUfoClasses) l = l := by
            apply applyRen_not_mem
            rw [leftRenames_keys st.leftUfoClasses st hLheads]
            exact hlm
          rw [he, K3 l r hlm (Or.inl hlat)]
          exact hv
      rw [hfinal]
      by_cases hrm : r ∈ st.rightUfoClasses.map Prod.fst
      · have hrm2 : r ∈ (correctLeftState st).rightUfoClasses.map Prod.fst := by
          rw [hstLr]
          exact hrm
        rcases List.mem_map.mp hrm2 with ⟨q, hq, hfst⟩
        have h2 := R3 q hq (applyRen (leftRenameMap st) l) v (by rw [hfst]; exact h1)
        rw [hfst] at h2
        exact h2
      · have hrm2 : r ∉ (correctLeftState st).rightUfoClasses.map Prod.fst := by
          rw [hstLr]
          exact hrm
        have he : applyRen (rightRenameMap st) r = r := by
          apply applyRen_not_mem
          show r ∉ (rightRenames (correctLeftState st)
            (correctLeftState st).rightUfoClasses).map Prod.fst
          rw [rightRenames_keys _ _ hRheads2]
          exact hrm2
        rw [he, R2 (applyRen (leftRenameMap st) l) r hrm2 (Or.inl hrat)]
        exact h1
    · intro n hmem0 r
      rcases List.mem_map.mp hmem0 with ⟨q, hq, hfst⟩
      rw [hfinal]
      refine R10 n ?_ r
      intro r2
      rw [← hfst]
      exact K5 q hq r2
    · intro n hmem0 l
      have hmem0s : n ∈ (correctLeftState st).rightUfoClasses.map Prod.fst := by
        rw [hstLr]
        exact hmem0
      rcases List.mem_map.mp hmem0s with ⟨q, hq, hfst⟩
      rw [hfinal, ← hfst]
      exact R4 q hq l

/-- C4 witness: on a font with two left groups and one right group (all
legally named, still renamed), the kerning entry (public.kern1.L, X) = -7
ends up under the corrected names, group public.kern1.M keeps its members
under its corrected name with a matching declaration line, and no entry
keyed on an old group name survives. -/
theorem c4_witness :
    dget (correctUfoClassNames c4StateC).kerning
      (applyRen (leftRenameMap c4StateC) "public.kern1.L",
        applyRen (rightRenameMap c4StateC) "X") = some (-7) ∧
    dget (correctUfoClassNames c4StateC).leftUfoClasses
      (applyRen (leftRenameMap c4StateC) "public.kern1.M") = some ["B", "C"] ∧
    (applyRen (leftRenameMap c4StateC) "public.kern1.M" ++ " = [" ++
        String.intercalate " " ["B", "C"] ++ "];") ∈
      addGlyphClasses (correctUfoClassNames c4StateC) ∧
    dget (correctUfoClassNames c4StateC).kerning ("public.kern1.L", "X") = none := by
  obtain ⟨hA, hB, hC, hD, hE⟩ := c4_rename_correct.2 c4StateC (by decide)
    (by decide) (by decide) (by decide) (by decide) (by decide)
  obtain ⟨_, _, hM2, hM3⟩ := hA "public.kern1.M" ["B", "C"]
    (by decide)
  refine ⟨?_, hM2, hM3, ?_⟩
  · exact hC "public.kern1.L" "X" (-7) (by decide)
  · exact hD "public.kern1.L" (by decide) "X"
